import Mathlib

/-!
# share: chunked-upload assembly and content-store lifecycle

A shallow embedding of `main.go` of the `share` file drop server, and theorems
about it.  Go `int`/`int64` values are integers reduced by `wrapInt64` wherever
the source does arithmetic that can leave the 64-bit range; the `float64`
setting `MinutesPerGigabyte` is the rational number it denotes; byte strings
are lists of bytes; the global maps are functions into `Option`.
-/

namespace Share

/-! ## Machine integers and durations -/

/-- Two's-complement reduction of an integer into the `int64` range. -/
def wrapInt64 (x : Int) : Int :=
  (x + 9223372036854775808) % 18446744073709551616 - 9223372036854775808

/-- Nanoseconds in `time.Minute`. -/
def Minute : Int := 60000000000

/-- The conversion `time.Duration(c.MinutesPerGigabyte)` of the `float64` field to `int64`: the
fraction is discarded (truncation toward zero).  The field is given by the rational number it
denotes; it is taken to be finite and its whole part to lie in the `int64` range, outside of which
Go leaves the result to the implementation. -/
def durationOfMinutes (m : ℚ) : Int := Int.tdiv m.num (m.den : Int)

/-- The assignment to `p.TimeToDeletion` in `loadPageInfo`:
`(time.Duration(c.MinutesPerGigabyte) * time.Minute) * time.Duration(1000000000/p.Size)`.
`mpg` is the configured `c.MinutesPerGigabyte`, `size` is `p.Size`.
The integer division panics on a zero divisor (`none`); Go's `/` truncates toward zero and
both products wrap in `int64`. -/
def timeToDeletion (mpg : ℚ) (size : Int) : Option Int :=
  if size = 0 then none
  else some (wrapInt64 (wrapInt64 (durationOfMinutes mpg * Minute) * Int.tdiv 1000000000 size))

/-! ## Bytes, errors and the library functions the code calls -/

/-- A byte of a stream or of a file. -/
abbrev Byte := UInt8

/-- Go `error` values that the modelled code paths produce or inspect. -/
inductive GoError where
  /-- The sentinel `io.EOF`. -/
  | EOF
  /-- The `fmt.Errorf("Upload exceeds maximum size (%s).", ...)` of `CopyMax`. -/
  | exceedsMaximumSize
  /-- An error of the operating system (`os.Open`, `os.Rename`, ...) on the named operation. -/
  | os (op : String)
  deriving DecidableEq, Repr

/-- Standard-library functions that `main.go` calls and that are not part of the repository.
They are kept abstract: every theorem holds for all of them. -/
structure Lib where
  /-- The bytes a `gzip.Writer` leaves in its file once flushed and closed, for the bytes fed. -/
  gzip : List Byte → List Byte
  /-- `crypto/md5`: the digest of the bytes written to the hash. -/
  md5 : List Byte → List Byte
  /-- `hash/fnv` 32-bit FNV-1a `Sum32` of the bytes of a string. -/
  fnv32a : String → Nat
  /-- The feedback register of `math/rand` after `Seed(seed)` (its table of constants is not
  reproduced). -/
  seedVec : Int → Nat → Nat

/-! ## `Filemd5Sum` -/

/-- `dropCR` of `bufio`: drop one trailing carriage return. -/
def dropCR (data : List Byte) : List Byte :=
  if data.getLast? = some 13 then data.dropLast else data

/-- `bufio.MaxScanTokenSize`. -/
def MaxScanTokenSize : Nat := 65536

/-- The tokens that successive `scanner.Scan()` calls of a default `bufio.Scanner` (split function
`ScanLines`) yield for a stream: `cur` is the pending, not yet terminated line.  Every line is
returned without its `\n` and without a trailing `\r`; a non-empty last line needs no `\n`; a line
that does not fit the token buffer ends the scan (`ErrTooLong`). -/
def scanLines : List Byte → List Byte → List (List Byte)
  | [], cur =>
    if cur = [] then [] else if MaxScanTokenSize ≤ cur.length then [] else [dropCR cur]
  | b :: rest, cur =>
    if b = 10 then
      if MaxScanTokenSize ≤ cur.length then [] else dropCR cur :: scanLines rest []
    else scanLines rest (cur ++ [b])

/-- The bytes that the loop `for scanner.Scan() { hash.Write(scanner.Bytes()) }` of `Filemd5Sum`
writes to the hash, for a file with the given content. -/
def hashedBytes (file : List Byte) : List Byte :=
  (scanLines file []).flatten

/-- One lowercase hexadecimal digit. -/
def hexDigit (n : Nat) : Char :=
  "0123456789abcdef".data.getD n '0'

/-- `hex.EncodeToString`. -/
def EncodeToString (bs : List Byte) : String :=
  String.mk (bs.flatMap fun b => [hexDigit (b.toNat / 16), hexDigit (b.toNat % 16)])

/-- `Filemd5Sum`: `file` is the content of the file at `pathToFile`, `none` when it cannot be
opened (the result is then the empty string and the error of `os.Open`). -/
def Filemd5Sum (lib : Lib) (file : Option (List Byte)) : String × Option GoError :=
  match file with
  | none => ("", some (GoError.os "open"))
  | some content => (EncodeToString (lib.md5 (hashedBytes content)), none)

/-! ## `CopyMax` -/

/-- `io.CopyN(dst, src, n)` for a reader that yields `src` and then end-of-file and a writer that
never fails: the bytes written to `dst`, the count and the error. -/
def CopyN (src : List Byte) (n : Int) : List Byte × Int × Option GoError :=
  let data := src.take n.toNat
  let written : Int := data.length
  if written = n then (data, n, none)
  else if written < n then (data, written, some GoError.EOF)
  else (data, written, none)

/-- `CopyMax(dst, src, maxBytes)`: the bytes written to `dst`, `n` and `err`. -/
def CopyMax (src : List Byte) (maxBytes : Int) : List Byte × Int × Option GoError :=
  let r := CopyN src maxBytes
  if r.2.2 ≠ none ∧ r.2.2 ≠ some GoError.EOF then r
  else if r.2.1 ≥ maxBytes then (r.1, r.2.1, some GoError.exceedsMaximumSize)
  else (r.1, r.2.1, none)

/-! ## `RandStringBytesMaskImpr` and the `math/rand` source behind it -/

/-- The constant `letterBytes`. -/
def letterBytes : String := "abcdefghijklmnopqrstuvwxyz0123456789"

/-- The constant `letterIdxBits`. -/
def letterIdxBits : Nat := 6

/-- The constant `letterIdxMask`, `1<<letterIdxBits - 1`. -/
def letterIdxMask : Nat := 2 ^ letterIdxBits - 1

/-- The constant `letterIdxMax`, `63 / letterIdxBits`. -/
def letterIdxMax : Nat := 63 / letterIdxBits

/-- Length of the feedback register of `math/rand` (`rngLen`). -/
def rngLen : Nat := 607

/-- Tap distance of the feedback register of `math/rand` (`rngTap`). -/
def rngTap : Nat := 273

/-- The additive lagged Fibonacci source `rngSource` of `math/rand`; `vec` holds the 64-bit
patterns of the register. -/
structure rngSource where
  /-- Index `tap` into `vec`. -/
  tap : Nat
  /-- Index `feed` into `vec`. -/
  feed : Nat
  /-- The feedback register. -/
  vec : Nat → Nat

/-- `rngSource.Uint64`: step both indices down cyclically, add the two register cells modulo
`2^64`, store the sum at `feed` and return it. -/
def rngSource.Uint64 (rng : rngSource) : Nat × rngSource :=
  let tap := if rng.tap = 0 then rngLen - 1 else rng.tap - 1
  let feed := if rng.feed = 0 then rngLen - 1 else rng.feed - 1
  let x := (rng.vec feed + rng.vec tap) % 18446744073709551616
  (x, { tap := tap, feed := feed, vec := Function.update rng.vec feed x })

/-- `rngSource.Int63`: `Uint64() & rngMask`. -/
def rngSource.Int63 (rng : rngSource) : Nat × rngSource :=
  ((rng.Uint64).1 % 9223372036854775808, (rng.Uint64).2)

/-- `rand.New(rand.NewSource(seed))`. -/
def NewSource (lib : Lib) (seed : Int) : rngSource :=
  { tap := 0, feed := rngLen - rngTap, vec := lib.seedVec seed }

/-- The variables of the loop of `RandStringBytesMaskImpr`. -/
structure RandLoop where
  /-- The generator `src`. -/
  src : rngSource
  /-- The index `i` of the next character to fill. -/
  i : Int
  /-- The unused bits of the last `Int63`. -/
  cache : Nat
  /-- How many letter indices `cache` still holds. -/
  remain : Nat
  /-- The result buffer `b`. -/
  b : List Char

/-- One pass through the body of the loop of `RandStringBytesMaskImpr`. -/
def RandLoop.body (s : RandLoop) : RandLoop :=
  let drawn := s.src.Int63
  let cache := if s.remain = 0 then drawn.1 else s.cache
  let remain := if s.remain = 0 then letterIdxMax else s.remain
  let src := if s.remain = 0 then drawn.2 else s.src
  let idx := cache % (letterIdxMask + 1)
  if idx < letterBytes.length then
    { src := src, i := s.i - 1, cache := cache / 2 ^ letterIdxBits, remain := remain - 1,
      b := s.b.set s.i.toNat (letterBytes.data.getD idx 'a') }
  else
    { src := src, i := s.i, cache := cache / 2 ^ letterIdxBits, remain := remain - 1, b := s.b }

/-- The loop `for ...; i >= 0; { ... }` of `RandStringBytesMaskImpr`, run for at most `fuel`
passes: `none` when the loop is still running after that many. -/
def RandLoop.run : Nat → RandLoop → Option (List Char)
  | 0, s => if s.i < 0 then some s.b else none
  | fuel + 1, s => if s.i < 0 then some s.b else RandLoop.run fuel s.body

/-- `RandStringBytesMaskImpr(s, n)` with the loop cut off after `fuel` passes. -/
def RandStringBytesMaskImpr (lib : Lib) (fuel : Nat) (s : String) (n : Nat) : Option String :=
  let seed : Int := lib.fnv32a s
  let src := NewSource lib seed
  let first := src.Int63
  (RandLoop.run fuel
    { src := first.2, i := (n : Int) - 1, cache := first.1, remain := letterIdxMax,
      b := List.replicate n (Char.ofNat 0) }).map String.mk

/-- A number of passes after which the loop of `RandStringBytesMaskImpr(s, n)` has ended, whatever
the seed. -/
def randFuel (n : Nat) : Nat := 176041 * n + 1

/-! ## The content directory as the upload path sees it -/

/-- The configuration `c` (the fields the modelled code reads).  `MinutesPerGigabyte` is the
`float64` field, given by the rational number it denotes. -/
structure Config where
  /-- The ceiling `c.MaxBytesTotal`. -/
  MaxBytesTotal : Int
  /-- The ceiling `c.MaxBytesPerFile`. -/
  MaxBytesPerFile : Int
  /-- The retention constant in minutes, possibly fractional. -/
  MinutesPerGigabyte : ℚ
  /-- The content directory `c.ContentDirectory`, as the slash-separated components of the path
  under which `filepath.Walk` names its entries, that is of
  `filepath.Join(c.ContentDirectory, name)` without the last component: `["data"]` for the
  default `data` and for `./data`, `["", "srv", "share"]` for `/srv/share`, `["a", "b"]` for
  `a/b`, and `[]` for `.`. -/
  ContentDirectory : List String

/-- The persisted fields of a `Page` (the display-only fields are left out). -/
structure Page where
  /-- The identifier `ID`. -/
  ID : String
  /-- The original file name `Name`. -/
  Name : String
  /-- The content hash `Hash`. -/
  Hash : String
  /-- The logical size `Size`. -/
  Size : Int
  /-- The detected `ContentType`. -/
  ContentType : String
  /-- The time `Modified`, in nanoseconds. -/
  Modified : Int
  /-- The computed `TimeToDeletion`, in nanoseconds. -/
  TimeToDeletion : Int
  deriving DecidableEq, Repr

/-- The encoders and sniffers used when an object is published or loaded; like `Lib` they are
outside the repository and kept abstract. -/
structure Codec where
  /-- The gzip-compressed, indented JSON encoding of a page (`enc.Encode(p)`). -/
  encodePage : Page → List Byte
  /-- The inverse step of `loadPageInfo`: gunzip and JSON-decode; `none` when either fails. -/
  decodePage : List Byte → Option Page
  /-- The result of `GetFileContentType` for a file name and the file content. -/
  contentType : String → List Byte → String

/-- Which operating-system calls of `copyToContentDirectory` fail in a run. -/
structure Faults where
  /-- The call `os.RemoveAll` of an existing directory fails. -/
  removeAll : Bool
  /-- The call `os.MkdirAll` fails. -/
  mkdirAll : Bool
  /-- The call `os.Rename` fails. -/
  rename : Bool
  /-- The call `GetFileContentType` fails. -/
  contentType : Bool
  /-- The call `os.Create` of the sidecar fails. -/
  create : Bool
  /-- The call `enc.Encode`, or the `wf.Flush` after it, fails. -/
  encode : Bool
  /-- The files of the old directory that a failing `os.RemoveAll` does not get removed: it
  removes what it can before it returns its error. -/
  survivors : String → Bool
  /-- The bytes that are in the sidecar after a failing `enc.Encode` and the deferred
  `wf.Close()`. -/
  partialSidecar : List Byte

/-- No call fails. -/
def Faults.none : Faults :=
  { removeAll := false, mkdirAll := false, rename := false, contentType := false,
    create := false, encode := false, survivors := fun _ => true, partialSidecar := [] }

/-- The global maps of `main.go` and the content directory: `temps` are the regular files directly
in `c.ContentDirectory`, `dirs` its sub-directories with their files, both by name. -/
structure State where
  /-- The map `uploadsInProgress`. -/
  uploadsInProgress : String → Option Int
  /-- The map `uploadsFileNames`. -/
  uploadsFileNames : String → Option String
  /-- The map `uploadsHash`. -/
  uploadsHash : String → Option String
  /-- Regular files directly in the content directory. -/
  temps : String → Option (List Byte)
  /-- Directories in the content directory. -/
  dirs : String → Option (String → Option (List Byte))
  /-- The source of fresh names for `ioutil.TempFile`: the names `tempName k` with
  `k >= nextTemp` are the ones not handed out yet. -/
  nextTemp : Nat

/-- The name `ioutil.TempFile(c.ContentDirectory, "sharetemp")` gives its `k`-th file. -/
def tempName (k : Nat) : String := "sharetemp" ++ toString k

/-- `ioutil.TempFile(c.ContentDirectory, "sharetemp")`: a new, empty file under a name not in
use. -/
def TempFile (st : State) : String × State :=
  (tempName st.nextTemp,
    { st with temps := Function.update st.temps (tempName st.nextTemp) (some []),
              nextTemp := st.nextTemp + 1 })

/-- Write `content` to the regular file `name`. -/
def State.writeTemp (st : State) (name : String) (content : List Byte) : State :=
  { st with temps := Function.update st.temps name (some content) }

/-- `os.Remove` of the regular file `name`. -/
def State.removeTemp (st : State) (name : String) : State :=
  { st with temps := Function.update st.temps name none }

/-- `copyToContentDirectory(fname, tempFname, originalSize)`: the state afterwards, `fnameFull`
and `err`.  The deferred `os.Remove(tempFname)` runs on every exit; the deferred, asynchronous
`go TrimContent()` is not part of the call's own effect.  A directory is a map from file names
to contents, so `fname` stands for a single path component, as `FileName()` of a multipart part
is; `os.Create` of the sidecar replaces a file of the same name. -/
def copyToContentDirectory (lib : Lib) (cd : Codec) (flt : Faults) (now : Int) (st : State)
    (fname tempFname : String) (originalSize : Int) : State × String × Option GoError :=
  let hash := (Filemd5Sum lib (st.temps tempFname)).1
  let id := (RandStringBytesMaskImpr lib (randFuel 6) hash 6).getD ""
  if (st.dirs id).isSome ∧ flt.removeAll = true then
    let left : Option (String → Option (List Byte)) :=
      (st.dirs id).map fun old name => if flt.survivors name = true then old name else none
    let st0 : State := { st with dirs := Function.update st.dirs id left }
    (st0.removeTemp tempFname, "", some (GoError.os "removeall"))
  else
    let st1 : State := { st with dirs := Function.update st.dirs id none }
    if flt.mkdirAll = true then (st1.removeTemp tempFname, "", some (GoError.os "mkdirall"))
    else
      let st2 : State := { st1 with dirs := Function.update st1.dirs id (some fun _ => none) }
      match st2.temps tempFname with
      | none => (st2.removeTemp tempFname, "", some (GoError.os "rename"))
      | some payload =>
        if flt.rename = true then (st2.removeTemp tempFname, "", some (GoError.os "rename"))
        else
          let files1 : String → Option (List Byte) := Function.update (fun _ => none) fname
            (some payload)
          let st3 : State :=
            { st2 with temps := Function.update st2.temps tempFname none,
                       dirs := Function.update st2.dirs id (some files1) }
          let fnameFull := id ++ "/" ++ fname
          if flt.contentType = true then
            (st3.removeTemp tempFname, fnameFull, some (GoError.os "open"))
          else if flt.create = true then
            (st3.removeTemp tempFname, fnameFull, some (GoError.os "create"))
          else
            let p : Page :=
              { ID := id, Name := fname, Hash := hash, Size := originalSize,
                ContentType := cd.contentType fname payload, Modified := now,
                TimeToDeletion := 0 }
            let sidecar := if flt.encode = true then flt.partialSidecar else cd.encodePage p
            let files2 := Function.update files1 (id ++ ".json.gz") (some sidecar)
            let st4 : State := { st3 with dirs := Function.update st3.dirs id (some files2) }
            if flt.encode = true then
              (st4.removeTemp tempFname, fnameFull, some (GoError.os "encode"))
            else (st4.removeTemp tempFname, fnameFull, none)

/-- `writeAllBytes(fname, src)`: the state afterwards, `fnameFull` and `err`. -/
def writeAllBytes (lib : Lib) (cd : Codec) (flt : Faults) (now : Int) (c : Config) (st : State)
    (fname : String) (src : List Byte) : State × String × Option GoError :=
  let f := TempFile st
  let r := CopyMax src c.MaxBytesPerFile
  let st1 := f.2.writeTemp f.1 (lib.gzip r.1)
  match r.2.2 with
  | some e => ((st1.removeTemp f.1).removeTemp f.1, "", some e)
  | none =>
    let out := copyToContentDirectory lib cd flt now st1 fname f.1 r.2.1
    (out.1.removeTemp f.1, out.2.1, out.2.2)

/-! ## `handlePost`: staging a chunk, counting it, and finalization -/

/-- The values `handlePost` reads from the multipart form: the integers are the results of
`strconv.Atoi` (so they lie in the `int64` range), `file` is the content of the part `file`. -/
structure PostForm where
  /-- The base name of `handler.Filename`. -/
  Filename : String
  /-- The parsed `dzchunkindex`. -/
  dzchunkindex : Int
  /-- The parsed `dztotalchunkcount`. -/
  dztotalchunkcount : Int
  /-- The parsed `dzchunksize`. -/
  dzchunksize : Int
  /-- The session token `dzuuid`. -/
  dzuuid : String
  /-- The bytes of the uploaded part. -/
  file : List Byte

/-- The key `fmt.Sprintf("%s%d", uuid, chunkNum)` of `uploadsFileNames`. -/
def chunkKey (uuid : String) (chunkNum : Int) : String := uuid ++ toString chunkNum

/-- What one run of the finalization closure of `handlePost` did: the bytes it fed to the
compressing writer, the arguments of its call of `copyToContentDirectory` (`none` when it returned
before the call) and its `err`. -/
structure Finalization where
  /-- The bytes written to `fFinalgz`, in order. -/
  fed : List Byte
  /-- The arguments `(fname, fFinal.Name(), originalSize)` of `copyToContentDirectory`. -/
  call : Option (String × String × Int)
  /-- The error the closure returned. -/
  err : Option GoError
  deriving DecidableEq

/-- How `handlePost` ended, up to the release of `uploadsLock`. -/
inductive PostResult where
  /-- The response `Upload exceeds max file size`, sent before anything is staged. -/
  | tooLarge
  /-- The chunk was staged and counted and the session is not complete; `err` is the value of
  `err` after the lock is released. -/
  | counted (err : Option GoError)
  /-- The chunk was staged and counted and this submission ran the finalization. -/
  | finalized (fin : Finalization)
  deriving DecidableEq

/-- The loop `for i := 1; i <= totalChunks; i++` of the finalization, with `k` passes left and
`i` the current index; `fed` and `originalSize` accumulate what went to the compressing writer.
File sizes are far below `2^63`, so `originalSize` is not reduced. -/
def catChunks (uuid : String) : Nat → Int → State → List Byte → Int →
    State × List Byte × Int × Option GoError
  | 0, _, st, fed, originalSize => (st, fed, originalSize, none)
  | k + 1, i, st, fed, originalSize =>
    let key := chunkKey uuid i
    let name := st.uploadsFileNames key
    let st1 : State := { st with uploadsFileNames := Function.update st.uploadsFileNames key none }
    match name.bind st1.temps with
    | none => (st1, fed, originalSize, some (GoError.os "open"))
    | some content =>
      catChunks uuid k (i + 1) (st1.removeTemp (name.getD "")) (fed ++ content)
        (originalSize + content.length)

/-- The closure `func() (err error) { ... }()` that `handlePost` runs under `uploadsLock` when the
count reaches `totalChunks`. -/
def finalize (lib : Lib) (cd : Codec) (flt : Faults) (now : Int) (st : State) (uuid : String)
    (totalChunks : Int) (fname : String) : State × Finalization :=
  let st1 : State :=
    { st with uploadsInProgress := Function.update st.uploadsInProgress uuid none }
  let fFinal := TempFile st1
  let cat := catChunks uuid totalChunks.toNat 1 fFinal.2 [] 0
  match cat.2.2.2 with
  | some e => (cat.1, { fed := cat.2.1, call := none, err := some e })
  | none =>
    let st2 := cat.1.writeTemp fFinal.1 (lib.gzip cat.2.1)
    let out := copyToContentDirectory lib cd flt now st2 fname fFinal.1 cat.2.2.1
    let st3 : State :=
      { out.1 with uploadsHash := Function.update out.1.uploadsHash uuid (some out.2.1) }
    (st3, { fed := cat.2.1, call := some (fname, fFinal.1, cat.2.2.1), err := out.2.2 })

/-- `handlePost` from the parsing of the form to the release of `uploadsLock` (the staging of a
request touches only its own new file, so the whole run is taken as one step).  The reads of the
form and `ioutil.TempFile` are taken not to fail; the session counter stays far below `2^63`. -/
def handlePost (lib : Lib) (cd : Codec) (flt : Faults) (now : Int) (c : Config) (st : State)
    (r : PostForm) : State × PostResult :=
  let chunkNum := wrapInt64 (r.dzchunkindex + 1)
  let totalChunks := r.dztotalchunkcount
  let chunkSize := r.dzchunksize
  if wrapInt64 (totalChunks * chunkSize) > c.MaxBytesPerFile then (st, PostResult.tooLarge)
  else
    let uuid := r.dzuuid
    let f := TempFile st
    let cp := CopyMax r.file c.MaxBytesPerFile
    let st1 := f.2.writeTemp f.1 cp.1
    let count : Int := (st1.uploadsInProgress uuid).getD 0 + 1
    let st2 : State :=
      { st1 with
        uploadsInProgress := Function.update st1.uploadsInProgress uuid (some count),
        uploadsFileNames :=
          Function.update st1.uploadsFileNames (chunkKey uuid chunkNum) (some f.1) }
    if count = totalChunks then
      let fin := finalize lib cd flt now st2 uuid totalChunks r.Filename
      (fin.1, PostResult.finalized fin.2)
    else (st2, PostResult.counted cp.2.2)

/-- The states and results of a sequence of `handlePost` runs, in the order in which they
happen. -/
def runPosts (lib : Lib) (cd : Codec) (flt : Faults) (now : Int) (c : Config) :
    State → List PostForm → State × List PostResult
  | st, [] => (st, [])
  | st, r :: rs =>
    let o := handlePost lib cd flt now c st r
    let rest := runPosts lib cd flt now c o.1 rs
    (rest.1, o.2 :: rest.2)

/-! ## The content directory as the retention sweeps see it -/

/-- What a name directly in the content directory stands for. -/
inductive Node where
  /-- A regular file (a staging file) with its content. -/
  | file (content : List Byte)
  /-- A directory with its regular files, in lexical order. -/
  | dir (files : List (String × List Byte))
  deriving DecidableEq

/-- The entries of the content directory, by name, in the lexical order in which
`ioutil.ReadDir` and `filepath.Walk` visit them. -/
abbrev ContentDir := List (String × Node)

/-- The regular files that `filepath.Walk(path, ...)` visits in `DirSize`, in order, each with the
slash-separated components of its `pathName` and its size.  `root` holds the components of
`path` as described at `Config.ContentDirectory`. -/
def walkFiles (root : List String) (dir : ContentDir) : List (List String × Int) :=
  dir.flatMap fun e =>
    match e.2 with
    | Node.file content => [(root ++ [e.1], (content.length : Int))]
    | Node.dir files => files.map fun f => (root ++ [e.1, f.1], (f.2.length : Int))

/-- The variables `size`, `biggestFileID`, `biggestFileSize` of `DirSize`. -/
structure DirSizeAcc where
  /-- The running total `size`. -/
  size : Int
  /-- The value of `biggestFileID` so far. -/
  biggestFileID : String
  /-- The size of the biggest file so far. -/
  biggestFileSize : Int

/-- The callback of `filepath.Walk` in `DirSize`, for one regular file given by the components
of its path and its size.  `strings.Split(pathName, "/")[1]` is the second component; the index
expression panics (`none`) when the path has a single component. -/
def DirSizeAcc.visit (acc : DirSizeAcc) (f : List String × Int) : Option DirSizeAcc :=
  if f.2 > acc.biggestFileSize then
    match f.1[1]? with
    | none => none
    | some id => some { size := acc.size + f.2, biggestFileID := id, biggestFileSize := f.2 }
  else some { acc with size := acc.size + f.2 }

/-- The walk of `DirSize` over the regular files `fs`, from the variables `acc`. -/
def DirSizeAcc.visitAll : DirSizeAcc → List (List String × Int) → Option DirSizeAcc
  | acc, [] => some acc
  | acc, f :: fs =>
    match acc.visit f with
    | none => none
    | some acc' => DirSizeAcc.visitAll acc' fs

/-- `DirSize(path)`: the total size and `biggestFileID`, or `none` for a panic. -/
def DirSize (root : List String) (dir : ContentDir) : Option (Int × String) :=
  match DirSizeAcc.visitAll { size := 0, biggestFileID := "", biggestFileSize := 0 }
      (walkFiles root dir) with
  | none => none
  | some acc => some (acc.size, acc.biggestFileID)

/-- `os.RemoveAll(path.Join(c.ContentDirectory, name))` for a name that is a single path
component other than `.` and `..`, or empty; the empty name joins to the content directory
itself.  A name that is not an entry removes nothing. -/
def RemoveAll (dir : ContentDir) (name : String) : ContentDir :=
  if name = "" then [] else dir.filter fun e => e.1 ≠ name

/-- The loop of `TrimContent` with `k` passes left: the directory afterwards and the names it
has passed to `os.RemoveAll`, in order; `none` for a panic. -/
def trimLoop (c : Config) : Nat → ContentDir → Option (ContentDir × List String)
  | 0, dir => some (dir, [])
  | k + 1, dir =>
    match DirSize c.ContentDirectory dir with
    | none => none
    | some d =>
      if d.1 < c.MaxBytesTotal ∨ d.2 = "" then some (dir, [])
      else
        match trimLoop c k (RemoveAll dir d.2) with
        | none => none
        | some r => some (r.1, d.2 :: r.2)

/-- `TrimContent()`: the counter `i` admits 30 passes. -/
def TrimContent (c : Config) (dir : ContentDir) : Option (ContentDir × List String) :=
  trimLoop c 30 dir

/-- The outcome of `loadPageInfo`. -/
inductive Loaded where
  /-- A runtime panic (integer division by zero). -/
  | panic
  /-- The sidecar cannot be opened or decoded. -/
  | failed
  /-- The page, with `TimeToDeletion` computed. -/
  | ok (p : Page)
  deriving DecidableEq

/-- The content of the file `name` in the directory `id` of the content directory, when there is
one. -/
def readIn (dir : ContentDir) (id name : String) : Option (List Byte) :=
  match dir.find? fun e => e.1 = id with
  | some (_, Node.dir files) => (files.find? fun f => f.1 = name).map fun f => f.2
  | _ => none

/-- `loadPageInfo(id)`. -/
def loadPageInfo (cd : Codec) (c : Config) (dir : ContentDir) (id : String) : Loaded :=
  match (readIn dir id (id ++ ".json.gz")).bind cd.decodePage with
  | none => Loaded.failed
  | some p =>
    match timeToDeletion c.MinutesPerGigabyte p.Size with
    | none => Loaded.panic
    | some ttl => Loaded.ok { p with TimeToDeletion := ttl }

/-- `os.Remove` of an entry of the content directory: a regular file or an empty directory. -/
def Remove (dir : ContentDir) (name : String) : ContentDir :=
  dir.filter fun e =>
    match e.2 with
    | Node.file _ => e.1 ≠ name
    | Node.dir files => e.1 ≠ name ∨ files ≠ []

/-- The loop of `deleteOld` over the entries `ioutil.ReadDir` returned; `none` is a panic.
`now` is the clock reading of the sweep, and `time.Since(p.Modified)` and `p.TimeToDeletion` are
compared as exact numbers of nanoseconds. -/
def deleteOldLoop (cd : Codec) (c : Config) (now : Int) (removeTempFiles : Bool) :
    List String → ContentDir → Option ContentDir
  | [], dir => some dir
  | f :: rest, dir =>
    if "sharetemp".data.isPrefixOf f.data then
      deleteOldLoop cd c now removeTempFiles rest (if removeTempFiles then Remove dir f else dir)
    else
      match loadPageInfo cd c dir f with
      | Loaded.panic => none
      | Loaded.failed => deleteOldLoop cd c now removeTempFiles rest dir
      | Loaded.ok p =>
        if now - p.Modified < p.TimeToDeletion then
          deleteOldLoop cd c now removeTempFiles rest dir
        else deleteOldLoop cd c now removeTempFiles rest (RemoveAll dir p.ID)

/-- `deleteOld(removeTempFiles...)`: the content directory after the sweep, `none` when the sweep
panics.  It calls `DirSize` first, whose result it only logs. -/
def deleteOld (cd : Codec) (c : Config) (now : Int) (removeTempFiles : Bool)
    (dir : ContentDir) : Option ContentDir :=
  match DirSize c.ContentDirectory dir with
  | none => none
  | some _ => deleteOldLoop cd c now removeTempFiles (dir.map fun e => e.1) dir

/-! ## Concrete values for evaluating the definitions -/

/-- The state right after `main` has made the three maps, with an empty content directory. -/
def State.init : State :=
  { uploadsInProgress := fun _ => none, uploadsFileNames := fun _ => none,
    uploadsHash := fun _ => none, temps := fun _ => none, dirs := fun _ => none, nextTemp := 0 }

/-- A stand-in for the library functions: no compression, the identity as digest, and a generator
register of zeros. -/
def Lib.plain : Lib :=
  { gzip := fun bs => bs, md5 := fun bs => bs, fnv32a := fun _ => 0, seedVec := fun _ _ => 0 }

/-- A stand-in codec: a sidecar is the byte of its size in units of ten megabytes, the byte of its
modification time in minutes, and the bytes of its identifier. -/
def Codec.plain : Codec :=
  { encodePage := fun p =>
      UInt8.ofNat (p.Size / 10000000).toNat :: UInt8.ofNat (p.Modified / Minute).toNat ::
        p.ID.data.map fun ch => UInt8.ofNat ch.toNat
    decodePage := fun bs =>
      match bs with
      | size :: modified :: ident =>
        some { ID := String.mk (ident.map fun b => Char.ofNat b.toNat), Name := "", Hash := "",
               Size := size.toNat * 10000000, ContentType := "",
               Modified := modified.toNat * Minute,
               TimeToDeletion := 0 }
      | _ => none
    contentType := fun _ _ => "text/plain" }

/-- The default ceilings of `main` scaled down: 1000 bytes in total, 100 bytes per file, 30
minutes per gigabyte, with the default content directory `data`. -/
def Config.small : Config :=
  { MaxBytesTotal := 1000, MaxBytesPerFile := 100, MinutesPerGigabyte := 30,
    ContentDirectory := ["data"] }

/-! ## Statements about the capacity sweep -/

/-- The content directory after `k` successive runs of `TrimContent`, or `none` when one of
them panics. -/
def trimRuns (c : Config) : Nat → ContentDir → Option ContentDir
  | 0, dir => some dir
  | k + 1, dir =>
    match TrimContent c dir with
    | none => none
    | some r => trimRuns c k r.1

/-- The sizes of the regular files in and under the content directory, in walking order. -/
def fileSizes (dir : ContentDir) : List Int :=
  dir.flatMap fun e =>
    match e.2 with
    | Node.file content => [(content.length : Int)]
    | Node.dir files => files.map fun f => (f.2.length : Int)

/-- The number of bytes stored in and under the content directory. -/
def storedBytes (dir : ContentDir) : Int := (fileSizes dir).sum

/-- `Evicts c dir names dir'`: from `dir`, every name of `names` in turn is the `biggestFileID`
that `DirSize` reports, at a moment when the total it reports is not below the ceiling, and
removing each in turn leaves `dir'`. -/
inductive Evicts (c : Config) : ContentDir → List String → ContentDir → Prop where
  /-- Nothing is removed. -/
  | done (dir : ContentDir) : Evicts c dir [] dir
  /-- The reported entry is removed first. -/
  | step (dir : ContentDir) (total : Int) (id : String) (names : List String)
      (dir' : ContentDir) :
      DirSize c.ContentDirectory dir = some (total, id) →
      ¬ total < c.MaxBytesTotal → id ≠ "" →
      Evicts c (RemoveAll dir id) names dir' →
      Evicts c dir (id :: names) dir'

/-- An entry of the content directory that is a stored object: it has a name and holds at least
one non-empty file. -/
def Stored (e : String × Node) : Prop :=
  e.1 ≠ "" ∧ ∃ n ∈ fileSizes [e], 0 < n

/-- A content directory with two stored objects: `aaaaaa` with a three-byte payload and
`bbbbbb` with a five-byte payload, each with a two-byte sidecar. -/
def twoObjects : ContentDir :=
  [("aaaaaa", Node.dir [("a.txt", [1, 2, 3]), ("aaaaaa.json.gz", [3, 0])]),
   ("bbbbbb", Node.dir [("b.txt", [1, 2, 3, 4, 5]), ("bbbbbb.json.gz", [5, 0])])]

/-- A content directory with the object `aaaaaa` of an empty upload (logical size 0) and the
object `bbbbbb` of logical size one gigabyte, both modified at time 0. -/
def emptyThenGigabyte : ContentDir :=
  [("aaaaaa", Node.dir [("a.txt", [31, 139]),
      ("aaaaaa.json.gz", [0, 0, 97, 97, 97, 97, 97, 97])]),
   ("bbbbbb", Node.dir [("b.txt", [31, 139, 8]),
      ("bbbbbb.json.gz", [100, 0, 98, 98, 98, 98, 98, 98])])]

/-! ## Decimal names -/

/-- The number a list of decimal digit characters denotes, most significant digit first. -/
def digitsValue (cs : List Char) : Nat :=
  cs.foldl (fun acc ch => 10 * acc + (ch.toNat - 48)) 0

/-! ## Sessions of chunk submissions -/

/-- The form of the submission of chunk `i` (counted from 1, so `dzchunkindex` is `i - 1`) of a
session `uuid` of `N` chunks: `declared i` is the `dzchunksize` it declares and `chunk i` the bytes
it carries. -/
def chunkForm (uuid fname : String) (N : Nat) (declared : Nat → Int) (chunk : Nat → List Byte)
    (i : Nat) : PostForm :=
  { Filename := fname, dzchunkindex := (i : Int) - 1, dztotalchunkcount := (N : Int),
    dzchunksize := declared i, dzuuid := uuid, file := chunk i }

/-- The state `handlePost` reaches, from `st`, once it has staged the bytes `content` as chunk `i`
of the session `uuid` and counted it. -/
def stagedState (st : State) (uuid : String) (i : Nat) (content : List Byte) : State :=
  { uploadsInProgress :=
      Function.update st.uploadsInProgress uuid (some ((st.uploadsInProgress uuid).getD 0 + 1))
    uploadsFileNames :=
      Function.update st.uploadsFileNames (chunkKey uuid (i : Int)) (some (tempName st.nextTemp))
    uploadsHash := st.uploadsHash
    temps := Function.update st.temps (tempName st.nextTemp) (some content)
    dirs := st.dirs
    nextTemp := st.nextTemp + 1 }

/-- The chunks `D` of the session `uuid` are staged in `st`: the session counter is their number
and each chunk `i` has its bytes `chunk i` in a staging file of its own, number `slot i`, recorded
in `uploadsFileNames`. -/
def StagedIn (st : State) (uuid : String) (chunk : Nat → List Byte) (D : List Nat)
    (slot : Nat → Nat) : Prop :=
  (st.uploadsInProgress uuid).getD 0 = (D.length : Int) ∧
  (∀ i ∈ D, st.uploadsFileNames (chunkKey uuid (i : Int)) = some (tempName (slot i)) ∧
    st.temps (tempName (slot i)) = some (chunk i) ∧ slot i < st.nextTemp) ∧
  ∀ i ∈ D, ∀ j ∈ D, slot i = slot j → i = j

/-- Within a run `rs` of submissions that ended as `results`, the results of the submissions that
carry the session token `uuid`, in order. -/
def sessionResults (uuid : String) (rs : List PostForm) (results : List PostResult) :
    List PostResult :=
  ((rs.zip results).filter fun p => decide (p.1.dzuuid = uuid)).map fun p => p.2

/-- The submission `r`, of another session, uses no key of `uploadsFileNames` that belongs to a
chunk `1..N` of the session `uuid`: neither the key it records its own chunk under, nor any of
the keys `1..dztotalchunkcount` that a finalization it runs looks up and deletes. -/
def Apart (uuid : String) (N : Nat) (r : PostForm) : Prop :=
  ∀ i : Nat, 1 ≤ i → i ≤ N →
    chunkKey r.dzuuid (wrapInt64 (r.dzchunkindex + 1)) ≠ chunkKey uuid (i : Int) ∧
    ∀ j : Nat, 1 ≤ j → (j : Int) ≤ r.dztotalchunkcount →
      chunkKey r.dzuuid (j : Int) ≠ chunkKey uuid (i : Int)

/-- Every file name recorded in `uploadsFileNames` is one that `ioutil.TempFile` has handed out
before, so no later `ioutil.TempFile` returns it. -/
def State.NamesIssued (st : State) : Prop :=
  ∀ key name, st.uploadsFileNames key = some name → ∃ k, k < st.nextTemp ∧ name = tempName k

/-- The chunks `D` of the session `uuid` are staged in `st` and are the session's own: on top of
`StagedIn`, recorded names are names handed out before, and the staging file of a chunk is
recorded under no key but the chunk's. -/
def Held (st : State) (uuid : String) (chunk : Nat → List Byte) (D : List Nat)
    (slot : Nat → Nat) : Prop :=
  StagedIn st uuid chunk D slot ∧ st.NamesIssued ∧
  ∀ key, ∀ i ∈ D, st.uploadsFileNames key = some (tempName (slot i)) →
    key = chunkKey uuid (i : Int)

/-- The state `handlePost` reaches, from `st`, once it has staged and counted the submission
`r`, whatever session it belongs to. -/
def stagedForm (c : Config) (st : State) (r : PostForm) : State :=
  { uploadsInProgress :=
      Function.update st.uploadsInProgress r.dzuuid
        (some ((st.uploadsInProgress r.dzuuid).getD 0 + 1))
    uploadsFileNames :=
      Function.update st.uploadsFileNames (chunkKey r.dzuuid (wrapInt64 (r.dzchunkindex + 1)))
        (some (tempName st.nextTemp))
    uploadsHash := st.uploadsHash
    temps := Function.update st.temps (tempName st.nextTemp)
      (some (CopyMax r.file c.MaxBytesPerFile).1)
    dirs := st.dirs
    nextTemp := st.nextTemp + 1 }

/-! ## Statements about the generator -/

/-- The source after one more `Uint64`. -/
def rngSource.next (rng : rngSource) : rngSource := (rng.Uint64).2

/-- The next `Uint64` of the source has a letter index in its low six bits. -/
def rngSource.Good (rng : rngSource) : Prop := (rng.Uint64).1 % 64 < 36

/-- The sum over the register of the distances `64 - v % 64` of its low six bits to 64. -/
def rngSource.slack (rng : rngSource) : Nat :=
  ∑ p in Finset.range rngLen, (64 - rng.vec p % 64)

/-! ## Statements about the age sweep -/

/-- The name is that of a staging file: `strings.HasPrefix(f.Name(), "sharetemp")`. -/
def isTemp (name : String) : Bool := "sharetemp".data.isPrefixOf name.data

/-- The object `name` has metadata that loads and an age of at least its TTL at the time
`now`. -/
def expired (cd : Codec) (c : Config) (now : Int) (dir : ContentDir) (name : String) : Bool :=
  match loadPageInfo cd c dir name with
  | Loaded.ok p => decide (p.TimeToDeletion ≤ now - p.Modified)
  | _ => false

/-- What `os.Remove` can remove: a regular file or an empty directory. -/
def removable (node : Node) : Bool :=
  match node with
  | Node.file _ => true
  | Node.dir files => decide (files = [])

/-- The entries a sweep keeps: a staging file unless staging files are to be removed and it can
be, any other entry unless it is an expired object. -/
def keptBySweep (cd : Codec) (c : Config) (now : Int) (removeTempFiles : Bool)
    (dir : ContentDir) (e : String × Node) : Bool :=
  if isTemp e.1 then !(removeTempFiles && removable e.2) else !expired cd c now dir e.1

/-! ## Statements about publishing -/

/-- The identifier `copyToContentDirectory` computes for the file staged as `tempFname`:
`RandStringBytesMaskImpr(hash, 6)` of its `Filemd5Sum`. -/
def objectId (lib : Lib) (st : State) (tempFname : String) : String :=
  (RandStringBytesMaskImpr lib (randFuel 6) (Filemd5Sum lib (st.temps tempFname)).1 6).getD ""

/-- The page `copyToContentDirectory` encodes into the sidecar of the object it publishes from
the payload `payload`. -/
def publishedPage (lib : Lib) (cd : Codec) (now : Int) (st : State) (fname tempFname : String)
    (originalSize : Int) (payload : List Byte) : Page :=
  { ID := objectId lib st tempFname, Name := fname,
    Hash := (Filemd5Sum lib (st.temps tempFname)).1, Size := originalSize,
    ContentType := cd.contentType fname payload, Modified := now, TimeToDeletion := 0 }

/-- A directory that holds just the payload `payload` under the name `fname`. -/
def payloadOnly (fname : String) (payload : List Byte) : String → Option (List Byte) :=
  Function.update (fun _ => none) fname (some payload)

/-- A state of the content directory with one three-byte staging file `sharetemp0`. -/
def oneStaged : State :=
  (TempFile State.init).2.writeTemp "sharetemp0" [1, 2, 3]

/-! ## Statements about the session counter -/

/-- Whether a run of `handlePost` ran the finalization. -/
def PostResult.isFinalized : PostResult → Bool
  | PostResult.finalized _ => true
  | _ => false

/-! ## `GetFileContentTypeReader` -/

/-- The readers and sniffers `GetFileContentTypeReader` calls; they are outside the repository
and kept abstract. -/
structure Sniffers where
  /-- The buffer `head` after `gzip.NewReader(file)` and `gz.Read(head)` on the zeroed 261-byte
  buffer, for the bytes of `file`; `none` when `gzip.NewReader` returns an error. -/
  readHead : List Byte → Option (List Byte)
  /-- The call `filetype.Match(head)`: `none` for an error, `some none` for `filetype.Unknown`,
  `some (some mime)` for a known kind with its `MIME.Value`. -/
  filetypeMatch : List Byte → Option (Option String)
  /-- The call `http.DetectContentType(head)`. -/
  DetectContentType : List Byte → String

/-- `isASCII(string(head))`: no byte is above `unicode.MaxASCII`. -/
def isASCII : List Byte → Bool
  | [] => true
  | b :: rest => if b > 127 then false else isASCII rest

/-- `strings.Contains(s, substr)`. -/
def Contains (s substr : String) : Bool := decide (substr.data <:+: s.data)

/-- `strings.Split(s, ";")[0]`: the part of `s` before its first semicolon. -/
def firstField (s : String) : String := String.mk (s.data.takeWhile fun ch => ch ≠ ';')

/-- The content type `GetFileContentTypeReader` has after its sniffing block, before it looks at
the file name: the MIME value of a known kind, else the media type of `http.DetectContentType`,
with `text/plain` for an `application/octet-stream` whose head is ASCII. -/
def sniffedType (sn : Sniffers) (head : List Byte) (kind : Option String) : String :=
  match kind with
  | some mime => mime
  | none =>
    if firstField (sn.DetectContentType head) = "application/octet-stream" then
      if isASCII head then "text/plain" else firstField (sn.DetectContentType head)
    else firstField (sn.DetectContentType head)

/-- `GetFileContentTypeReader(fname, file)`: `contentType`, `isaciii` and `err`. -/
def GetFileContentTypeReader (sn : Sniffers) (fname : String) (file : List Byte) :
    String × Bool × Option GoError :=
  match sn.readHead file with
  | none => ("", false, some (GoError.os "gzip.NewReader"))
  | some head =>
    match sn.filetypeMatch head with
    | none => ("", false, some (GoError.os "filetype.Match"))
    | some kind =>
      let contentType := sniffedType sn head kind
      let contentType :=
        if contentType = "text/plain" then
          if Contains fname ".js" then "application/javascript"
          else if Contains fname ".css" then "text/css"
          else contentType
        else contentType
      (contentType, isASCII head, none)

/-- Stand-in sniffers: the head is the first 261 bytes (without the zero padding of a short
stream), no kind is known, and `http.DetectContentType` answers `text/plain; charset=utf-8`. -/
def Sniffers.plain : Sniffers :=
  { readHead := fun file => some (file.take 261)
    filetypeMatch := fun _ => some none
    DetectContentType := fun _ => "text/plain; charset=utf-8" }

/-! ## Loading what the upload path published -/

/-- `loadPageInfo(id)` on the content directory as the upload path leaves it: the sidecar
`<id>/<id>.json.gz` is opened and decoded and `TimeToDeletion` is computed from `p.Size`. -/
def State.loadPageInfo (cd : Codec) (c : Config) (st : State) (id : String) : Loaded :=
  match ((st.dirs id).bind fun files => files (id ++ ".json.gz")).bind cd.decodePage with
  | none => Loaded.failed
  | some p =>
    match timeToDeletion c.MinutesPerGigabyte p.Size with
    | none => Loaded.panic
    | some ttl => Loaded.ok { p with TimeToDeletion := ttl }

/-! ## Theorems -/

/-! ### Machine integers and decimal names -/

/-- Within the `int64` range the wrapped product is the product. -/
theorem wrapInt64_eq_self (x : Int) (h1 : -9223372036854775808 ≤ x)
    (h2 : x < 9223372036854775808) : wrapInt64 x = x := by
  unfold wrapInt64
  omega

theorem digitsValue_foldl (cs : List Char) (a : Nat) :
    cs.foldl (fun acc ch => 10 * acc + (ch.toNat - 48)) a = a * 10 ^ cs.length + digitsValue cs := by
  induction cs generalizing a with
  | nil => simp [digitsValue]
  | cons ch cs ih =>
    unfold digitsValue
    rw [List.foldl_cons, List.foldl_cons, ih, ih (10 * 0 + (ch.toNat - 48)), List.length_cons,
      pow_succ]
    ring

theorem digitsValue_cons (ch : Char) (cs : List Char) :
    digitsValue (ch :: cs) = (ch.toNat - 48) * 10 ^ cs.length + digitsValue cs := by
  unfold digitsValue
  rw [List.foldl_cons, digitsValue_foldl]
  simp [digitsValue]

theorem digitChar_value (d : Nat) (h : d < 10) : (Nat.digitChar d).toNat - 48 = d := by
  interval_cases d <;> rfl

theorem digitsValue_toDigitsCore (fuel n : Nat) (ds : List Char) (h : n < fuel) :
    digitsValue (Nat.toDigitsCore 10 fuel n ds) = n * 10 ^ ds.length + digitsValue ds := by
  induction fuel generalizing n ds with
  | zero => exact absurd h (Nat.not_lt_zero _)
  | succ fuel ih =>
    unfold Nat.toDigitsCore
    simp only
    split_ifs with hz
    · rw [digitsValue_cons, digitChar_value _ (Nat.mod_lt _ (by decide))]
      have : n % 10 = n := by omega
      rw [this]
    · have hlt : n / 10 < fuel := by omega
      rw [ih (n / 10) _ hlt, digitsValue_cons, digitChar_value _ (Nat.mod_lt _ (by decide)),
        List.length_cons, pow_succ]
      conv_rhs => rw [← Nat.div_add_mod n 10]
      ring

theorem digitsValue_repr (n : Nat) : digitsValue (Nat.repr n).data = n := by
  unfold Nat.repr Nat.toDigits
  simp only [List.asString]
  rw [digitsValue_toDigitsCore _ _ _ (Nat.lt_succ_self n)]
  simp [digitsValue]

theorem toString_natCast_injective (a b : Nat)
    (h : toString (a : Int) = toString (b : Int)) : a = b := by
  have h' : Nat.repr a = Nat.repr b := h
  rw [← digitsValue_repr a, ← digitsValue_repr b, h']

theorem String_append_left_cancel (a b c : String) (h : a ++ b = a ++ c) : b = c := by
  have := congrArg String.data h
  simp only [String.data_append, List.append_cancel_left_eq] at this
  exact String.ext this

theorem chunkKey_injective (uuid : String) (a b : Nat)
    (h : chunkKey uuid (a : Int) = chunkKey uuid (b : Int)) : a = b :=
  toString_natCast_injective a b (String_append_left_cancel _ _ _ h)

theorem tempName_injective (a b : Nat) (h : tempName a = tempName b) : a = b := by
  have h' : Nat.repr a = Nat.repr b := String_append_left_cancel _ _ _ h
  rw [← digitsValue_repr a, ← digitsValue_repr b, h']

/-! ### `CopyMax` -/

theorem CopyN_spec (src : List Byte) (n : Int) (hn : 0 ≤ n) :
    (CopyN src n).1 = src.take n.toNat ∧
      (CopyN src n).2.1 = min (src.length : Int) n ∧
      ((CopyN src n).2.2 = none ∨ (CopyN src n).2.2 = some GoError.EOF) := by
  have hlen : ((src.take n.toNat).length : Int) = min (src.length : Int) n := by
    rw [List.length_take]
    omega
  unfold CopyN
  simp only []
  split_ifs with h1 h2
  · refine ⟨rfl, ?_, Or.inl rfl⟩
    show n = _
    omega
  · exact ⟨rfl, hlen, Or.inr rfl⟩
  · exact ⟨rfl, hlen, Or.inl rfl⟩

theorem CopyMax_spec (src : List Byte) (maxBytes : Int) (hmax : 0 ≤ maxBytes) :
    (CopyMax src maxBytes).1 = src.take (min (src.length : Int) maxBytes).toNat ∧
      (CopyMax src maxBytes).2.1 = min (src.length : Int) maxBytes ∧
      ((CopyMax src maxBytes).2.2 ≠ none ↔ maxBytes ≤ src.length) := by
  obtain ⟨h1, h2, h3⟩ := CopyN_spec src maxBytes hmax
  have htake : src.take maxBytes.toNat = src.take (min (src.length : Int) maxBytes).toNat := by
    rcases le_total (src.length : Int) maxBytes with h | h
    · rw [min_eq_left h, Int.toNat_ofNat, List.take_of_length_le le_rfl,
        List.take_of_length_le (by omega)]
    · rw [min_eq_right h]
  have hno : ¬ ((CopyN src maxBytes).2.2 ≠ none ∧ (CopyN src maxBytes).2.2 ≠ some GoError.EOF) := by
    rcases h3 with h | h <;> simp [h]
  unfold CopyMax
  simp only [hno, if_false]
  split_ifs with hge
  · refine ⟨by rw [h1, htake], h2, ?_⟩
    simp only [ne_eq, reduceCtorEq, not_false_eq_true, true_iff]
    rw [h2] at hge
    omega
  · refine ⟨by rw [h1, htake], h2, ?_⟩
    simp only [ne_eq, not_true_eq_false, false_iff]
    rw [h2] at hge
    omega

/-- An over-long stream makes `CopyMax` fail for every ceiling, negative ones included. -/
theorem CopyMax_err_of_le (src : List Byte) (maxBytes : Int) (h : maxBytes ≤ src.length) :
    ∃ e, (CopyMax src maxBytes).2.2 = some e := by
  rcases le_or_lt 0 maxBytes with h0 | h0
  · have := (CopyMax_spec src maxBytes h0).2.2.2 h
    exact Option.ne_none_iff_exists'.mp this
  · have ht : maxBytes.toNat = 0 := by omega
    refine ⟨GoError.exceedsMaximumSize, ?_⟩
    unfold CopyMax CopyN
    simp only [ht, List.take_zero, List.length_nil, Nat.cast_zero]
    have h1 : ¬ ((0 : Int) = maxBytes) := by omega
    have h2 : ¬ ((0 : Int) < maxBytes) := by omega
    simp only [h1, h2, if_false]
    have h3 : (0 : Int) ≥ maxBytes := by omega
    simp [h3]

theorem CopyMax_fst_of_le (src : List Byte) (maxBytes : Int)
    (h : (src.length : Int) ≤ maxBytes) : (CopyMax src maxBytes).1 = src := by
  have h0 : 0 ≤ maxBytes := le_trans (Int.natCast_nonneg _) h
  rw [(CopyMax_spec src maxBytes h0).1, min_eq_left h, Int.toNat_ofNat,
    List.take_of_length_le le_rfl]

/-! ### C1: assembly in index order -/

theorem handlePost_chunkForm (lib : Lib) (cd : Codec) (flt : Faults) (now : Int) (c : Config)
    (st : State) (uuid fname : String) (N : Nat) (declared : Nat → Int)
    (chunk : Nat → List Byte) (i : Nat) (h1 : 1 ≤ i) (h63 : (i : Int) < 9223372036854775808)
    (hacc : wrapInt64 ((N : Int) * declared i) ≤ c.MaxBytesPerFile)
    (hlen : ((chunk i).length : Int) ≤ c.MaxBytesPerFile) :
    handlePost lib cd flt now c st (chunkForm uuid fname N declared chunk i) =
      if (st.uploadsInProgress uuid).getD 0 + 1 = (N : Int) then
        ((finalize lib cd flt now (stagedState st uuid i (chunk i)) uuid (N : Int) fname).1,
          PostResult.finalized
            (finalize lib cd flt now (stagedState st uuid i (chunk i)) uuid (N : Int) fname).2)
      else (stagedState st uuid i (chunk i),
        PostResult.counted (CopyMax (chunk i) c.MaxBytesPerFile).2.2) := by
  have hw : wrapInt64 ((i : Int) - 1 + 1) = (i : Int) := by
    rw [sub_add_cancel]
    exact wrapInt64_eq_self _ (by omega) h63
  unfold handlePost
  simp only [chunkForm, not_lt.mpr hacc, if_false, TempFile, State.writeTemp, hw,
    CopyMax_fst_of_le _ _ hlen, Function.update_idem]
  rfl

theorem catChunks_spec (uuid : String) (chunk : Nat → List Byte) (slot : Nat → Nat) (k : Nat) :
    ∀ (i : Nat) (st : State) (fed : List Byte) (size : Int),
      (∀ j, i ≤ j → j < i + k →
        st.uploadsFileNames (chunkKey uuid (j : Int)) = some (tempName (slot j)) ∧
          st.temps (tempName (slot j)) = some (chunk j)) →
      (∀ j, i ≤ j → j < i + k → ∀ j', i ≤ j' → j' < i + k → slot j = slot j' → j = j') →
      (catChunks uuid k (i : Int) st fed size).2 =
        (fed ++ (List.range' i k).flatMap chunk,
          size + (((List.range' i k).map fun j => (chunk j).length).sum : Nat), none) := by
  induction k with
  | zero =>
    intro i st fed size _ _
    simp [catChunks]
  | succ k ih =>
    intro i st fed size hst hinj
    obtain ⟨hfn, htmp⟩ := hst i (Nat.le_refl _) (by omega)
    unfold catChunks
    have hopen : (st.uploadsFileNames (chunkKey uuid (i : Int))).bind
        ({ st with uploadsFileNames :=
            Function.update st.uploadsFileNames (chunkKey uuid (i : Int)) none } : State).temps =
        some (chunk i) := by
      rw [hfn]
      exact htmp
    simp only [hopen]
    have hcast : ((i : Nat) : Int) + 1 = ((i + 1 : Nat) : Int) := by push_cast; rfl
    rw [hcast, ih (i + 1)]
    · rw [List.range'_succ, List.flatMap_cons, List.map_cons, List.sum_cons]
      simp only [List.append_assoc, Nat.cast_add, add_assoc]
    · intro j hj1 hj2
      have hne : j ≠ i := by omega
      obtain ⟨hfnj, htmpj⟩ := hst j (by omega) (by omega)
      have hkey : chunkKey uuid (j : Int) ≠ chunkKey uuid (i : Int) :=
        fun h => hne (chunkKey_injective uuid j i h)
      have hslot : tempName (slot j) ≠ tempName (slot i) := by
        intro h
        exact hne (hinj j (by omega) (by omega) i (Nat.le_refl _) (by omega)
          (tempName_injective _ _ h))
      rw [hfn]
      simp only [State.removeTemp, Option.getD_some, Function.update_noteq hkey,
        Function.update_noteq hslot]
      exact ⟨hfnj, htmpj⟩
    · intro j hj1 hj2 j' hj1' hj2' h
      exact hinj j (by omega) (by omega) j' (by omega) (by omega) h

theorem finalize_staged (lib : Lib) (cd : Codec) (flt : Faults) (now : Int) (st : State)
    (uuid fname : String) (chunk : Nat → List Byte) (N : Nat) (D : List Nat) (slot : Nat → Nat)
    (hst : StagedIn st uuid chunk D slot) (hcover : ∀ j, 1 ≤ j → j ≤ N → j ∈ D) :
    ∃ e, (finalize lib cd flt now st uuid (N : Int) fname).2 =
      { fed := (List.range' 1 N).flatMap chunk
        call := some (fname, tempName st.nextTemp,
          ((((List.range' 1 N).map fun j => (chunk j).length).sum : Nat) : Int))
        err := e } := by
  obtain ⟨_, hfiles, hinj⟩ := hst
  have hcat := catChunks_spec uuid chunk slot N 1
    (TempFile { st with uploadsInProgress := Function.update st.uploadsInProgress uuid none }).2
    [] 0
    (by
      intro j hj1 hj2
      obtain ⟨h1, h2, h3⟩ := hfiles j (hcover j hj1 (by omega))
      have hne : tempName (slot j) ≠ tempName st.nextTemp :=
        fun h => absurd (tempName_injective _ _ h) (by omega)
      simp only [TempFile, Function.update_noteq hne]
      exact ⟨h1, h2⟩)
    (by
      intro j hj1 hj2 j' hj1' hj2' h
      exact hinj j (hcover j hj1 (by omega)) j' (hcover j' hj1' (by omega)) h)
  unfold finalize
  simp only [Int.toNat_ofNat]
  rw [show ((1 : Nat) : Int) = 1 from rfl] at hcat
  simp only [hcat, List.nil_append, zero_add]
  exact ⟨_, rfl⟩

theorem stagedState_StagedIn (st : State) (uuid : String) (chunk : Nat → List Byte)
    (D : List Nat) (slot : Nat → Nat) (i : Nat) (hi : i ∉ D)
    (hst : StagedIn st uuid chunk D slot) :
    StagedIn (stagedState st uuid i (chunk i)) uuid chunk (i :: D)
      (Function.update slot i st.nextTemp) := by
  obtain ⟨hcnt, hfiles, hinj⟩ := hst
  refine ⟨?_, ?_, ?_⟩
  · simp only [stagedState, Function.update_same, Option.getD_some, hcnt, List.length_cons]
    push_cast
    rfl
  · intro j hj
    rcases List.mem_cons.mp hj with rfl | hjD
    · simp [stagedState]
    · have hne : j ≠ i := fun h => hi (h ▸ hjD)
      obtain ⟨h1, h2, h3⟩ := hfiles j hjD
      have hkey : chunkKey uuid (j : Int) ≠ chunkKey uuid (i : Int) :=
        fun h => hne (chunkKey_injective uuid j i h)
      have hslot : tempName (slot j) ≠ tempName st.nextTemp :=
        fun h => absurd (tempName_injective _ _ h) (by omega)
      simp only [stagedState, Function.update_noteq hne, Function.update_noteq hkey,
        Function.update_noteq hslot]
      exact ⟨h1, h2, by omega⟩
  · intro j hj j' hj' h
    rcases List.mem_cons.mp hj with rfl | hjD <;> rcases List.mem_cons.mp hj' with rfl | hjD'
    · rfl
    · have hne : j' ≠ j := fun h => hi (h ▸ hjD')
      rw [Function.update_same, Function.update_noteq hne] at h
      have := (hfiles j' hjD').2.2
      omega
    · have hne : j ≠ j' := fun h => hi (h ▸ hjD)
      rw [Function.update_same, Function.update_noteq hne] at h
      have := (hfiles j hjD).2.2
      omega
    · have hne : j ≠ i := fun h => hi (h ▸ hjD)
      have hne' : j' ≠ i := fun h => hi (h ▸ hjD')
      rw [Function.update_noteq hne, Function.update_noteq hne'] at h
      exact hinj j hjD j' hjD' h

/-! ### C2: the session counter -/

theorem catChunks_uploadsInProgress (uuid : String) (k : Nat) (i : Int) (st : State)
    (fed : List Byte) (size : Int) :
    (catChunks uuid k i st fed size).1.uploadsInProgress = st.uploadsInProgress := by
  induction k generalizing i st fed size with
  | zero => rfl
  | succ k ih =>
    unfold catChunks
    simp only
    split
    · rfl
    · rw [ih]
      rfl

theorem copyToContentDirectory_uploadsInProgress (lib : Lib) (cd : Codec) (flt : Faults)
    (now : Int) (st : State) (fname tempFname : String) (originalSize : Int) :
    (copyToContentDirectory lib cd flt now st fname tempFname originalSize).1.uploadsInProgress =
      st.uploadsInProgress := by
  unfold copyToContentDirectory
  simp only
  split_ifs <;> try rfl
  all_goals (split <;> try rfl)

theorem finalize_uploadsInProgress (lib : Lib) (cd : Codec) (flt : Faults) (now : Int)
    (st : State) (uuid : String) (totalChunks : Int) (fname : String) :
    (finalize lib cd flt now st uuid totalChunks fname).1.uploadsInProgress uuid = none := by
  unfold finalize
  simp only
  split
  · rw [catChunks_uploadsInProgress]
    simp [TempFile]
  · simp only [copyToContentDirectory_uploadsInProgress, State.writeTemp,
      catChunks_uploadsInProgress]
    simp [TempFile]

theorem handlePost_count_lt (lib : Lib) (cd : Codec) (flt : Faults) (now : Int) (c : Config)
    (st : State) (r : PostForm)
    (hacc : wrapInt64 (r.dztotalchunkcount * r.dzchunksize) ≤ c.MaxBytesPerFile)
    (hne : (st.uploadsInProgress r.dzuuid).getD 0 + 1 ≠ r.dztotalchunkcount) :
    ∃ e, (handlePost lib cd flt now c st r).2 = PostResult.counted e ∧
      (handlePost lib cd flt now c st r).1.uploadsInProgress r.dzuuid =
        some ((st.uploadsInProgress r.dzuuid).getD 0 + 1) ∧
      ∀ u, u ≠ r.dzuuid →
        (handlePost lib cd flt now c st r).1.uploadsInProgress u = st.uploadsInProgress u := by
  unfold handlePost
  simp only [not_lt.mpr hacc, if_false, TempFile, State.writeTemp]
  rw [if_neg hne]
  refine ⟨_, rfl, ?_, ?_⟩
  · simp
  · intro u hu
    simp [Function.update_noteq hu]

theorem handlePost_count_eq (lib : Lib) (cd : Codec) (flt : Faults) (now : Int) (c : Config)
    (st : State) (r : PostForm)
    (hacc : wrapInt64 (r.dztotalchunkcount * r.dzchunksize) ≤ c.MaxBytesPerFile)
    (heq : (st.uploadsInProgress r.dzuuid).getD 0 + 1 = r.dztotalchunkcount) :
    ∃ fin, (handlePost lib cd flt now c st r).2 = PostResult.finalized fin ∧
      (handlePost lib cd flt now c st r).1.uploadsInProgress r.dzuuid = none := by
  unfold handlePost
  simp only [not_lt.mpr hacc, if_false, TempFile, State.writeTemp]
  rw [if_pos heq]
  exact ⟨_, rfl, finalize_uploadsInProgress _ _ _ _ _ _ _ _⟩

/-- The counting behind C2, for any sequence of accepted submissions of one session: with `m`
chunks counted so far and `m + rs.length = N`, every submission but the last is only counted and
the last one runs the finalization and removes the session's entry. -/
theorem runPosts_counts (lib : Lib) (cd : Codec) (flt : Faults) (now : Int) (c : Config)
    (uuid : String) (N : Nat) (rs : List PostForm) :
    ∀ (st : State) (m : Nat), (st.uploadsInProgress uuid).getD 0 = (m : Int) →
      m + rs.length = N → rs ≠ [] →
      (∀ r ∈ rs, r.dzuuid = uuid ∧ r.dztotalchunkcount = (N : Int) ∧
        wrapInt64 (r.dztotalchunkcount * r.dzchunksize) ≤ c.MaxBytesPerFile) →
      ∃ (errs : List (Option GoError)) (fin : Finalization), (runPosts lib cd flt now c st rs).2 =
          errs.map PostResult.counted ++ [PostResult.finalized fin] ∧
        errs.length + 1 = rs.length ∧
        (runPosts lib cd flt now c st rs).1.uploadsInProgress uuid = none := by
  induction rs with
  | nil => intro st m _ _ hne; exact absurd rfl hne
  | cons r rs ih =>
    intro st m hm hlen _ hall
    obtain ⟨hu, hN, hacc⟩ := hall r (List.mem_cons_self _ _)
    rw [List.length_cons] at hlen
    unfold runPosts
    simp only
    by_cases hrs : rs = []
    · subst hrs
      have heq : (st.uploadsInProgress r.dzuuid).getD 0 + 1 = r.dztotalchunkcount := by
        rw [hu, hm, hN]
        simp only [List.length_nil] at hlen
        omega
      obtain ⟨fin, hfin, hnone⟩ := handlePost_count_eq lib cd flt now c st r hacc heq
      refine ⟨[], fin, ?_, rfl, ?_⟩
      · simp [runPosts, hfin]
      · simp only [runPosts]
        rw [← hu]
        exact hnone
    · have hpos : 0 < rs.length := List.length_pos.mpr hrs
      have hne : (st.uploadsInProgress r.dzuuid).getD 0 + 1 ≠ r.dztotalchunkcount := by
        rw [hu, hm, hN]
        omega
      obtain ⟨e, he, hcnt, _⟩ := handlePost_count_lt lib cd flt now c st r hacc hne
      have hm' : ((handlePost lib cd flt now c st r).1.uploadsInProgress uuid).getD 0 =
          ((m + 1 : Nat) : Int) := by
        rw [← hu, hcnt, hu, hm]
        simp
      obtain ⟨errs, fin, hres, hlen', hnone⟩ :=
        ih (handlePost lib cd flt now c st r).1 (m + 1) hm' (by omega) hrs
          (fun r' hr' => hall r' (List.mem_cons_of_mem _ hr'))
      refine ⟨e :: errs, fin, ?_, ?_, hnone⟩
      · rw [hres, he]
        rfl
      · simp only [List.length_cons]
        omega

/-- C2. For every session token not yet in `uploadsInProgress` and every sequence of `N >= 1`
submissions of that session (each with `totalChunks = N`, each passing the declared-size check and
so entering the critical section) run in the order in which `uploadsLock` serializes them, exactly
one submission runs the finalization, namely the `N`-th: the `N - 1` before it are only counted;
and the session's entry is absent from `uploadsInProgress` when it releases the lock. -/
theorem handlePost_finalizes_exactly_once (lib : Lib) (cd : Codec) (flt : Faults) (now : Int)
    (c : Config) (st : State) (uuid : String) (N : Nat) (rs : List PostForm)
    (hN : 1 ≤ N) (hlen : rs.length = N) (hnew : st.uploadsInProgress uuid = none)
    (hall : ∀ r ∈ rs, r.dzuuid = uuid ∧ r.dztotalchunkcount = (N : Int) ∧
      wrapInt64 (r.dztotalchunkcount * r.dzchunksize) ≤ c.MaxBytesPerFile) :
    ∃ (errs : List (Option GoError)) (fin : Finalization), (runPosts lib cd flt now c st rs).2 =
        errs.map PostResult.counted ++ [PostResult.finalized fin] ∧
      errs.length = N - 1 ∧
      (runPosts lib cd flt now c st rs).1.uploadsInProgress uuid = none := by
  have hne : rs ≠ [] := by
    intro h
    rw [h] at hlen
    simp only [List.length_nil] at hlen
    omega
  obtain ⟨errs, fin, h1, h2, h3⟩ :=
    runPosts_counts lib cd flt now c uuid N rs st 0 (by rw [hnew]; rfl) (by omega) hne hall
  exact ⟨errs, fin, h1, by omega, h3⟩

/-- Witness for C2: the two chunks of a session `u`, the second submitted first. -/
theorem handlePost_finalizes_exactly_once_witness :
    (State.init.uploadsInProgress "u" = none ∧
      ∀ r ∈ [chunkForm "u" "f" 2 (fun _ => 10) (fun i => [UInt8.ofNat i]) 2,
          chunkForm "u" "f" 2 (fun _ => 10) (fun i => [UInt8.ofNat i]) 1],
        r.dzuuid = "u" ∧ r.dztotalchunkcount = ((2 : Nat) : Int) ∧
          wrapInt64 (r.dztotalchunkcount * r.dzchunksize) ≤ Config.small.MaxBytesPerFile) ∧
    ∃ (errs : List (Option GoError)) (fin : Finalization),
      (runPosts Lib.plain Codec.plain Faults.none 0 Config.small State.init
        [chunkForm "u" "f" 2 (fun _ => 10) (fun i => [UInt8.ofNat i]) 2,
          chunkForm "u" "f" 2 (fun _ => 10) (fun i => [UInt8.ofNat i]) 1]).2 =
          errs.map PostResult.counted ++ [PostResult.finalized fin] ∧
        errs.length = 2 - 1 ∧
        (runPosts Lib.plain Codec.plain Faults.none 0 Config.small State.init
          [chunkForm "u" "f" 2 (fun _ => 10) (fun i => [UInt8.ofNat i]) 2,
            chunkForm "u" "f" 2 (fun _ => 10) (fun i => [UInt8.ofNat i]) 1]).1.uploadsInProgress
          "u" = none :=
  ⟨⟨rfl, by decide⟩,
    handlePost_finalizes_exactly_once Lib.plain Codec.plain Faults.none 0 Config.small State.init
      "u" 2 _ (by decide) rfl rfl (by decide)⟩

/-! ### C3: the per-file ceiling of a single-shot upload -/

/-- C3. For a reader and a writer that never fail and every `maxBytes >= 0`, `CopyMax` writes
exactly the first `min(L, maxBytes)` bytes of the source, returns `n = min(L, maxBytes)`, and
returns an error if and only if `L >= maxBytes`; and `writeAllBytes` of a stream of at least
`MaxBytesPerFile` bytes returns an error and the empty name, leaves every directory of the content
directory and the upload maps as they were, and leaves no staging file behind: it ends before the
call of `copyToContentDirectory`. -/
theorem CopyMax_writeAllBytes_limit (lib : Lib) (cd : Codec) (flt : Faults) (now : Int)
    (c : Config) (st : State) (fname : String) (src upload : List Byte) (maxBytes : Int)
    (hmax : 0 ≤ maxBytes) (hover : c.MaxBytesPerFile ≤ upload.length) :
    ((CopyMax src maxBytes).1 = src.take (min (src.length : Int) maxBytes).toNat ∧
      (CopyMax src maxBytes).2.1 = min (src.length : Int) maxBytes ∧
      ((CopyMax src maxBytes).2.2 ≠ none ↔ maxBytes ≤ src.length)) ∧
    ((∃ e, (writeAllBytes lib cd flt now c st fname upload).2.2 = some e) ∧
      (writeAllBytes lib cd flt now c st fname upload).2.1 = "" ∧
      (writeAllBytes lib cd flt now c st fname upload).1.dirs = st.dirs ∧
      (writeAllBytes lib cd flt now c st fname upload).1.uploadsHash = st.uploadsHash ∧
      (writeAllBytes lib cd flt now c st fname upload).1.temps (tempName st.nextTemp) = none ∧
      (writeAllBytes lib cd flt now c st fname upload).1 =
        (((TempFile st).2.writeTemp (TempFile st).1
          (lib.gzip (CopyMax upload c.MaxBytesPerFile).1)).removeTemp
            (TempFile st).1).removeTemp (TempFile st).1) := by
  refine ⟨CopyMax_spec src maxBytes hmax, ?_⟩
  obtain ⟨e, he⟩ := CopyMax_err_of_le upload c.MaxBytesPerFile hover
  have hw : writeAllBytes lib cd flt now c st fname upload =
      ((((TempFile st).2.writeTemp (TempFile st).1
          (lib.gzip (CopyMax upload c.MaxBytesPerFile).1)).removeTemp
            (TempFile st).1).removeTemp (TempFile st).1, "", some e) := by
    unfold writeAllBytes
    simp only [he]
  rw [hw]
  refine ⟨⟨e, rfl⟩, rfl, rfl, rfl, ?_, rfl⟩
  simp [State.removeTemp, State.writeTemp, TempFile]

/-- Witness for C3: a 150-byte upload against a ceiling of 100 bytes. -/
theorem CopyMax_writeAllBytes_limit_witness :
    ((0 : Int) ≤ 100 ∧ Config.small.MaxBytesPerFile ≤ (List.replicate 150 (7 : Byte)).length) ∧
      ∃ e, (writeAllBytes Lib.plain Codec.plain Faults.none 0 Config.small State.init "f.txt"
        (List.replicate 150 7)).2.2 = some e :=
  ⟨⟨by decide, by simp [Config.small]⟩,
    (CopyMax_writeAllBytes_limit Lib.plain Codec.plain Faults.none 0 Config.small State.init
      "f.txt" (List.replicate 150 7) (List.replicate 150 7) 100 (by decide)
      (by simp [Config.small])).2.1⟩

/-! ### C4: the declared-size check -/

/-- The declared-size check of `handlePost` compares the wrapped `int64` product: whenever that
exceeds the ceiling the submission is answered `Upload exceeds max file size` and the state, with
its staging files and both upload maps, is unchanged. -/
theorem handlePost_tooLarge (lib : Lib) (cd : Codec) (flt : Faults) (now : Int) (c : Config)
    (st : State) (r : PostForm)
    (h : wrapInt64 (r.dztotalchunkcount * r.dzchunksize) > c.MaxBytesPerFile) :
    handlePost lib cd flt now c st r = (st, PostResult.tooLarge) := by
  unfold handlePost
  simp only [h, if_true]

/-- C4 (code evaluated at the failing input): declared `dztotalchunkcount = dzchunksize = 2^32`
have the product `2^64`, above every ceiling, but the `int64` product wraps to `0`: the submission
is not rejected, its three bytes are staged in a new file and both upload maps are changed. -/
theorem handlePost_declared_product_wraps :
    (4294967296 : Int) * 4294967296 > Config.small.MaxBytesPerFile ∧
      (handlePost Lib.plain Codec.plain Faults.none 0 Config.small State.init
        { Filename := "f", dzchunkindex := 0, dztotalchunkcount := 4294967296,
          dzchunksize := 4294967296, dzuuid := "u", file := [1, 2, 3] }).2
        = PostResult.counted none ∧
      (handlePost Lib.plain Codec.plain Faults.none 0 Config.small State.init
        { Filename := "f", dzchunkindex := 0, dztotalchunkcount := 4294967296,
          dzchunksize := 4294967296, dzuuid := "u", file := [1, 2, 3] }).1.temps "sharetemp0"
        = some [1, 2, 3] ∧
      (handlePost Lib.plain Codec.plain Faults.none 0 Config.small State.init
        { Filename := "f", dzchunkindex := 0, dztotalchunkcount := 4294967296,
          dzchunksize := 4294967296, dzuuid := "u", file := [1, 2, 3] }).1.uploadsInProgress "u"
        = some 1 ∧
      (handlePost Lib.plain Codec.plain Faults.none 0 Config.small State.init
        { Filename := "f", dzchunkindex := 0, dztotalchunkcount := 4294967296,
          dzchunksize := 4294967296, dzuuid := "u", file := [1, 2, 3] }).1.uploadsFileNames "u1"
        = some "sharetemp0" := by
  refine ⟨by decide, by decide, by decide, by decide, by decide⟩

/-! ### C5: `deleteOld` -/

theorem readIn_filter (dir : ContentDir) (q : String × Node → Bool) (id name : String)
    (hq : ∀ e ∈ dir, e.1 = id → q e = true) :
    readIn (dir.filter q) id name = readIn dir id name := by
  unfold readIn
  have : (dir.filter q).find? (fun e => decide (e.1 = id)) =
      dir.find? (fun e => decide (e.1 = id)) := by
    induction dir with
    | nil => rfl
    | cons e dir ih =>
      have ih' := ih (fun e' he' => hq e' (List.mem_cons_of_mem _ he'))
      by_cases he : e.1 = id
      · have hqe := hq e (List.mem_cons_self _ _) he
        rw [List.filter_cons_of_pos hqe, List.find?_cons_of_pos _ (by simp [he]),
          List.find?_cons_of_pos _ (by simp [he])]
      · by_cases hqe : q e = true
        · rw [List.filter_cons_of_pos hqe, List.find?_cons_of_neg _ (by simp [he]),
            List.find?_cons_of_neg _ (by simp [he]), ih']
        · rw [List.filter_cons_of_neg hqe, List.find?_cons_of_neg _ (by simp [he]), ih']
  rw [this]

theorem loadPageInfo_filter (cd : Codec) (c : Config) (dir : ContentDir)
    (q : String × Node → Bool) (id : String) (hq : ∀ e ∈ dir, e.1 = id → q e = true) :
    loadPageInfo cd c (dir.filter q) id = loadPageInfo cd c dir id := by
  unfold loadPageInfo
  rw [readIn_filter dir q id _ hq]

theorem deleteOldLoop_spec (cd : Codec) (c : Config) (now : Int) (rt : Bool)
    (dir : ContentDir) (rest : List String) :
    ∀ cur : ContentDir, rest.Nodup →
      (∀ f ∈ rest, isTemp f = false → loadPageInfo cd c dir f = Loaded.failed ∨
        ∃ p, loadPageInfo cd c dir f = Loaded.ok p ∧ p.ID = f ∧ f ≠ "") →
      cur = dir.filter (fun e => decide (e.1 ∈ rest) || keptBySweep cd c now rt dir e) →
      deleteOldLoop cd c now rt rest cur = some (dir.filter (keptBySweep cd c now rt dir)) := by
  induction rest with
  | nil =>
    intro cur _ _ hcur
    rw [hcur]
    simp [deleteOldLoop]
  | cons f rest ih =>
    intro cur hnd hwf hcur
    have hf : f ∉ rest := (List.nodup_cons.mp hnd).1
    have hnd' := (List.nodup_cons.mp hnd).2
    have hwf' : ∀ g ∈ rest, isTemp g = false → loadPageInfo cd c dir g = Loaded.failed ∨
        ∃ p, loadPageInfo cd c dir g = Loaded.ok p ∧ p.ID = g ∧ g ≠ "" :=
      fun g hg => hwf g (List.mem_cons_of_mem _ hg)
    have hload : loadPageInfo cd c cur f = loadPageInfo cd c dir f := by
      rw [hcur]
      apply loadPageInfo_filter
      intro e _ he
      simp [he]
    -- the shape of the next directory in each case
    have keep_all : (∀ e ∈ dir, e.1 = f → keptBySweep cd c now rt dir e = true) →
        cur = dir.filter (fun e => decide (e.1 ∈ rest) || keptBySweep cd c now rt dir e) := by
      intro hk
      rw [hcur]
      apply List.filter_congr
      intro e he
      by_cases hef : e.1 = f
      · simp [hef, hk e he hef]
      · simp [hef]
    have drop_f : ∀ (q : String × Node → Bool),
        (∀ e ∈ dir, e.1 = f → q e = keptBySweep cd c now rt dir e) →
        (∀ e ∈ dir, e.1 ≠ f → q e = true) →
        cur.filter q =
          dir.filter (fun e => decide (e.1 ∈ rest) || keptBySweep cd c now rt dir e) := by
      intro q hq1 hq2
      rw [hcur, List.filter_filter]
      apply List.filter_congr
      intro e he
      by_cases hef : e.1 = f
      · rw [hq1 e he hef]
        simp [hef, hf]
      · rw [hq2 e he hef]
        simp [hef]
    unfold deleteOldLoop
    by_cases htemp : isTemp f = true
    · have htemp' : "sharetemp".data.isPrefixOf f.data = true := htemp
      simp only [htemp', if_true]
      apply ih _ hnd' hwf'
      by_cases hrt : rt = true
      · subst hrt
        simp only [if_true]
        unfold Remove
        apply drop_f
        · intro e _ hef
          unfold keptBySweep
          rw [hef, htemp]
          cases h2 : e.2 <;> simp [removable, hef]
        · intro e _ hef
          cases h2 : e.2 <;> simp [hef]
      · have hrt' : rt = false := by simpa using hrt
        subst hrt'
        simp only [Bool.false_eq_true, if_false]
        apply keep_all
        intro e _ hef
        simp [keptBySweep, hef, htemp]
    · have htemp' : ¬ "sharetemp".data.isPrefixOf f.data = true := htemp
      have htf : isTemp f = false := by simpa using htemp
      simp only [htemp', if_false, hload]
      rcases hwf f (List.mem_cons_self _ _) htf with hfail | ⟨p, hp, hid, hne⟩
      · rw [hfail]
        simp only
        apply ih _ hnd' hwf'
        apply keep_all
        intro e _ hef
        simp [keptBySweep, hef, htf, expired, hfail]
      · rw [hp]
        simp only
        by_cases hyoung : now - p.Modified < p.TimeToDeletion
        · rw [if_pos hyoung]
          apply ih _ hnd' hwf'
          apply keep_all
          intro e _ hef
          simp [keptBySweep, hef, htf, expired, hp, hyoung]
        · rw [if_neg hyoung]
          apply ih _ hnd' hwf'
          unfold RemoveAll
          rw [hid, if_neg hne]
          apply drop_f
          · intro e _ hef
            simp [keptBySweep, hef, htf, expired, hp, not_lt.mp hyoung]
          · intro e _ hef
            simp [hef]

/-- What one sweep does when it does not panic.  If the call of `DirSize` returns, the entries of
the content directory have distinct names and every entry that is not a staging file either has
metadata that cannot be loaded or has metadata that loads (with a non-zero size) and names the
entry itself, then `deleteOld` removes exactly the entries whose metadata loads and whose age is
at least their TTL (and, when asked to, the staging files that `os.Remove` can remove), and
keeps every other entry. -/
theorem deleteOld_spec (cd : Codec) (c : Config) (now : Int) (rt : Bool) (dir : ContentDir)
    (hds : (DirSize c.ContentDirectory dir).isSome = true)
    (hnd : (dir.map fun e => e.1).Nodup)
    (hwf : ∀ e ∈ dir, isTemp e.1 = false → loadPageInfo cd c dir e.1 = Loaded.failed ∨
      ∃ p, loadPageInfo cd c dir e.1 = Loaded.ok p ∧ p.ID = e.1 ∧ e.1 ≠ "") :
    deleteOld cd c now rt dir = some (dir.filter (keptBySweep cd c now rt dir)) := by
  obtain ⟨d, hd⟩ := Option.isSome_iff_exists.mp hds
  unfold deleteOld
  rw [hd]
  simp only
  apply deleteOldLoop_spec cd c now rt dir _ dir hnd
  · intro f hf
    obtain ⟨e, he, hef⟩ := List.mem_map.mp hf
    rw [← hef]
    exact hwf e he
  · symm
    apply List.filter_eq_self.mpr
    intro e he
    have : e.1 ∈ dir.map fun e => e.1 := List.mem_map.mpr ⟨e, he, rfl⟩
    simp [this]

/-- The scenario of the 30-minute TTL: a one-gigabyte object alone in the content directory is
removed by the sweep at 31 minutes of age and kept at 29. -/
theorem deleteOld_at_31_and_29_minutes :
    deleteOld Codec.plain Config.small (31 * Minute) false
        [("bbbbbb", Node.dir [("b.txt", [31, 139, 8]),
          ("bbbbbb.json.gz", [100, 0, 98, 98, 98, 98, 98, 98])])] = some [] ∧
      deleteOld Codec.plain Config.small (29 * Minute) false
        [("bbbbbb", Node.dir [("b.txt", [31, 139, 8]),
          ("bbbbbb.json.gz", [100, 0, 98, 98, 98, 98, 98, 98])])] =
        some [("bbbbbb", Node.dir [("b.txt", [31, 139, 8]),
          ("bbbbbb.json.gz", [100, 0, 98, 98, 98, 98, 98, 98])])] := by
  constructor <;> decide

/-- C5 (code evaluated at the failing input): in a content directory holding the object of an
empty upload and, after it, a one-gigabyte object that is 31 minutes old under a TTL of 30 minutes,
the sweep panics in `loadPageInfo` on the first entry (division by the size 0) and so never removes
the expired second object, whose metadata loads with a TTL of 30 minutes.  The call of `DirSize`
that comes before the loop returns. -/
theorem deleteOld_panics_before_expired :
    (deleteOld Codec.plain Config.small (31 * Minute) false emptyThenGigabyte = none ∧
      loadPageInfo Codec.plain Config.small emptyThenGigabyte "aaaaaa" = Loaded.panic ∧
      ∃ p, loadPageInfo Codec.plain Config.small emptyThenGigabyte "bbbbbb" = Loaded.ok p ∧
        p.TimeToDeletion = 30 * Minute ∧ p.TimeToDeletion ≤ 31 * Minute - p.Modified) ∧
    DirSize Config.small.ContentDirectory emptyThenGigabyte = some (21, "aaaaaa") := by
  refine ⟨⟨by decide, by decide, ?_⟩, by decide⟩
  refine ⟨{ ID := "bbbbbb", Name := "", Hash := "", Size := 1000000000, ContentType := "",
            Modified := 0, TimeToDeletion := 30 * Minute }, by decide, by decide, by decide⟩

/-! ### C6: `DirSize` and `TrimContent` -/

theorem visitAll_spec (l : List (List String × Int))
    (hl : ∀ f ∈ l, ∃ id, f.1[1]? = some id) (acc : DirSizeAcc) :
    ∃ acc', DirSizeAcc.visitAll acc l = some acc' ∧
      acc'.size = acc.size + (l.map fun f => f.2).sum ∧
      acc.biggestFileSize ≤ acc'.biggestFileSize ∧
      (∀ f ∈ l, f.2 ≤ acc'.biggestFileSize) ∧
      (acc'.biggestFileID = acc.biggestFileID ∨
        ∃ f ∈ l, f.1[1]? = some acc'.biggestFileID) ∧
      (acc.biggestFileSize < acc'.biggestFileSize →
        ∃ f ∈ l, f.1[1]? = some acc'.biggestFileID) := by
  induction l generalizing acc with
  | nil =>
    exact ⟨acc, rfl, by simp, le_refl _, fun f hf => absurd hf (List.not_mem_nil f),
      Or.inl rfl, fun h => absurd h (lt_irrefl _)⟩
  | cons f l ih =>
    obtain ⟨id, hid⟩ := hl f (List.mem_cons_self _ _)
    have hl' : ∀ g ∈ l, ∃ id, g.1[1]? = some id := fun g hg => hl g (List.mem_cons_of_mem _ hg)
    by_cases hgt : f.2 > acc.biggestFileSize
    · have hv : acc.visit f =
          some { size := acc.size + f.2, biggestFileID := id, biggestFileSize := f.2 } := by
        unfold DirSizeAcc.visit
        rw [if_pos hgt, hid]
      obtain ⟨acc', h0, h1, h2, h3, h4, _⟩ := ih hl'
        { size := acc.size + f.2, biggestFileID := id, biggestFileSize := f.2 }
      have hfid : ∃ g ∈ f :: l, g.1[1]? = some acc'.biggestFileID := by
        rcases h4 with h4 | ⟨g, hg, hgid⟩
        · exact ⟨f, List.mem_cons_self _ _, by rw [hid, h4]⟩
        · exact ⟨g, List.mem_cons_of_mem _ hg, hgid⟩
      refine ⟨acc', ?_, ?_, ?_, ?_, Or.inr hfid, fun _ => hfid⟩
      · unfold DirSizeAcc.visitAll
        rw [hv]
        exact h0
      · rw [h1, List.map_cons, List.sum_cons]
        simp only
        ring
      · exact le_trans (le_of_lt hgt) h2
      · intro g hg
        rcases List.mem_cons.mp hg with rfl | hg
        · exact h2
        · exact h3 g hg
    · have hv : acc.visit f = some { acc with size := acc.size + f.2 } := by
        unfold DirSizeAcc.visit
        rw [if_neg hgt]
      obtain ⟨acc', h0, h1, h2, h3, h4, h5⟩ := ih hl' { acc with size := acc.size + f.2 }
      refine ⟨acc', ?_, ?_, h2, ?_, ?_, ?_⟩
      · unfold DirSizeAcc.visitAll
        rw [hv]
        exact h0
      · rw [h1, List.map_cons, List.sum_cons]
        simp only
        ring
      · intro g hg
        rcases List.mem_cons.mp hg with rfl | hg
        · exact le_trans (not_lt.mp hgt) h2
        · exact h3 g hg
      · rcases h4 with h4 | ⟨g, hg, hgid⟩
        · exact Or.inl h4
        · exact Or.inr ⟨g, List.mem_cons_of_mem _ hg, hgid⟩
      · intro hlt
        obtain ⟨g, hg, hgid⟩ := h5 hlt
        exact ⟨g, List.mem_cons_of_mem _ hg, hgid⟩

/-- Under a content directory of one path component the second component of a walked path is
the name of the entry the file lies in. -/
theorem mem_walkFiles {p : String} {dir : ContentDir} {f : List String × Int}
    (hf : f ∈ walkFiles [p] dir) : ∃ e ∈ dir, f.1[1]? = some e.1 := by
  unfold walkFiles at hf
  rw [List.mem_flatMap] at hf
  obtain ⟨e, he, hfe⟩ := hf
  refine ⟨e, he, ?_⟩
  cases hn : e.2 with
  | file content =>
    rw [hn] at hfe
    simp only [List.mem_singleton] at hfe
    rw [hfe]
    rfl
  | dir files =>
    rw [hn] at hfe
    simp only [List.mem_map] at hfe
    obtain ⟨g, _, hg⟩ := hfe
    rw [← hg]
    rfl

/-- The sizes of the walked files are the sizes of the files, whatever the path. -/
theorem walkFiles_sizes (root : List String) (dir : ContentDir) :
    (walkFiles root dir).map (fun f => f.2) = fileSizes dir := by
  induction dir with
  | nil => rfl
  | cons e dir ih =>
    unfold walkFiles fileSizes at ih ⊢
    rw [List.flatMap_cons, List.flatMap_cons, List.map_append, ih]
    congr 1
    cases e.2 with
    | file content => rfl
    | dir files => simp [List.map_map, Function.comp_def]

/-- Under a content directory of one path component `DirSize` does not panic, its total is the
number of bytes stored, the name it reports is empty or the name of an entry, and it is the name
of an entry when some file has a byte. -/
theorem DirSize_single (p : String) (dir : ContentDir) :
    ∃ id, DirSize [p] dir = some (storedBytes dir, id) ∧
      (id = "" ∨ ∃ e ∈ dir, e.1 = id) ∧
      ((∃ n ∈ fileSizes dir, 0 < n) → ∃ e ∈ dir, e.1 = id) := by
  have hl : ∀ f ∈ walkFiles [p] dir, ∃ id, f.1[1]? = some id := by
    intro f hf
    obtain ⟨e, _, he⟩ := mem_walkFiles hf
    exact ⟨e.1, he⟩
  obtain ⟨acc', h0, h1, _, h3, h4, h5⟩ := visitAll_spec (walkFiles [p] dir) hl ⟨0, "", 0⟩
  refine ⟨acc'.biggestFileID, ?_, ?_, ?_⟩
  · unfold DirSize
    rw [h0]
    simp only
    rw [h1, walkFiles_sizes]
    simp [storedBytes]
  · rcases h4 with h4 | ⟨f, hf, hfid⟩
    · exact Or.inl h4
    · obtain ⟨e, he, hef⟩ := mem_walkFiles hf
      rw [hef] at hfid
      exact Or.inr ⟨e, he, Option.some.inj hfid⟩
  · rintro ⟨n, hn, hpos⟩
    rw [← walkFiles_sizes [p] dir, List.mem_map] at hn
    obtain ⟨f, hf, hfn⟩ := hn
    have hle := h3 f hf
    have hlt : (⟨0, "", 0⟩ : DirSizeAcc).biggestFileSize < acc'.biggestFileSize := by
      show (0 : Int) < acc'.biggestFileSize
      omega
    obtain ⟨g, hg, hgid⟩ := h5 hlt
    obtain ⟨e, he, heg⟩ := mem_walkFiles hg
    rw [heg] at hgid
    exact ⟨e, he, Option.some.inj hgid⟩

theorem RemoveAll_length_le (dir : ContentDir) (name : String) :
    (RemoveAll dir name).length ≤ dir.length := by
  unfold RemoveAll
  split_ifs
  · exact Nat.zero_le _
  · exact List.length_filter_le _ _

theorem RemoveAll_length_lt (dir : ContentDir) (name : String)
    (h : ∃ e ∈ dir, e.1 = name) : (RemoveAll dir name).length < dir.length := by
  obtain ⟨e, he, hen⟩ := h
  unfold RemoveAll
  split_ifs
  · exact List.length_pos_of_mem he
  · apply List.length_filter_lt_length_iff_exists.mpr
    exact ⟨e, he, by simp [hen]⟩

theorem RemoveAll_subset (dir : ContentDir) (name : String) :
    ∀ e ∈ RemoveAll dir name, e ∈ dir := by
  intro e he
  unfold RemoveAll at he
  split_ifs at he
  · exact absurd he (List.not_mem_nil e)
  · exact List.mem_of_mem_filter he

/-- A pass of `TrimContent` that finds the total below the ceiling, or no name, ends the run. -/
theorem trimLoop_done (c : Config) (k : Nat) (dir : ContentDir) (d : Int × String)
    (hd : DirSize c.ContentDirectory dir = some d)
    (h : d.1 < c.MaxBytesTotal ∨ d.2 = "") :
    trimLoop c k dir = some (dir, []) := by
  cases k with
  | zero => rfl
  | succ k =>
    unfold trimLoop
    rw [hd]
    simp only [h, if_true]

/-- Under a content directory of one path component a run of `TrimContent` with `k` passes
returns, removes at most `k` entries, each the one `DirSize` reports at a moment when the total
is not below the ceiling, and makes the directory shorter unless its first pass ends the run. -/
theorem trimLoop_spec (c : Config) (p : String) (hroot : c.ContentDirectory = [p]) (k : Nat)
    (dir : ContentDir) :
    ∃ r, trimLoop c k dir = some r ∧ r.2.length ≤ k ∧ Evicts c dir r.2 r.1 ∧
      r.1.length ≤ dir.length ∧ (∀ e ∈ r.1, e ∈ dir) ∧
      (∀ d, DirSize c.ContentDirectory dir = some d →
        ¬ (d.1 < c.MaxBytesTotal ∨ d.2 = "") → 0 < k → r.1.length < dir.length) := by
  induction k generalizing dir with
  | zero =>
    exact ⟨(dir, []), rfl, Nat.le_refl _, Evicts.done dir, Nat.le_refl _, fun e he => he,
      fun _ _ _ h0 => absurd h0 (Nat.lt_irrefl 0)⟩
  | succ k ih =>
    obtain ⟨id, hD, hmem, _⟩ := DirSize_single p dir
    rw [← hroot] at hD
    by_cases h : storedBytes dir < c.MaxBytesTotal ∨ id = ""
    · refine ⟨(dir, []), trimLoop_done c _ dir _ hD h, Nat.zero_le _, Evicts.done dir,
        Nat.le_refl _, fun e he => he, ?_⟩
      intro d hd hnd _
      rw [hD] at hd
      rw [← Option.some.inj hd] at hnd
      exact absurd h hnd
    · obtain ⟨r, hr, h1, h2, h3, h4, _⟩ := ih (RemoveAll dir id)
      have hstep : trimLoop c (k + 1) dir = some (r.1, id :: r.2) := by
        conv_lhs => unfold trimLoop
        rw [hD]
        simp only [h, if_false]
        rw [hr]
      have hid : id ≠ "" := fun hc => h (Or.inr hc)
      have hlt : (RemoveAll dir id).length < dir.length := by
        apply RemoveAll_length_lt
        rcases hmem with hm | hm
        · exact absurd hm hid
        · exact hm
      refine ⟨(r.1, id :: r.2), hstep, Nat.succ_le_succ h1, ?_, ?_, ?_, ?_⟩
      · exact Evicts.step dir (storedBytes dir) id r.2 r.1 hD (fun hc => h (Or.inl hc)) hid h2
      · exact le_of_lt (lt_of_le_of_lt h3 hlt)
      · exact fun e he => RemoveAll_subset _ _ e (h4 e he)
      · intro _ _ _ _
        exact lt_of_le_of_lt h3 hlt

theorem trimRuns_done (c : Config) (k : Nat) (dir : ContentDir) (d : Int × String)
    (hd : DirSize c.ContentDirectory dir = some d)
    (h : d.1 < c.MaxBytesTotal ∨ d.2 = "") :
    trimRuns c k dir = some dir := by
  induction k with
  | zero => rfl
  | succ k ih =>
    unfold trimRuns TrimContent
    rw [trimLoop_done c 30 dir d hd h]
    exact ih

/-- Under a content directory of one path component, repeated runs of `TrimContent` reach a
directory, kept by all later runs, on which `DirSize` reports a total below the ceiling or no
name. -/
theorem trimRuns_reaches (c : Config) (p : String) (hroot : c.ContentDirectory = [p]) (n : Nat) :
    ∀ dir : ContentDir, dir.length ≤ n →
      ∃ k, ∀ j, k ≤ j → ∃ d t, trimRuns c j dir = some d ∧ (∀ e ∈ d, e ∈ dir) ∧
        DirSize c.ContentDirectory d = some t ∧ (t.1 < c.MaxBytesTotal ∨ t.2 = "") := by
  induction n with
  | zero =>
    intro dir hlen
    obtain ⟨id, hD, _, _⟩ := DirSize_single p dir
    rw [← hroot] at hD
    by_cases h : storedBytes dir < c.MaxBytesTotal ∨ id = ""
    · exact ⟨0, fun j _ => ⟨dir, _, trimRuns_done c j dir _ hD h, fun e he => he, hD, h⟩⟩
    · obtain ⟨r, _, _, _, _, _, hlt⟩ := trimLoop_spec c p hroot 30 dir
      have := hlt _ hD h (by decide)
      omega
  | succ n ih =>
    intro dir hlen
    obtain ⟨id, hD, _, _⟩ := DirSize_single p dir
    rw [← hroot] at hD
    by_cases h : storedBytes dir < c.MaxBytesTotal ∨ id = ""
    · exact ⟨0, fun j _ => ⟨dir, _, trimRuns_done c j dir _ hD h, fun e he => he, hD, h⟩⟩
    · obtain ⟨r, hr, _, _, _, hsub, hlt⟩ := trimLoop_spec c p hroot 30 dir
      have hl := hlt _ hD h (by decide)
      obtain ⟨k, hk⟩ := ih r.1 (by omega)
      refine ⟨k + 1, fun j hj => ?_⟩
      obtain ⟨m, rfl⟩ : ∃ m, j = m + 1 := ⟨j - 1, by omega⟩
      obtain ⟨d, t, h1, h2, h3, h4⟩ := hk m (by omega)
      refine ⟨d, t, ?_, fun e he => hsub e (h2 e he), h3, h4⟩
      unfold trimRuns TrimContent
      rw [hr]
      exact h1

/-- The claim of C6 holds when the content directory is a single path component, as the default
`data` is.  Then `DirSize` reports the number of bytes stored as the total; for every ceiling
and every content directory of stored objects, some number of runs of `TrimContent` reaches a
state, kept by all later runs, in which the bytes stored are at most the ceiling or no entry
remains; every removal of a run is of the entry `DirSize` reports, made while the total is not
below the ceiling; and one run removes at most 30 entries. -/
theorem TrimContent_single_component (c : Config) (p : String)
    (hroot : c.ContentDirectory = [p]) (dir : ContentDir) (hobj : ∀ e ∈ dir, Stored e) :
    (∀ d : ContentDir, ∃ id, DirSize c.ContentDirectory d = some (storedBytes d, id)) ∧
    (∃ k, ∀ j, k ≤ j → ∃ d, trimRuns c j dir = some d ∧
      (storedBytes d ≤ c.MaxBytesTotal ∨ d = [])) ∧
    (∃ d names, TrimContent c dir = some (d, names) ∧ Evicts c dir names d ∧
      names.length ≤ 30) := by
  refine ⟨?_, ?_, ?_⟩
  · intro d
    obtain ⟨id, hD, _, _⟩ := DirSize_single p d
    exact ⟨id, by rw [hroot]; exact hD⟩
  · obtain ⟨k, hk⟩ := trimRuns_reaches c p hroot dir.length dir (Nat.le_refl _)
    refine ⟨k, fun j hj => ?_⟩
    obtain ⟨d, t, h1, hsub, h3, h4⟩ := hk j hj
    refine ⟨d, h1, ?_⟩
    obtain ⟨id, hD, _, hpos⟩ := DirSize_single p d
    rw [← hroot, h3] at hD
    have ht : t = (storedBytes d, id) := Option.some.inj hD
    rw [ht] at h4
    rcases h4 with h4 | h4
    · exact Or.inl (le_of_lt h4)
    · right
      by_contra hne
      obtain ⟨e, he⟩ := List.exists_mem_of_ne_nil _ hne
      obtain ⟨_, n, hn, hn0⟩ := hobj e (hsub e he)
      have hnd : n ∈ fileSizes d := by
        unfold fileSizes at hn ⊢
        rw [List.mem_flatMap] at hn ⊢
        obtain ⟨e', he', hfe⟩ := hn
        rw [List.mem_singleton] at he'
        exact ⟨e, he, by rw [← he']; exact hfe⟩
      obtain ⟨e', he', hid⟩ := hpos ⟨n, hnd, hn0⟩
      exact (hobj e' (hsub e' he')).1 (hid.trans h4)
  · obtain ⟨r, hr, h1, h2, _⟩ := trimLoop_spec c p hroot 30 dir
    exact ⟨r.1, r.2, hr, h2, h1⟩

/-- With the default content directory `data` and a ceiling of 6 bytes, one run of `TrimContent`
on two objects of 5 and 7 bytes removes `bbbbbb`, which holds the biggest file, and leaves the 5
bytes of `aaaaaa`. -/
theorem TrimContent_default_directory :
    DirSize ["data"] twoObjects = some (12, "bbbbbb") ∧
      TrimContent { Config.small with MaxBytesTotal := 6 } twoObjects =
        some ([("aaaaaa", Node.dir [("a.txt", [1, 2, 3]), ("aaaaaa.json.gz", [3, 0])])],
          ["bbbbbb"]) := by
  refine ⟨by decide, by decide⟩

/-- C6 (code evaluated at the failing input): with `-data /srv/share` and a ceiling of 6 bytes,
on two stored objects of 5 and 7 bytes.  `DirSize` reports the total 12 and, as
`biggestFileID`, the path component `srv` in place of the object `bbbbbb`; each of the 30 passes
of a run of `TrimContent` removes `/srv/share/srv`, which is no entry, and leaves the directory
as it was; so after any number of runs the 12 stored bytes are above the ceiling and both objects
remain. -/
theorem TrimContent_removes_nothing_under_absolute_path :
    DirSize ["", "srv", "share"] twoObjects = some (12, "srv") ∧
      storedBytes twoObjects = 12 ∧
      TrimContent
          { Config.small with MaxBytesTotal := 6, ContentDirectory := ["", "srv", "share"] }
          twoObjects = some (twoObjects, List.replicate 30 "srv") ∧
      (∀ k, trimRuns
          { Config.small with MaxBytesTotal := 6, ContentDirectory := ["", "srv", "share"] }
          k twoObjects = some twoObjects) ∧
      ¬ (storedBytes twoObjects ≤ 6 ∨ twoObjects = []) := by
  have ht : TrimContent
      { Config.small with MaxBytesTotal := 6, ContentDirectory := ["", "srv", "share"] }
      twoObjects = some (twoObjects, List.replicate 30 "srv") := by decide
  refine ⟨by decide, by decide, ht, ?_, by decide⟩
  intro k
  induction k with
  | zero => rfl
  | succ k ih =>
    unfold trimRuns
    rw [ht]
    exact ih

/-! ### C7: the generator cannot withhold letter indices for ever -/

theorem rngSource.next_bounds (r : rngSource) (hf : r.feed < rngLen) (ht : r.tap < rngLen) :
    r.next.feed < rngLen ∧ r.next.tap < rngLen := by
  unfold rngSource.next rngSource.Uint64 rngLen at *
  simp only
  constructor <;> split_ifs <;> omega

theorem rngSource.iterate_bounds (r : rngSource) (hf : r.feed < rngLen) (ht : r.tap < rngLen)
    (m : Nat) : (rngSource.next^[m] r).feed < rngLen ∧ (rngSource.next^[m] r).tap < rngLen := by
  induction m with
  | zero => exact ⟨hf, ht⟩
  | succ m ih =>
    rw [Function.iterate_succ_apply']
    exact rngSource.next_bounds _ ih.1 ih.2

/-- While no draw is good, the cells written so far (the `j` cells cyclically from `feed` on) all
have low six bits of at least 36. -/
theorem rngSource.written_bad (r : rngSource) (hf : r.feed < rngLen) (ht : r.tap < rngLen)
    (j : Nat) (hbad : ∀ m, m < j → ¬ (rngSource.next^[m] r).Good) :
    ∀ p, p < rngLen → (p + rngLen - (rngSource.next^[j] r).feed) % rngLen < j →
      36 ≤ (rngSource.next^[j] r).vec p % 64 := by
  induction j with
  | zero => intro p _ h; exact absurd h (Nat.not_lt_zero _)
  | succ j ih =>
    intro p hp hdist
    have ihj := ih (fun m hm => hbad m (Nat.lt_succ_of_lt hm))
    have hb := hbad j (Nat.lt_succ_self j)
    have hfj := (rngSource.iterate_bounds r hf ht j).1
    rw [Function.iterate_succ_apply'] at hdist ⊢
    generalize rngSource.next^[j] r = rj at *
    unfold rngSource.Good at hb
    unfold rngSource.next rngSource.Uint64 at hdist ⊢
    unfold rngSource.Uint64 at hb
    simp only at hdist hb ⊢
    by_cases hpf : p = if rj.feed = 0 then rngLen - 1 else rj.feed - 1
    · rw [hpf, Function.update_same]
      omega
    · rw [Function.update_noteq hpf]
      apply ihj p hp
      unfold rngLen at *
      split_ifs at hdist hpf <;> omega

theorem rngSource.slack_le (r : rngSource) (hall : ∀ p, p < rngLen → 36 ≤ r.vec p % 64) :
    r.slack ≤ rngLen * 28 := by
  unfold rngSource.slack
  calc ∑ p in Finset.range rngLen, (64 - r.vec p % 64)
      ≤ ∑ _p in Finset.range rngLen, 28 := by
        apply Finset.sum_le_sum
        intro p hp
        have := hall p (Finset.mem_range.mp hp)
        omega
    _ = rngLen * 28 := by simp

/-- A draw that is not good, from a register whose cells all have low six bits of at least 36,
leaves such a register and raises the slack. -/
theorem rngSource.bad_step (r : rngSource) (hf : r.feed < rngLen) (ht : r.tap < rngLen)
    (hall : ∀ p, p < rngLen → 36 ≤ r.vec p % 64) (hb : ¬ r.Good) :
    (∀ p, p < rngLen → 36 ≤ r.next.vec p % 64) ∧ r.slack + 1 ≤ r.next.slack := by
  unfold rngSource.Good at hb
  have hf' : (if r.feed = 0 then rngLen - 1 else r.feed - 1) < rngLen := by
    unfold rngLen at *
    split_ifs <;> omega
  have ht' : (if r.tap = 0 then rngLen - 1 else r.tap - 1) < rngLen := by
    unfold rngLen at *
    split_ifs <;> omega
  have ha := hall _ hf'
  have hbt := hall _ ht'
  unfold rngSource.Uint64 at hb
  simp only at hb
  constructor
  · intro p hp
    unfold rngSource.next rngSource.Uint64
    simp only
    by_cases hpf : p = if r.feed = 0 then rngLen - 1 else r.feed - 1
    · rw [hpf, Function.update_same]
      omega
    · rw [Function.update_noteq hpf]
      exact hall p hp
  · unfold rngSource.slack rngSource.next rngSource.Uint64
    simp only
    generalize hfe : (if r.feed = 0 then rngLen - 1 else r.feed - 1) = fe at *
    generalize hta : (if r.tap = 0 then rngLen - 1 else r.tap - 1) = ta at *
    have hmem : fe ∈ Finset.range rngLen := Finset.mem_range.mpr hf'
    rw [← Finset.add_sum_erase _ _ hmem, ← Finset.add_sum_erase _ _ hmem, Function.update_same]
    have hrest : ∑ p in (Finset.range rngLen).erase fe,
        (64 - Function.update r.vec fe ((r.vec fe + r.vec ta) % 18446744073709551616) p % 64) =
        ∑ p in (Finset.range rngLen).erase fe, (64 - r.vec p % 64) := by
      apply Finset.sum_congr rfl
      intro p hp
      rw [Function.update_noteq (Finset.ne_of_mem_erase hp)]
    rw [hrest]
    omega

theorem rngSource.bad_run (r : rngSource) (hf : r.feed < rngLen) (ht : r.tap < rngLen)
    (hall : ∀ p, p < rngLen → 36 ≤ r.vec p % 64) (m : Nat)
    (hbad : ∀ k, k < m → ¬ (rngSource.next^[k] r).Good) :
    (∀ p, p < rngLen → 36 ≤ (rngSource.next^[m] r).vec p % 64) ∧
      m ≤ (rngSource.next^[m] r).slack := by
  induction m with
  | zero => exact ⟨hall, Nat.zero_le _⟩
  | succ m ih =>
    obtain ⟨h1, h2⟩ := ih (fun k hk => hbad k (Nat.lt_succ_of_lt hk))
    obtain ⟨hfm, htm⟩ := rngSource.iterate_bounds r hf ht m
    rw [Function.iterate_succ_apply']
    obtain ⟨h3, h4⟩ := rngSource.bad_step _ hfm htm h1 (hbad m (Nat.lt_succ_self m))
    exact ⟨h3, by omega⟩

/-- From every state of the source, one of the next 17604 draws is good. -/
theorem rngSource.good_within (r : rngSource) (hf : r.feed < rngLen) (ht : r.tap < rngLen) :
    ∃ m, m ≤ 17603 ∧ (rngSource.next^[m] r).Good := by
  by_contra hcon
  push_neg at hcon
  have hbad : ∀ m, m ≤ 17603 → ¬ (rngSource.next^[m] r).Good := hcon
  have h1 : ∀ p, p < rngLen → 36 ≤ (rngSource.next^[607] r).vec p % 64 := by
    intro p hp
    apply rngSource.written_bad r hf ht 607 (fun m hm => hbad m (by omega)) p hp
    have := (rngSource.iterate_bounds r hf ht 607).1
    unfold rngLen at *
    omega
  obtain ⟨hf1, ht1⟩ := rngSource.iterate_bounds r hf ht 607
  obtain ⟨h2, h3⟩ := rngSource.bad_run _ hf1 ht1 h1 16997 (by
    intro k hk
    rw [← Function.iterate_add_apply]
    exact hbad (k + 607) (by omega))
  have h4 := rngSource.slack_le _ h2
  unfold rngLen at h4
  omega

/-! ### C7: the loop of `RandStringBytesMaskImpr` ends and fills every position -/

theorem RandLoop.run_succ (fuel : Nat) (s : RandLoop) (h : 0 ≤ s.i) :
    RandLoop.run (fuel + 1) s = RandLoop.run fuel s.body := by
  conv_lhs => unfold RandLoop.run
  rw [if_neg (not_lt.mpr h)]

theorem RandLoop.run_of_neg (fuel : Nat) (s : RandLoop) (h : s.i < 0) :
    RandLoop.run fuel s = some s.b := by
  cases fuel <;> simp [RandLoop.run, h]

theorem letter_mem (idx : Nat) (h : idx < 36) :
    letterBytes.data.getD idx 'a' ∈ letterBytes.data := by
  have hl : idx < letterBytes.data.length := h
  rw [List.getD_eq_getElem _ _ hl]
  exact List.getElem_mem hl

theorem RandLoop.body_spec (s : RandLoop) (hf : s.src.feed < rngLen) (ht : s.src.tap < rngLen)
    (hr : s.remain ≤ 10) :
    s.body.src.feed < rngLen ∧ s.body.src.tap < rngLen ∧ s.body.remain ≤ 10 ∧
    ((s.body.i = s.i - 1 ∧ ∃ ch ∈ letterBytes.data, s.body.b = s.b.set s.i.toNat ch) ∨
      (s.body.i = s.i ∧ s.body.b = s.b ∧
        ((s.remain ≠ 0 ∧ s.body.src = s.src ∧ s.body.remain = s.remain - 1) ∨
          (s.remain = 0 ∧ ¬ s.src.Good ∧ s.body.src = s.src.next ∧ s.body.remain = 9)))) := by
  have hlen : letterBytes.length = 36 := by decide
  have hmask : letterIdxMask + 1 = 64 := by decide
  have hmax : letterIdxMax = 10 := by decide
  have hnb := rngSource.next_bounds s.src hf ht
  by_cases h0 : s.remain = 0
  · by_cases hg : (s.src.Int63).1 % 64 < 36
    · have hb : s.body =
          ({ src := s.src.next, i := s.i - 1, cache := (s.src.Int63).1 / 2 ^ letterIdxBits,
             remain := 9,
             b := s.b.set s.i.toNat (letterBytes.data.getD ((s.src.Int63).1 % 64) 'a') } :
            RandLoop) := by
        unfold RandLoop.body
        simp only [h0, if_true, hlen, hmask, hg, hmax]
        rfl
      rw [hb]
      exact ⟨hnb.1, hnb.2, by simp only; omega, Or.inl ⟨rfl, _, letter_mem _ hg, rfl⟩⟩
    · have hb : s.body =
          ({ src := s.src.next, i := s.i, cache := (s.src.Int63).1 / 2 ^ letterIdxBits,
             remain := 9, b := s.b } : RandLoop) := by
        unfold RandLoop.body
        simp only [h0, if_true, hlen, hmask, hg, hmax, if_false]
        rfl
      rw [hb]
      refine ⟨hnb.1, hnb.2, by simp only; omega, Or.inr ⟨rfl, rfl, Or.inr ⟨h0, ?_, rfl, rfl⟩⟩⟩
      unfold rngSource.Good
      unfold rngSource.Int63 at hg
      simp only at hg
      omega
  · by_cases hg : s.cache % 64 < 36
    · have hb : s.body =
          ({ src := s.src, i := s.i - 1, cache := s.cache / 2 ^ letterIdxBits,
             remain := s.remain - 1,
             b := s.b.set s.i.toNat (letterBytes.data.getD (s.cache % 64) 'a') } :
            RandLoop) := by
        unfold RandLoop.body
        simp only [h0, if_false, hlen, hmask, hg, if_true]
      rw [hb]
      exact ⟨hf, ht, by simp only; omega, Or.inl ⟨rfl, _, letter_mem _ hg, rfl⟩⟩
    · have hb : s.body =
          ({ src := s.src, i := s.i, cache := s.cache / 2 ^ letterIdxBits,
             remain := s.remain - 1, b := s.b } : RandLoop) := by
        unfold RandLoop.body
        simp only [h0, if_false, hlen, hmask, hg]
      rw [hb]
      exact ⟨hf, ht, by simp only; omega, Or.inr ⟨rfl, rfl, Or.inl ⟨h0, rfl, rfl⟩⟩⟩

/-- With a good draw among the next `m + 1`, the loop fills position `i` within
`10 * m + remain + 1` passes. -/
theorem RandLoop.first_accept (m : Nat) :
    ∀ (r : Nat) (s : RandLoop), s.remain = r → s.src.feed < rngLen → s.src.tap < rngLen →
      s.remain ≤ 10 → 0 ≤ s.i → (∃ m', m' ≤ m ∧ (rngSource.next^[m'] s.src).Good) →
      ∃ (k : Nat) (s' : RandLoop), k ≤ 10 * m + s.remain + 1 ∧
        (∀ fuel, RandLoop.run (k + fuel) s = RandLoop.run fuel s') ∧
        s'.src.feed < rngLen ∧ s'.src.tap < rngLen ∧ s'.remain ≤ 10 ∧ s'.i = s.i - 1 ∧
        ∃ ch ∈ letterBytes.data, s'.b = s.b.set s.i.toNat ch := by
  induction m with
  | zero =>
    intro r
    induction r with
    | zero =>
      intro s hr hf ht hrem hi hgood
      obtain ⟨m', hm', hg⟩ := hgood
      have hm0 : m' = 0 := by omega
      subst hm0
      obtain ⟨hf', ht', hr', hcase⟩ := RandLoop.body_spec s hf ht hrem
      rcases hcase with ⟨hi', hb'⟩ | ⟨_, _, ⟨hne, _⟩ | ⟨_, hng, _⟩⟩
      · refine ⟨1, s.body, by omega, fun fuel => ?_, hf', ht', hr', hi', hb'⟩
        rw [Nat.add_comm, RandLoop.run_succ fuel s hi]
      · exact absurd hr hne
      · exact absurd hg hng
    | succ r ih =>
      intro s hr hf ht hrem hi hgood
      obtain ⟨hf', ht', hr', hcase⟩ := RandLoop.body_spec s hf ht hrem
      rcases hcase with ⟨hi', hb'⟩ | ⟨hi', hb', ⟨_, hsrc, hrm⟩ | ⟨h0, _⟩⟩
      · refine ⟨1, s.body, by omega, fun fuel => ?_, hf', ht', hr', hi', hb'⟩
        rw [Nat.add_comm, RandLoop.run_succ fuel s hi]
      · obtain ⟨k, s', hk, hrun, h1, h2, h3, h4, h5⟩ :=
          ih s.body (by omega) hf' ht' hr' (by omega) (by rw [hsrc]; exact hgood)
        refine ⟨k + 1, s', by omega, fun fuel => ?_, h1, h2, h3, by omega, ?_⟩
        · rw [Nat.add_right_comm, RandLoop.run_succ _ s hi]
          exact hrun fuel
        · rw [hb', hi'] at h5
          exact h5
      · omega
  | succ m ihm =>
    intro r
    induction r with
    | zero =>
      intro s hr hf ht hrem hi hgood
      obtain ⟨hf', ht', hr', hcase⟩ := RandLoop.body_spec s hf ht hrem
      rcases hcase with ⟨hi', hb'⟩ | ⟨hi', hb', ⟨hne, _⟩ | ⟨_, hng, hsrc, hrm⟩⟩
      · refine ⟨1, s.body, by omega, fun fuel => ?_, hf', ht', hr', hi', hb'⟩
        rw [Nat.add_comm, RandLoop.run_succ fuel s hi]
      · exact absurd hr hne
      · obtain ⟨m', hm', hg⟩ := hgood
        have hgood' : ∃ m'', m'' ≤ m ∧ (rngSource.next^[m''] s.body.src).Good := by
          cases m' with
          | zero => exact absurd hg hng
          | succ m'' =>
            refine ⟨m'', by omega, ?_⟩
            rw [hsrc]
            rw [Function.iterate_succ_apply] at hg
            exact hg
        obtain ⟨k, s', hk, hrun, h1, h2, h3, h4, h5⟩ :=
          ihm s.body.remain s.body rfl hf' ht' hr' (by omega) hgood'
        refine ⟨k + 1, s', by omega, fun fuel => ?_, h1, h2, h3, by omega, ?_⟩
        · rw [Nat.add_right_comm, RandLoop.run_succ _ s hi]
          exact hrun fuel
        · rw [hb', hi'] at h5
          exact h5
    | succ r ih =>
      intro s hr hf ht hrem hi hgood
      obtain ⟨hf', ht', hr', hcase⟩ := RandLoop.body_spec s hf ht hrem
      rcases hcase with ⟨hi', hb'⟩ | ⟨hi', hb', ⟨_, hsrc, hrm⟩ | ⟨h0, _⟩⟩
      · refine ⟨1, s.body, by omega, fun fuel => ?_, hf', ht', hr', hi', hb'⟩
        rw [Nat.add_comm, RandLoop.run_succ fuel s hi]
      · obtain ⟨k, s', hk, hrun, h1, h2, h3, h4, h5⟩ :=
          ih s.body (by omega) hf' ht' hr' (by omega) (by rw [hsrc]; exact hgood)
        refine ⟨k + 1, s', by omega, fun fuel => ?_, h1, h2, h3, by omega, ?_⟩
        · rw [Nat.add_right_comm, RandLoop.run_succ _ s hi]
          exact hrun fuel
        · rw [hb', hi'] at h5
          exact h5
      · omega

theorem RandLoop.run_fills (n : Nat) :
    ∀ s : RandLoop, s.src.feed < rngLen → s.src.tap < rngLen → s.remain ≤ 10 →
      s.i = (n : Int) - 1 → n ≤ s.b.length →
      ∃ b' : List Char, (∀ fuel, 176041 * n + 1 ≤ fuel → RandLoop.run fuel s = some b') ∧
        b'.length = s.b.length ∧
        (∀ p, p < n → ∃ ch ∈ letterBytes.data, b'[p]? = some ch) ∧
        ∀ p, n ≤ p → b'[p]? = s.b[p]? := by
  induction n with
  | zero =>
    intro s _ _ _ hi _
    refine ⟨s.b, fun fuel _ => RandLoop.run_of_neg fuel s (by rw [hi]; decide), rfl,
      fun p hp => absurd hp (Nat.not_lt_zero p), fun p _ => rfl⟩
  | succ n ih =>
    intro s hf ht hr hi hlen
    have hi0 : 0 ≤ s.i := by rw [hi]; push_cast; omega
    obtain ⟨m, hm, hg⟩ := rngSource.good_within s.src hf ht
    obtain ⟨k, s', hk, hrun, h1, h2, h3, h4, ch, hch, h5⟩ :=
      RandLoop.first_accept m s.remain s rfl hf ht hr hi0 ⟨m, Nat.le_refl m, hg⟩
    have hin : s.i.toNat = n := by rw [hi]; push_cast; omega
    rw [hin] at h5
    have hlen' : s'.b.length = s.b.length := by rw [h5, List.length_set]
    obtain ⟨b', hb1, hb2, hb3, hb4⟩ :=
      ih s' h1 h2 h3 (by rw [h4, hi]; push_cast; omega) (by omega)
    refine ⟨b', fun fuel hfuel => ?_, by omega, fun p hp => ?_, fun p hp => ?_⟩
    · obtain ⟨fuel', rfl⟩ := Nat.exists_eq_add_of_le (show k ≤ fuel by omega)
      rw [hrun fuel']
      exact hb1 fuel' (by omega)
    · rcases Nat.lt_succ_iff_lt_or_eq.mp hp with hlt | rfl
      · exact hb3 p hlt
      · refine ⟨ch, hch, ?_⟩
        rw [hb4 p (Nat.le_refl p), h5]
        have : p < s.b.length := by omega
        simp [this]
    · rw [hb4 p (by omega), h5]
      exact List.getElem?_set_ne (by omega)

theorem copyToContentDirectory_fnameFull (lib : Lib) (cd : Codec) (flt : Faults) (now : Int)
    (st : State) (fname tempFname : String) (originalSize : Int) :
    (copyToContentDirectory lib cd flt now st fname tempFname originalSize).2.1 = "" ∨
      (copyToContentDirectory lib cd flt now st fname tempFname originalSize).2.1 =
        (RandStringBytesMaskImpr lib (randFuel 6)
          (Filemd5Sum lib (st.temps tempFname)).1 6).getD "" ++ "/" ++ fname := by
  unfold copyToContentDirectory
  simp only
  split_ifs <;> try exact Or.inl rfl
  all_goals (split <;> first | exact Or.inl rfl | exact Or.inr rfl)

/-- C7. For every string `s` and every `n >= 0`, `RandStringBytesMaskImpr(s, n)` terminates: from
`randFuel n` passes on its loop has ended, with one and the same result for `(s, n)`; the result
has exactly `n` characters, each from the 36-character alphabet `letterBytes`.  In particular the
identifier that `copyToContentDirectory` computes from the content hash is such a string of 6
characters, a function of the hash alone, and the name it returns is empty or begins with it. -/
theorem RandStringBytesMaskImpr_spec (lib : Lib) (s : String) (n : Nat) :
    (∃ str : String,
      (∀ fuel, randFuel n ≤ fuel → RandStringBytesMaskImpr lib fuel s n = some str) ∧
      str.length = n ∧ ∀ ch ∈ str.data, ch ∈ letterBytes.data) ∧
    ∀ (cd : Codec) (flt : Faults) (now : Int) (st : State) (fname tempFname : String)
      (originalSize : Int),
      ∃ ident : String,
        RandStringBytesMaskImpr lib (randFuel 6) (Filemd5Sum lib (st.temps tempFname)).1 6 =
          some ident ∧
        ident.length = 6 ∧ (∀ ch ∈ ident.data, ch ∈ letterBytes.data) ∧
        ((copyToContentDirectory lib cd flt now st fname tempFname originalSize).2.1 = "" ∨
          (copyToContentDirectory lib cd flt now st fname tempFname originalSize).2.1 =
            ident ++ "/" ++ fname) := by
  have main : ∀ (s : String) (n : Nat), ∃ str : String,
      (∀ fuel, randFuel n ≤ fuel → RandStringBytesMaskImpr lib fuel s n = some str) ∧
      str.length = n ∧ ∀ ch ∈ str.data, ch ∈ letterBytes.data := by
    intro s n
    have hb := rngSource.next_bounds (NewSource lib (lib.fnv32a s : Int))
      (by simp only [NewSource, rngLen, rngTap]; omega) (by simp only [NewSource, rngLen]; omega)
    obtain ⟨b', h1, h2, h3, _⟩ := RandLoop.run_fills n
      { src := (NewSource lib (lib.fnv32a s : Int)).Int63.2, i := (n : Int) - 1,
        cache := (NewSource lib (lib.fnv32a s : Int)).Int63.1, remain := letterIdxMax,
        b := List.replicate n (Char.ofNat 0) }
      hb.1 hb.2 (by simp only [letterIdxMax, letterIdxBits]; omega) rfl (by simp)
    simp only [List.length_replicate] at h2
    refine ⟨String.mk b', fun fuel hfuel => ?_, h2, fun ch hch => ?_⟩
    · unfold RandStringBytesMaskImpr
      simp only
      rw [h1 fuel hfuel]
      rfl
    · obtain ⟨p, hp, hget⟩ := List.getElem_of_mem hch
      obtain ⟨ch', hch', hp'⟩ := h3 p (by rw [← h2]; exact hp)
      rw [List.getElem?_eq_getElem hp, hget] at hp'
      rw [Option.some.inj hp']
      exact hch'
  refine ⟨main s n, fun cd flt now st fname tempFname originalSize => ?_⟩
  obtain ⟨ident, h1, h2, h3⟩ := main (Filemd5Sum lib (st.temps tempFname)).1 6
  have hid := h1 (randFuel 6) (Nat.le_refl _)
  refine ⟨ident, hid, h2, h3, ?_⟩
  have := copyToContentDirectory_fnameFull lib cd flt now st fname tempFname originalSize
  rw [hid] at this
  exact this

/-! ### C8: `Filemd5Sum` -/

theorem dropCR_subset (data : List Byte) : ∀ b ∈ dropCR data, b ∈ data := by
  intro b hb
  unfold dropCR at hb
  split_ifs at hb
  · exact List.mem_of_mem_dropLast hb
  · exact hb

theorem scanLines_no_newline (data : List Byte) :
    ∀ cur : List Byte, (10 : Byte) ∉ cur → ∀ t ∈ scanLines data cur, (10 : Byte) ∉ t := by
  induction data with
  | nil =>
    intro cur hcur t ht
    unfold scanLines at ht
    split_ifs at ht
    · exact absurd ht (List.not_mem_nil t)
    · exact absurd ht (List.not_mem_nil t)
    · rw [List.mem_singleton] at ht
      rw [ht]
      exact fun h => hcur (dropCR_subset cur _ h)
  | cons b rest ih =>
    intro cur hcur t ht
    unfold scanLines at ht
    split_ifs at ht with hb hlong
    · exact absurd ht (List.not_mem_nil t)
    · rcases List.mem_cons.mp ht with h | h
      · rw [h]
        exact fun h' => hcur (dropCR_subset cur _ h')
      · exact ih [] (List.not_mem_nil _) t h
    · apply ih (cur ++ [b]) _ t ht
      intro h
      rcases List.mem_append.mp h with h | h
      · exact hcur h
      · rw [List.mem_singleton] at h
        exact hb h.symm

/-- No line feed reaches the hash: a file that contains the byte `0x0A` is never hashed in
full. -/
theorem hashedBytes_ne_of_newline (file : List Byte) (h : (10 : Byte) ∈ file) :
    hashedBytes file ≠ file := by
  intro heq
  rw [← heq] at h
  unfold hashedBytes at h
  obtain ⟨t, ht, hbt⟩ := List.mem_flatten.mp h
  exact scanLines_no_newline file [] (List.not_mem_nil _) t ht hbt

/-- C8 (code evaluated at the failing input): for the three-byte file `a`, `\n`, `b` the hash is
fed only `a`, `b`, so this file and the two-byte file `a`, `b` get the same sum whatever the
digest function is. -/
theorem Filemd5Sum_drops_line_breaks :
    hashedBytes [97, 10, 98] = [97, 98] ∧ hashedBytes [97, 10, 98] ≠ [97, 10, 98] ∧
      ∀ lib : Lib, Filemd5Sum lib (some [97, 10, 98]) = Filemd5Sum lib (some [97, 98]) := by
  refine ⟨by decide, by decide, fun lib => ?_⟩
  have h1 : hashedBytes [97, 10, 98] = [97, 98] := by decide
  have h2 : hashedBytes [97, 98] = [97, 98] := by decide
  simp only [Filemd5Sum, h1, h2]

/-! ### C9 and C10: the time to deletion -/

/-- The conversion keeps the whole part: for a non-negative value it is the floor. -/
theorem durationOfMinutes_eq_floor (m : ℚ) (hm : 0 ≤ m) : durationOfMinutes m = ⌊m⌋ := by
  unfold durationOfMinutes
  rw [Rat.floor_def]
  exact Int.tdiv_eq_ediv (Rat.num_nonneg.mpr hm) (Int.ofNat_nonneg _)

/-- The converted value is positive exactly from one minute on. -/
theorem durationOfMinutes_pos_iff (m : ℚ) : 0 < durationOfMinutes m ↔ 1 ≤ m := by
  constructor
  · intro h
    by_contra hlt
    push_neg at hlt
    rcases le_or_lt 0 m with h0 | h0
    · rw [durationOfMinutes_eq_floor m h0] at h
      have : (1 : ℚ) ≤ m := by
        have h1 : (1 : Int) ≤ ⌊m⌋ := h
        exact_mod_cast Int.le_floor.mp h1
      exact absurd this (not_le.mpr hlt)
    · have hn : m.num < 0 := Rat.num_neg.mpr h0
      have : durationOfMinutes m ≤ 0 := by
        unfold durationOfMinutes
        have hd : (0 : Int) ≤ (m.den : Int) := Int.ofNat_nonneg _
        have := Int.tdiv_nonneg (a := -m.num) (by omega) hd
        rw [Int.neg_tdiv] at this
        omega
      omega
  · intro h
    rw [durationOfMinutes_eq_floor m (le_trans zero_le_one h)]
    have : (1 : Int) ≤ ⌊m⌋ := Int.le_floor.mpr (by exact_mod_cast h)
    omega

/-- Supporting fact for C9: when the product does not leave `int64`, the TTL of a file of at most
one gigabyte is at least the configured whole minutes. -/
theorem timeToDeletion_ge_of_no_overflow (mpg : ℚ) (size : Int) (hm : 0 ≤ durationOfMinutes mpg)
    (hs : 0 < size) (hle : size ≤ 1000000000)
    (hfit : durationOfMinutes mpg * Minute * (1000000000 / size) < 9223372036854775808) :
    ∃ t, timeToDeletion mpg size = some t ∧ durationOfMinutes mpg * Minute ≤ t := by
  unfold timeToDeletion
  generalize durationOfMinutes mpg = d at *
  have hq : (1 : Int) ≤ 1000000000 / size := by
    have := Int.ediv_le_ediv hs hle
    rwa [Int.ediv_self (ne_of_gt hs)] at this
  have hmm : 0 ≤ d * Minute := by unfold Minute; positivity
  have h1 : d * Minute ≤ d * Minute * (1000000000 / size) := by nlinarith
  have hw1 : wrapInt64 (d * Minute) = d * Minute := by
    unfold wrapInt64; omega
  have htd : Int.tdiv 1000000000 size = 1000000000 / size :=
    Int.tdiv_eq_ediv (by norm_num) (le_of_lt hs)
  refine ⟨d * Minute * (1000000000 / size), ?_, h1⟩
  rw [if_neg (ne_of_gt hs), hw1, htd]
  congr 1
  unfold wrapInt64
  generalize d * Minute * (1000000000 / size) = z at *
  omega

/-- One gigabyte at 30 minutes per gigabyte gets exactly 30 minutes. -/
theorem timeToDeletion_reference : timeToDeletion 30 1000000000 = some (30 * Minute) := by
  decide

/-- C9 (code evaluated at the failing input): with `minutesPerGigabyte = 30` a 100-byte file gets
the wrapped, negative TTL `-446744073709551616` ns, which is below 30 minutes. -/
theorem timeToDeletion_small_file_overflows :
    timeToDeletion 30 100 = some (-446744073709551616) ∧
      (-446744073709551616 : Int) < 30 * Minute := by
  decide

/-- C10 (counterexample): with 30 minutes per gigabyte, sizes of 600 MB and 700 MB get the same
TTL of 30 minutes, so the TTL is not strictly decreasing in the size.  With the positive setting
of half a minute per gigabyte the conversion to whole minutes gives 0 and files of 100 and of
1000 bytes both get the TTL 0, although their quotients `10^9 / s` differ. -/
theorem timeToDeletion_plateau :
    (∃ t1 t2, timeToDeletion 30 600000000 = some t1 ∧ timeToDeletion 30 700000000 = some t2 ∧
      ¬ t1 > t2) ∧
    ((0 : ℚ) < 1 / 2 ∧ timeToDeletion (1 / 2) 100 = some 0 ∧
      timeToDeletion (1 / 2) 1000 = some 0 ∧
      Int.tdiv 1000000000 1000 < Int.tdiv 1000000000 100) := by
  have hn : ((1 : ℚ) / 2).num = 1 := by norm_num
  have hd : ((1 : ℚ) / 2).den = 2 := by norm_num
  have h0 : durationOfMinutes (1 / 2) = 0 := by
    rw [durationOfMinutes, hn, hd]; decide
  refine ⟨⟨1800000000000, 1800000000000, by decide, by decide, by decide⟩, by norm_num, ?_, ?_,
    by decide⟩
  · unfold timeToDeletion
    rw [h0]; decide
  · unfold timeToDeletion
    rw [h0]; decide

/-- C10 (amended). For a fixed `minutesPerGigabyte >= 1`, of which the code uses the whole
minutes `d`, and sizes `0 < s1 < s2` such that the product `d * Minute * (10^9 / s1)` for `s1`
fits `int64`, both TTLs are computed, the TTL of the larger file is not longer,
`ttl(s1) >= ttl(s2)`, and it is strictly shorter whenever the integer quotients `10^9 / s` of the
two sizes differ. -/
theorem timeToDeletion_antitone (mpg : ℚ) (s1 s2 : Int) (hm : 1 ≤ mpg) (h1 : 0 < s1)
    (h12 : s1 < s2)
    (hfit : durationOfMinutes mpg * Minute * Int.tdiv 1000000000 s1 < 9223372036854775808) :
    ∃ t1 t2, timeToDeletion mpg s1 = some t1 ∧ timeToDeletion mpg s2 = some t2 ∧ t2 ≤ t1 ∧
      (Int.tdiv 1000000000 s2 < Int.tdiv 1000000000 s1 → t2 < t1) := by
  have hd : 0 < durationOfMinutes mpg := (durationOfMinutes_pos_iff mpg).mpr hm
  unfold timeToDeletion
  generalize durationOfMinutes mpg = d at *
  have h2 : 0 < s2 := lt_trans h1 h12
  have e1 : Int.tdiv 1000000000 s1 = 1000000000 / s1 :=
    Int.tdiv_eq_ediv (by norm_num) (le_of_lt h1)
  have e2 : Int.tdiv 1000000000 s2 = 1000000000 / s2 :=
    Int.tdiv_eq_ediv (by norm_num) (le_of_lt h2)
  rw [e1] at hfit
  rw [e1, e2]
  have hq1 : (0 : Int) ≤ 1000000000 / s1 := Int.ediv_nonneg (by norm_num) (le_of_lt h1)
  have hq2 : (0 : Int) ≤ 1000000000 / s2 := Int.ediv_nonneg (by norm_num) (le_of_lt h2)
  have hq : (1000000000 : Int) / s2 ≤ 1000000000 / s1 := by
    apply Int.le_ediv_of_mul_le h1
    calc 1000000000 / s2 * s1 ≤ 1000000000 / s2 * s2 :=
          mul_le_mul_of_nonneg_left (le_of_lt h12) hq2
      _ ≤ 1000000000 := Int.ediv_mul_le _ (ne_of_gt h2)
  have hmm : 0 < d * Minute := by unfold Minute; positivity
  have hle : d * Minute * (1000000000 / s2) ≤ d * Minute * (1000000000 / s1) :=
    mul_le_mul_of_nonneg_left hq (le_of_lt hmm)
  have hnn : 0 ≤ d * Minute * (1000000000 / s2) := mul_nonneg (le_of_lt hmm) hq2
  have hw0 : wrapInt64 0 = 0 := by decide
  rcases eq_or_lt_of_le hq1 with h0 | hpos
  · have hz2 : (1000000000 : Int) / s2 = 0 := le_antisymm (by rw [h0]; exact hq) hq2
    refine ⟨0, 0, ?_, ?_, le_refl _, ?_⟩
    · rw [if_neg (ne_of_gt h1), ← h0, mul_zero, hw0]
    · rw [if_neg (ne_of_gt h2), hz2, mul_zero, hw0]
    · intro hlt
      rw [hz2, ← h0] at hlt
      exact absurd hlt (lt_irrefl _)
  · have hmfit : d * Minute < 9223372036854775808 := by nlinarith
    have hw : wrapInt64 (d * Minute) = d * Minute :=
      wrapInt64_eq_self _ (by linarith) hmfit
    refine ⟨d * Minute * (1000000000 / s1), d * Minute * (1000000000 / s2), ?_, ?_, hle, ?_⟩
    · rw [if_neg (ne_of_gt h1), hw, wrapInt64_eq_self _ (by nlinarith) hfit]
    · rw [if_neg (ne_of_gt h2), hw, wrapInt64_eq_self _ (by linarith) (by linarith)]
    · intro hlt
      exact mul_lt_mul_of_pos_left hlt hmm

/-- Witness for the amended C10: 30 minutes per gigabyte, 500 MB against 1 GB. -/
theorem timeToDeletion_antitone_witness :
    ((1 : ℚ) ≤ 30 ∧ (0 : Int) < 500000000 ∧ (500000000 : Int) < 1000000000 ∧
      durationOfMinutes 30 * Minute * Int.tdiv 1000000000 500000000 < 9223372036854775808) ∧
    ∃ t1 t2, timeToDeletion 30 500000000 = some t1 ∧ timeToDeletion 30 1000000000 = some t2 ∧
      t2 ≤ t1 ∧ (Int.tdiv 1000000000 1000000000 < Int.tdiv 1000000000 500000000 → t2 < t1) :=
  ⟨⟨by norm_num, by decide, by decide, by decide⟩,
    timeToDeletion_antitone 30 500000000 1000000000 (by norm_num) (by decide) (by decide)
      (by decide)⟩

/-! ### C11: the directory `copyToContentDirectory` leaves behind -/

/-- C11 (counterexample): when `os.Rename` fails, `copyToContentDirectory` returns the error and
the identifier's directory, which it has just made, is left behind: it exists and holds neither
the payload nor the sidecar.  And a successful call with the file name `aaaaaa.json.gz`, which is
the name of the sidecar of the identifier `aaaaaa` it gets, leaves a directory that holds the
sidecar under that name and the payload `1, 2, 3` under no name. -/
theorem copyToContentDirectory_leaves_empty_directory :
    ((copyToContentDirectory Lib.plain Codec.plain { Faults.none with rename := true } 0
        oneStaged "f.txt" "sharetemp0" 3).2.2 = some (GoError.os "rename") ∧
      objectId Lib.plain oneStaged "sharetemp0" = "aaaaaa" ∧
      ((copyToContentDirectory Lib.plain Codec.plain { Faults.none with rename := true } 0
        oneStaged "f.txt" "sharetemp0" 3).1.dirs "aaaaaa").isSome = true ∧
      ((copyToContentDirectory Lib.plain Codec.plain { Faults.none with rename := true } 0
        oneStaged "f.txt" "sharetemp0" 3).1.dirs "aaaaaa").bind (fun files => files "f.txt")
        = none ∧
      ((copyToContentDirectory Lib.plain Codec.plain { Faults.none with rename := true } 0
        oneStaged "f.txt" "sharetemp0" 3).1.dirs "aaaaaa").bind
          (fun files => files "aaaaaa.json.gz") = none) ∧
    ((copyToContentDirectory Lib.plain Codec.plain Faults.none 0
        oneStaged "aaaaaa.json.gz" "sharetemp0" 3).2.2 = none ∧
      oneStaged.temps "sharetemp0" = some [1, 2, 3] ∧
      ((copyToContentDirectory Lib.plain Codec.plain Faults.none 0
        oneStaged "aaaaaa.json.gz" "sharetemp0" 3).1.dirs "aaaaaa").bind
          (fun files => files "aaaaaa.json.gz") =
        some (Codec.plain.encodePage
          (publishedPage Lib.plain Codec.plain 0 oneStaged "aaaaaa.json.gz" "sharetemp0" 3
            [1, 2, 3])) ∧
      ∀ name : String,
        ((copyToContentDirectory Lib.plain Codec.plain Faults.none 0
          oneStaged "aaaaaa.json.gz" "sharetemp0" 3).1.dirs "aaaaaa").bind
            (fun files => files name) ≠ some [1, 2, 3]) := by
  have hdir : (copyToContentDirectory Lib.plain Codec.plain Faults.none 0
        oneStaged "aaaaaa.json.gz" "sharetemp0" 3).1.dirs "aaaaaa" =
      some (Function.update (fun _ => none) "aaaaaa.json.gz"
        (some (Codec.plain.encodePage
          (publishedPage Lib.plain Codec.plain 0 oneStaged "aaaaaa.json.gz" "sharetemp0" 3
            [1, 2, 3])))) := by
    have hid : (RandStringBytesMaskImpr Lib.plain (randFuel 6)
        (Filemd5Sum Lib.plain (some [1, 2, 3])).1 6).getD "" = "aaaaaa" := by
      decide
    have ht : oneStaged.temps "sharetemp0" = some [1, 2, 3] := by decide
    have hs : "aaaaaa" ++ ".json.gz" = "aaaaaa.json.gz" := by decide
    unfold copyToContentDirectory publishedPage objectId
    simp only [ht, hid, hs]
    simp [State.removeTemp, Faults.none, oneStaged]
  refine ⟨⟨by decide, by decide, by decide, by decide, by decide⟩, by decide, by decide, ?_, ?_⟩
  · simp [hdir]
  · intro name
    rw [hdir]
    by_cases hn : name = "aaaaaa.json.gz"
    · subst hn
      simp only [Option.some_bind, Function.update_same]
      decide
    · simp [Function.update_noteq hn]

/-- C11 (amended). Every call of `copyToContentDirectory` ends in one of these ways, with the
identifier's directory as stated.  Success: the directory holds the sidecar `<id>.json.gz` with
the encoded page, the payload under `fname` when `fname` is not the sidecar's own name, and
nothing else.  Error from removing the old directory: the old directory still exists and each
of its files is either gone or as it was.  Error from `MkdirAll`: the directory does not exist.
Error from `Rename`: the directory exists and is empty.  Error from content-type detection or
from creating the sidecar: the directory holds the payload and nothing else.  Error from
encoding: the directory holds a sidecar file of whatever was written, the payload under `fname`
when `fname` is not the sidecar's own name, and nothing else. -/
theorem copyToContentDirectory_directory (lib : Lib) (cd : Codec) (flt : Faults) (now : Int)
    (st : State) (fname tempFname : String) (originalSize : Int) :
    ((copyToContentDirectory lib cd flt now st fname tempFname originalSize).2.2 = none ∧
      ∃ payload files, st.temps tempFname = some payload ∧
        (copyToContentDirectory lib cd flt now st fname tempFname originalSize).1.dirs
            (objectId lib st tempFname) = some files ∧
        files (objectId lib st tempFname ++ ".json.gz") =
          some (cd.encodePage
            (publishedPage lib cd now st fname tempFname originalSize payload)) ∧
        (fname ≠ objectId lib st tempFname ++ ".json.gz" → files fname = some payload) ∧
        ∀ name, name ≠ fname → name ≠ objectId lib st tempFname ++ ".json.gz" →
          files name = none) ∨
    ((copyToContentDirectory lib cd flt now st fname tempFname originalSize).2.2 =
        some (GoError.os "removeall") ∧
      ∃ old left, st.dirs (objectId lib st tempFname) = some old ∧
        (copyToContentDirectory lib cd flt now st fname tempFname originalSize).1.dirs
            (objectId lib st tempFname) = some left ∧
        ∀ name, left name = none ∨ left name = old name) ∨
    ((copyToContentDirectory lib cd flt now st fname tempFname originalSize).2.2 =
        some (GoError.os "mkdirall") ∧
      (copyToContentDirectory lib cd flt now st fname tempFname originalSize).1.dirs
          (objectId lib st tempFname) = none) ∨
    ((copyToContentDirectory lib cd flt now st fname tempFname originalSize).2.2 =
        some (GoError.os "rename") ∧
      (copyToContentDirectory lib cd flt now st fname tempFname originalSize).1.dirs
          (objectId lib st tempFname) = some (fun _ => none)) ∨
    (((copyToContentDirectory lib cd flt now st fname tempFname originalSize).2.2 =
          some (GoError.os "open") ∨
        (copyToContentDirectory lib cd flt now st fname tempFname originalSize).2.2 =
          some (GoError.os "create")) ∧
      ∃ payload, st.temps tempFname = some payload ∧
        (copyToContentDirectory lib cd flt now st fname tempFname originalSize).1.dirs
            (objectId lib st tempFname) = some (payloadOnly fname payload)) ∨
    ((copyToContentDirectory lib cd flt now st fname tempFname originalSize).2.2 =
        some (GoError.os "encode") ∧
      ∃ payload files, st.temps tempFname = some payload ∧
        (copyToContentDirectory lib cd flt now st fname tempFname originalSize).1.dirs
            (objectId lib st tempFname) = some files ∧
        (files (objectId lib st tempFname ++ ".json.gz")).isSome = true ∧
        (fname ≠ objectId lib st tempFname ++ ".json.gz" → files fname = some payload) ∧
        ∀ name, name ≠ fname → name ≠ objectId lib st tempFname ++ ".json.gz" →
          files name = none) := by
  unfold copyToContentDirectory publishedPage objectId payloadOnly
  simp only
  by_cases h1 : (st.dirs ((RandStringBytesMaskImpr lib (randFuel 6)
      (Filemd5Sum lib (st.temps tempFname)).1 6).getD "")).isSome = true ∧ flt.removeAll = true
  · rw [if_pos h1]
    obtain ⟨old, hold⟩ := Option.isSome_iff_exists.mp h1.1
    refine Or.inr (Or.inl ⟨rfl, old,
      (fun name => if flt.survivors name = true then old name else none), hold, ?_, ?_⟩)
    · simp only [State.removeTemp, Function.update_same, hold, Option.map_some']
    · intro name
      by_cases hs : flt.survivors name = true
      · exact Or.inr (if_pos hs)
      · exact Or.inl (if_neg hs)
  · rw [if_neg h1]
    by_cases h2 : flt.mkdirAll = true
    · rw [if_pos h2]
      refine Or.inr (Or.inr (Or.inl ⟨rfl, ?_⟩))
      simp [State.removeTemp]
    · rw [if_neg h2]
      cases hp : st.temps tempFname with
      | none =>
        refine Or.inr (Or.inr (Or.inr (Or.inl ?_)))
        simp [State.removeTemp]
      | some payload =>
        simp only
        by_cases h3 : flt.rename = true
        · rw [if_pos h3]
          refine Or.inr (Or.inr (Or.inr (Or.inl ?_)))
          simp [State.removeTemp]
        · rw [if_neg h3]
          by_cases h4 : flt.contentType = true
          · rw [if_pos h4]
            refine Or.inr (Or.inr (Or.inr (Or.inr (Or.inl ⟨Or.inl rfl, payload, rfl, ?_⟩))))
            simp [State.removeTemp]
          · rw [if_neg h4]
            by_cases h5 : flt.create = true
            · rw [if_pos h5]
              refine Or.inr (Or.inr (Or.inr (Or.inr (Or.inl ⟨Or.inr rfl, payload, rfl, ?_⟩))))
              simp [State.removeTemp]
            · rw [if_neg h5]
              by_cases h6 : flt.encode = true
              · rw [h6]
                refine Or.inr (Or.inr (Or.inr (Or.inr (Or.inr
                  ⟨rfl, payload, Function.update (Function.update (fun _ => none) fname
                    (some payload)) ((RandStringBytesMaskImpr lib (randFuel 6)
                      (Filemd5Sum lib (some payload)).1 6).getD "" ++ ".json.gz")
                    (some flt.partialSidecar), rfl, ?_, ?_, ?_, ?_⟩))))
                · simp [State.removeTemp]
                · simp
                · intro hne
                  rw [Function.update_noteq hne, Function.update_same]
                · intro name hn1 hn2
                  rw [Function.update_noteq hn2, Function.update_noteq hn1]
              · rw [Bool.not_eq_true] at h6
                rw [h6]
                refine Or.inl ⟨rfl, payload, Function.update (Function.update (fun _ => none)
                    fname (some payload)) ((RandStringBytesMaskImpr lib (randFuel 6)
                      (Filemd5Sum lib (some payload)).1 6).getD "" ++ ".json.gz")
                    (some (cd.encodePage
                      { ID := (RandStringBytesMaskImpr lib (randFuel 6)
                          (Filemd5Sum lib (some payload)).1 6).getD "",
                        Name := fname, Hash := (Filemd5Sum lib (some payload)).1,
                        Size := originalSize, ContentType := cd.contentType fname payload,
                        Modified := now, TimeToDeletion := 0 })), rfl, ?_, ?_, ?_, ?_⟩
                · simp [State.removeTemp]
                · simp
                · intro hne
                  rw [Function.update_noteq hne, Function.update_same]
                · intro name hn1 hn2
                  rw [Function.update_noteq hn2, Function.update_noteq hn1]

/-! ### C12: what a finalization releases -/

/-- C12 (code evaluated at the failing input): a session `u` of `N = 2` chunks for which chunk 2
is submitted twice and chunk 1 never.  The second submission brings the count to 2 and runs the
finalization, which fails to open chunk 1 and returns at once: nothing was fed, nothing is
published, and both staged files of chunk 2 are still on disk and the entry `u2` is still in
`uploadsFileNames`. -/
theorem finalize_open_failure_leaks :
    (runPosts Lib.plain Codec.plain Faults.none 0 Config.small State.init
        [chunkForm "u" "f" 2 (fun _ => 10) (fun i => [UInt8.ofNat i]) 2,
          chunkForm "u" "f" 2 (fun _ => 10) (fun i => [UInt8.ofNat i]) 2]).2 =
        [PostResult.counted none,
          PostResult.finalized { fed := [], call := none, err := some (GoError.os "open") }] ∧
      (runPosts Lib.plain Codec.plain Faults.none 0 Config.small State.init
        [chunkForm "u" "f" 2 (fun _ => 10) (fun i => [UInt8.ofNat i]) 2,
          chunkForm "u" "f" 2 (fun _ => 10) (fun i => [UInt8.ofNat i]) 2]).1.uploadsFileNames
        "u2" = some "sharetemp1" ∧
      (runPosts Lib.plain Codec.plain Faults.none 0 Config.small State.init
        [chunkForm "u" "f" 2 (fun _ => 10) (fun i => [UInt8.ofNat i]) 2,
          chunkForm "u" "f" 2 (fun _ => 10) (fun i => [UInt8.ofNat i]) 2]).1.temps
        "sharetemp1" = some [2] ∧
      (runPosts Lib.plain Codec.plain Faults.none 0 Config.small State.init
        [chunkForm "u" "f" 2 (fun _ => 10) (fun i => [UInt8.ofNat i]) 2,
          chunkForm "u" "f" 2 (fun _ => 10) (fun i => [UInt8.ofNat i]) 2]).1.temps
        "sharetemp0" = some [2] := by
  refine ⟨by decide, by decide, by decide, by decide⟩

theorem catChunks_keeps_none (uuid : String) (k : Nat) :
    ∀ (i : Int) (st : State) (fed : List Byte) (size : Int),
      (∀ x, st.uploadsFileNames x = none →
        (catChunks uuid k i st fed size).1.uploadsFileNames x = none) ∧
      (∀ x, st.temps x = none → (catChunks uuid k i st fed size).1.temps x = none) ∧
      (catChunks uuid k i st fed size).1.nextTemp = st.nextTemp := by
  induction k with
  | zero => intro i st fed size; exact ⟨fun x h => h, fun x h => h, rfl⟩
  | succ k ih =>
    intro i st fed size
    have hupd : ∀ x, st.uploadsFileNames x = none →
        Function.update st.uploadsFileNames (chunkKey uuid i) none x = none := by
      intro x h
      by_cases hx : x = chunkKey uuid i
      · rw [hx, Function.update_same]
      · rw [Function.update_noteq hx]
        exact h
    unfold catChunks
    simp only
    split
    · exact ⟨hupd, fun x h => h, rfl⟩
    · refine ⟨fun x h => (ih _ _ _ _).1 x (hupd x h), fun x h => (ih _ _ _ _).2.1 x ?_,
        (ih _ _ _ _).2.2⟩
      simp only [State.removeTemp]
      by_cases hx : x = (st.uploadsFileNames (chunkKey uuid i)).getD ""
      · rw [hx, Function.update_same]
      · rw [Function.update_noteq hx]
        exact h

/-- When every chunk in turn can be opened, the loop of the finalization leaves none of their
entries in `uploadsFileNames` and none of their staged files on disk. -/
theorem catChunks_releases (uuid : String) (chunk : Nat → List Byte) (slot : Nat → Nat)
    (k : Nat) :
    ∀ (i : Nat) (st : State) (fed : List Byte) (size : Int),
      (∀ j, i ≤ j → j < i + k →
        st.uploadsFileNames (chunkKey uuid (j : Int)) = some (tempName (slot j)) ∧
          st.temps (tempName (slot j)) = some (chunk j)) →
      (∀ j, i ≤ j → j < i + k → ∀ j', i ≤ j' → j' < i + k → slot j = slot j' → j = j') →
      ∀ j, i ≤ j → j < i + k →
        (catChunks uuid k (i : Int) st fed size).1.uploadsFileNames (chunkKey uuid (j : Int)) =
          none ∧
        (catChunks uuid k (i : Int) st fed size).1.temps (tempName (slot j)) = none := by
  induction k with
  | zero => intro i st fed size _ _ j h1 h2; omega
  | succ k ih =>
    intro i st fed size hst hinj j hj1 hj2
    obtain ⟨hfn, htmp⟩ := hst i (Nat.le_refl _) (by omega)
    unfold catChunks
    have hopen : (st.uploadsFileNames (chunkKey uuid (i : Int))).bind
        ({ st with uploadsFileNames :=
            Function.update st.uploadsFileNames (chunkKey uuid (i : Int)) none } : State).temps =
        some (chunk i) := by
      rw [hfn]
      exact htmp
    simp only [hopen]
    have hcast : ((i : Nat) : Int) + 1 = ((i + 1 : Nat) : Int) := by push_cast; rfl
    rw [hcast, hfn]
    simp only [Option.getD_some]
    by_cases hji : j = i
    · subst hji
      exact ⟨(catChunks_keeps_none uuid k _ _ _ _).1 _ (by simp [State.removeTemp]),
        (catChunks_keeps_none uuid k _ _ _ _).2.1 _ (by simp [State.removeTemp])⟩
    · apply ih (i + 1) _ _ _ _ _ j (by omega) (by omega)
      · intro j' hj1' hj2'
        have hne : j' ≠ i := by omega
        obtain ⟨hfnj, htmpj⟩ := hst j' (by omega) (by omega)
        have hkey : chunkKey uuid (j' : Int) ≠ chunkKey uuid (i : Int) :=
          fun h => hne (chunkKey_injective uuid j' i h)
        have hslot : tempName (slot j') ≠ tempName (slot i) := by
          intro h
          exact hne (hinj j' (by omega) (by omega) i (Nat.le_refl _) (by omega)
            (tempName_injective _ _ h))
        simp only [State.removeTemp, Function.update_noteq hkey, Function.update_noteq hslot]
        exact ⟨hfnj, htmpj⟩
      · intro a ha1 ha2 b hb1 hb2 h
        exact hinj a (by omega) (by omega) b (by omega) (by omega) h

theorem copyToContentDirectory_frame (lib : Lib) (cd : Codec) (flt : Faults) (now : Int)
    (st : State) (fname tempFname : String) (originalSize : Int) :
    (copyToContentDirectory lib cd flt now st fname tempFname originalSize).1.uploadsFileNames =
        st.uploadsFileNames ∧
      ∀ x, st.temps x = none →
        (copyToContentDirectory lib cd flt now st fname tempFname originalSize).1.temps x =
          none := by
  have key : ∀ (s : State) (x : String), s.temps x = none →
      (s.removeTemp tempFname).temps x = none := by
    intro s x h
    simp only [State.removeTemp]
    by_cases hx : x = tempFname
    · rw [hx, Function.update_same]
    · rw [Function.update_noteq hx]
      exact h
  unfold copyToContentDirectory
  simp only
  split_ifs
  · exact ⟨rfl, fun x h => key _ x h⟩
  · exact ⟨rfl, fun x h => key _ x h⟩
  all_goals
    split
    · exact ⟨rfl, fun x h => key _ x h⟩
    · refine ⟨rfl, fun x h => key _ x ?_⟩
      first
        | exact h
        | (by_cases hx : x = tempFname
           · rw [hx]; simp
           · simp [Function.update_noteq hx, h])

/-- What the finalization releases when all chunks `1..N` are staged: whether the publishing
then succeeds or fails, none of the `N` entries remains in `uploadsFileNames` and none of the `N`
staged files remains on disk. -/
theorem finalize_releases (lib : Lib) (cd : Codec) (flt : Faults) (now : Int) (st : State)
    (uuid fname : String) (chunk : Nat → List Byte) (N : Nat) (D : List Nat) (slot : Nat → Nat)
    (hst : StagedIn st uuid chunk D slot) (hcover : ∀ j, 1 ≤ j → j ≤ N → j ∈ D) :
    ∀ j, 1 ≤ j → j ≤ N →
      (finalize lib cd flt now st uuid (N : Int) fname).1.uploadsFileNames
          (chunkKey uuid (j : Int)) = none ∧
        (finalize lib cd flt now st uuid (N : Int) fname).1.temps (tempName (slot j)) = none := by
  intro j hj1 hjN
  obtain ⟨_, hfiles, hinj⟩ := hst
  have hpre : ∀ j, 1 ≤ j → j < 1 + N →
      (TempFile
        { st with uploadsInProgress := Function.update st.uploadsInProgress uuid none }
        ).2.uploadsFileNames (chunkKey uuid (j : Int)) = some (tempName (slot j)) ∧
      (TempFile
        { st with uploadsInProgress := Function.update st.uploadsInProgress uuid none }
        ).2.temps (tempName (slot j)) = some (chunk j) := by
    intro j hj1 hj2
    obtain ⟨h1, h2, h3⟩ := hfiles j (hcover j hj1 (by omega))
    have hne : tempName (slot j) ≠ tempName st.nextTemp :=
      fun h => absurd (tempName_injective _ _ h) (by omega)
    simp only [TempFile, Function.update_noteq hne]
    exact ⟨h1, h2⟩
  have hinj' : ∀ j, 1 ≤ j → j < 1 + N → ∀ j', 1 ≤ j' → j' < 1 + N → slot j = slot j' → j = j' :=
    fun j hj1 hj2 j' hj1' hj2' h =>
      hinj j (hcover j hj1 (by omega)) j' (hcover j' hj1' (by omega)) h
  have hrel := catChunks_releases uuid chunk slot N 1 _ [] 0 hpre hinj' j hj1 (by omega)
  have hcat := catChunks_spec uuid chunk slot N 1 _ [] 0 hpre hinj'
  rw [show ((1 : Nat) : Int) = 1 from rfl] at hrel hcat
  have hslot : tempName (slot j) ≠ tempName st.nextTemp :=
    fun h => absurd (tempName_injective _ _ h)
      (by have := (hfiles j (hcover j hj1 hjN)).2.2; omega)
  unfold finalize
  simp only [Int.toNat_ofNat, hcat]
  constructor
  · rw [(copyToContentDirectory_frame lib cd flt now _ fname _ _).1]
    exact hrel.1
  · apply (copyToContentDirectory_frame lib cd flt now _ fname _ _).2
    simp only [State.writeTemp, TempFile, Function.update_noteq hslot]
    exact hrel.2

/-! ### C13: what the session counter counts -/

/-- C13 (counterexample): the counter counts submissions, not chunk indices.  In a session of
`N = 2` chunks, chunk 1 submitted twice brings the count to 2: the second submission runs the
finalization although index 2 has no staged chunk (it fails on opening chunk 2).  In a session of
`N = 1` chunk, the chunk submitted twice runs the finalization twice. -/
theorem handlePost_counts_duplicates :
    ((runPosts Lib.plain Codec.plain Faults.none 0 Config.small State.init
        [chunkForm "u" "f" 2 (fun _ => 10) (fun i => [UInt8.ofNat i]) 1,
          chunkForm "u" "f" 2 (fun _ => 10) (fun i => [UInt8.ofNat i]) 1]).2 =
        [PostResult.counted none,
          PostResult.finalized { fed := [1], call := none, err := some (GoError.os "open") }] ∧
      (runPosts Lib.plain Codec.plain Faults.none 0 Config.small State.init
        [chunkForm "u" "f" 2 (fun _ => 10) (fun i => [UInt8.ofNat i]) 1]).1.uploadsFileNames
        "u2" = none) ∧
    (runPosts Lib.plain Codec.plain Faults.none 0 Config.small State.init
        [chunkForm "v" "f" 1 (fun _ => 10) (fun i => [UInt8.ofNat i]) 1,
          chunkForm "v" "f" 1 (fun _ => 10) (fun i => [UInt8.ofNat i]) 1]).2.map
        PostResult.isFinalized = [true, true] := by
  refine ⟨⟨by decide, by decide⟩, by decide⟩

theorem runPosts_counter (lib : Lib) (cd : Codec) (flt : Faults) (now : Int) (c : Config)
    (uuid : String) (N : Nat) (hN : 1 ≤ N) (rs : List PostForm) :
    ∀ (st : State) (a : Nat), a < N → (st.uploadsInProgress uuid).getD 0 = (a : Int) →
      (∀ r ∈ rs, r.dzuuid = uuid ∧ r.dztotalchunkcount = (N : Int) ∧
        wrapInt64 (r.dztotalchunkcount * r.dzchunksize) ≤ c.MaxBytesPerFile) →
      ((runPosts lib cd flt now c st rs).1.uploadsInProgress uuid).getD 0 =
          (((a + rs.length) % N : Nat) : Int) ∧
        (runPosts lib cd flt now c st rs).2.map PostResult.isFinalized =
          (List.range rs.length).map fun k => decide (N ∣ a + k + 1) := by
  induction rs with
  | nil =>
    intro st a ha hcnt _
    simp only [runPosts, List.length_nil, Nat.add_zero, Nat.mod_eq_of_lt ha, List.map_nil,
      List.range_zero]
    exact ⟨hcnt, trivial⟩
  | cons r rs ih =>
    intro st a ha hcnt hall
    obtain ⟨hu, hNr, hacc⟩ := hall r (List.mem_cons_self _ _)
    have hall' := fun r' hr' => hall r' (List.mem_cons_of_mem _ hr')
    unfold runPosts
    simp only [List.length_cons, List.map_cons, List.range_succ_eq_map, Nat.add_zero,
      List.map_map]
    by_cases hlast : a + 1 = N
    · have heq : (st.uploadsInProgress r.dzuuid).getD 0 + 1 = r.dztotalchunkcount := by
        rw [hu, hcnt, hNr]
        omega
      obtain ⟨fin, hfin, hnone⟩ := handlePost_count_eq lib cd flt now c st r hacc heq
      rw [hu] at hnone
      obtain ⟨h1, h2⟩ := ih (handlePost lib cd flt now c st r).1 0 (by omega)
        (by rw [hnone]; rfl) hall'
      refine ⟨?_, ?_⟩
      · rw [h1]
        congr 1
        rw [show a + (rs.length + 1) = rs.length + N by omega, Nat.add_mod_right, Nat.zero_add]
      · rw [h2, hfin]
        simp only [PostResult.isFinalized, List.cons.injEq]
        refine ⟨by simp [hlast], ?_⟩
        apply List.map_congr_left
        intro k _
        simp only [Function.comp, Nat.zero_add, decide_eq_decide]
        rw [show a + Nat.succ k + 1 = (k + 1) + N by omega]
        exact (Nat.dvd_add_left (dvd_refl N)).symm
    · have hne : (st.uploadsInProgress r.dzuuid).getD 0 + 1 ≠ r.dztotalchunkcount := by
        rw [hu, hcnt, hNr]
        omega
      obtain ⟨e, he, hcnt', _⟩ := handlePost_count_lt lib cd flt now c st r hacc hne
      rw [hu, hcnt] at hcnt'
      obtain ⟨h1, h2⟩ := ih (handlePost lib cd flt now c st r).1 (a + 1) (by omega)
        (by rw [hcnt']; simp) hall'
      refine ⟨?_, ?_⟩
      · rw [h1]
        congr 2
        omega
      · rw [h2, he]
        simp only [PostResult.isFinalized, List.cons.injEq]
        refine ⟨?_, ?_⟩
        · have : ¬ N ∣ a + 1 := fun hd => by
            have := Nat.le_of_dvd (by omega) hd
            omega
          simp [this]
        · apply List.map_congr_left
          intro k _
          simp only [Function.comp, decide_eq_decide]
          rw [show a + 1 + k + 1 = a + Nat.succ k + 1 by omega]

/-- C13 (amended). For every sequence of chunk submissions to one session token not yet in
`uploadsInProgress`, with a fixed `totalChunks = N >= 1` and each passing the declared-size check
(retried or duplicate chunk indices included): every submission is counted, whatever its index;
when the `m`-th submission releases the lock the session's received count is `m mod N`, so it
never exceeds `N`; and the finalization is run by exactly the submissions number `N`, `2N`,
`3N`, ... -/
theorem handlePost_counts_every_submission (lib : Lib) (cd : Codec) (flt : Faults) (now : Int)
    (c : Config) (st : State) (uuid : String) (N : Nat) (rs : List PostForm)
    (hN : 1 ≤ N) (hnew : st.uploadsInProgress uuid = none)
    (hall : ∀ r ∈ rs, r.dzuuid = uuid ∧ r.dztotalchunkcount = (N : Int) ∧
      wrapInt64 (r.dztotalchunkcount * r.dzchunksize) ≤ c.MaxBytesPerFile) :
    (∀ m, m ≤ rs.length →
      ((runPosts lib cd flt now c st (rs.take m)).1.uploadsInProgress uuid).getD 0 =
          ((m % N : Nat) : Int) ∧
        ((runPosts lib cd flt now c st (rs.take m)).1.uploadsInProgress uuid).getD 0 ≤
          (N : Int)) ∧
    (runPosts lib cd flt now c st rs).2.map PostResult.isFinalized =
      (List.range rs.length).map fun k => decide (N ∣ k + 1) := by
  have h0 : (st.uploadsInProgress uuid).getD 0 = ((0 : Nat) : Int) := by rw [hnew]; rfl
  constructor
  · intro m hm
    have h := (runPosts_counter lib cd flt now c uuid N hN (rs.take m) st 0 (by omega) h0
      (fun r hr => hall r (List.mem_of_mem_take hr))).1
    rw [List.length_take, Nat.min_eq_left hm, Nat.zero_add] at h
    refine ⟨h, ?_⟩
    rw [h]
    have := Nat.mod_lt m (show 0 < N by omega)
    omega
  · have h := (runPosts_counter lib cd flt now c uuid N hN rs st 0 (by omega) h0 hall).2
    simp only [Nat.zero_add] at h
    exact h

/-- Witness for the amended C13: chunk 1 of a two-chunk session submitted twice, then chunk 2;
the finalization is run by the second submission and not by the third. -/
theorem handlePost_counts_every_submission_witness :
    (State.init.uploadsInProgress "u" = none ∧
      ∀ r ∈ [chunkForm "u" "f" 2 (fun _ => 10) (fun i => [UInt8.ofNat i]) 1,
          chunkForm "u" "f" 2 (fun _ => 10) (fun i => [UInt8.ofNat i]) 1,
          chunkForm "u" "f" 2 (fun _ => 10) (fun i => [UInt8.ofNat i]) 2],
        r.dzuuid = "u" ∧ r.dztotalchunkcount = ((2 : Nat) : Int) ∧
          wrapInt64 (r.dztotalchunkcount * r.dzchunksize) ≤ Config.small.MaxBytesPerFile) ∧
    (runPosts Lib.plain Codec.plain Faults.none 0 Config.small State.init
      [chunkForm "u" "f" 2 (fun _ => 10) (fun i => [UInt8.ofNat i]) 1,
        chunkForm "u" "f" 2 (fun _ => 10) (fun i => [UInt8.ofNat i]) 1,
        chunkForm "u" "f" 2 (fun _ => 10) (fun i => [UInt8.ofNat i]) 2]).2.map
      PostResult.isFinalized =
        (List.range 3).map fun k => decide (2 ∣ k + 1) :=
  ⟨⟨rfl, by decide⟩,
    (handlePost_counts_every_submission Lib.plain Codec.plain Faults.none 0 Config.small
      State.init "u" 2 _ (by decide) rfl (by decide)).2⟩

/-! ### C14: the content type of a style sheet -/

/-- C14. For every file name and every gzip stream (one `gzip.NewReader` accepts) whose head
`filetype.Match` takes without error and the sniffing block classifies as `text/plain`,
`GetFileContentTypeReader` returns no error and the content type `text/css` whenever the file name
contains `.css` and does not contain `.js`. -/
theorem GetFileContentTypeReader_css (sn : Sniffers) (fname : String) (file head : List Byte)
    (kind : Option String) (hgz : sn.readHead file = some head)
    (hmatch : sn.filetypeMatch head = some kind)
    (hplain : sniffedType sn head kind = "text/plain")
    (hcss : Contains fname ".css" = true) (hjs : Contains fname ".js" = false) :
    (GetFileContentTypeReader sn fname file).1 = "text/css" ∧
      (GetFileContentTypeReader sn fname file).2.2 = none := by
  unfold GetFileContentTypeReader
  simp only [hgz, hmatch, hplain, hcss, hjs, if_true, Bool.false_eq_true, if_false, and_self]

/-- Witness for C14: the name of the bundled style sheet as the test passes it, with a head of
plain text. -/
theorem GetFileContentTypeReader_css_witness :
    (Sniffers.plain.readHead [98, 111, 100, 121, 123, 125] =
        some [98, 111, 100, 121, 123, 125] ∧
      sniffedType Sniffers.plain [98, 111, 100, 121, 123, 125] none =
        "text/plain" ∧
      Contains "statc/style.css.gz" ".css" = true ∧ Contains "statc/style.css.gz" ".js" = false) ∧
    (GetFileContentTypeReader Sniffers.plain "statc/style.css.gz"
        [98, 111, 100, 121, 123, 125]).1 = "text/css" :=
  ⟨⟨by decide, by decide, by decide, by decide⟩,
    (GetFileContentTypeReader_css Sniffers.plain "statc/style.css.gz"
      [98, 111, 100, 121, 123, 125] [98, 111, 100, 121, 123, 125] none
      (by decide) rfl (by decide) (by decide) (by decide)).1⟩

/-! ### C15: loading the object of an empty upload -/

/-- When no call fails and the staged file is there, `copyToContentDirectory` returns
`<id>/<fname>` without error and the identifier's directory holds the payload and the sidecar
with the encoded page. -/
theorem copyToContentDirectory_no_fault (lib : Lib) (cd : Codec) (now : Int) (st : State)
    (fname tempFname : String) (originalSize : Int) (payload : List Byte)
    (hp : st.temps tempFname = some payload) :
    (copyToContentDirectory lib cd Faults.none now st fname tempFname originalSize).2 =
        (objectId lib st tempFname ++ "/" ++ fname, none) ∧
      (copyToContentDirectory lib cd Faults.none now st fname tempFname originalSize).1.dirs
          (objectId lib st tempFname) =
        some (Function.update (payloadOnly fname payload)
          (objectId lib st tempFname ++ ".json.gz")
          (some (cd.encodePage
            (publishedPage lib cd now st fname tempFname originalSize payload)))) := by
  unfold copyToContentDirectory publishedPage objectId payloadOnly
  simp only [Faults.none, Bool.false_eq_true, and_false, if_false, hp]
  exact ⟨by simp, by simp [State.removeTemp]⟩

/-- An empty upload through `writeAllBytes`, with a positive per-file ceiling and no failing
call, is published with the logical size 0, and `loadPageInfo` of the published object then
divides by that size: for every codec that gives back the size it encoded, it panics. -/
theorem writeAllBytes_empty_then_panic (lib : Lib) (cd : Codec) (now : Int) (c : Config)
    (st : State) (fname : String) (hmax : 0 < c.MaxBytesPerFile)
    (hrt : ∀ p, ∃ q, cd.decodePage (cd.encodePage p) = some q ∧ q.Size = p.Size) :
    (writeAllBytes lib cd Faults.none now c st fname []).2.2 = none ∧
      ∃ ident, (writeAllBytes lib cd Faults.none now c st fname []).2.1 = ident ++ "/" ++ fname ∧
        State.loadPageInfo cd c (writeAllBytes lib cd Faults.none now c st fname []).1 ident =
          Loaded.panic := by
  obtain ⟨h1, h2, h3⟩ := CopyMax_spec [] c.MaxBytesPerFile (le_of_lt hmax)
  have hn : (CopyMax [] c.MaxBytesPerFile).2.1 = 0 := by
    rw [h2]
    simp only [List.length_nil, Nat.cast_zero]
    exact min_eq_left (le_of_lt hmax)
  have he : (CopyMax [] c.MaxBytesPerFile).2.2 = none := by
    by_contra hne
    have := h3.mp hne
    simp only [List.length_nil, Nat.cast_zero] at this
    omega
  have hst : ((TempFile st).2.writeTemp (TempFile st).1
      (lib.gzip (CopyMax [] c.MaxBytesPerFile).1)).temps (TempFile st).1 =
      some (lib.gzip (CopyMax [] c.MaxBytesPerFile).1) := by
    simp [State.writeTemp]
  obtain ⟨hout, hdir⟩ := copyToContentDirectory_no_fault lib cd now _ fname _ 0 _ hst
  have hw : writeAllBytes lib cd Faults.none now c st fname [] =
      ((copyToContentDirectory lib cd Faults.none now
          ((TempFile st).2.writeTemp (TempFile st).1 (lib.gzip (CopyMax [] c.MaxBytesPerFile).1))
          fname (TempFile st).1 0).1.removeTemp (TempFile st).1,
        (copyToContentDirectory lib cd Faults.none now
          ((TempFile st).2.writeTemp (TempFile st).1 (lib.gzip (CopyMax [] c.MaxBytesPerFile).1))
          fname (TempFile st).1 0).2.1,
        (copyToContentDirectory lib cd Faults.none now
          ((TempFile st).2.writeTemp (TempFile st).1 (lib.gzip (CopyMax [] c.MaxBytesPerFile).1))
          fname (TempFile st).1 0).2.2) := by
    unfold writeAllBytes
    simp only [he, hn]
  rw [hw, hout]
  refine ⟨rfl, _, rfl, ?_⟩
  obtain ⟨q, hq, hsz⟩ := hrt (publishedPage lib cd now
    ((TempFile st).2.writeTemp (TempFile st).1 (lib.gzip (CopyMax [] c.MaxBytesPerFile).1))
    fname (TempFile st).1 0 (lib.gzip (CopyMax [] c.MaxBytesPerFile).1))
  have hq0 : q.Size = 0 := hsz
  unfold State.loadPageInfo
  simp [State.removeTemp, hdir, hq, hq0, timeToDeletion]

/-- C15 (code evaluated at the failing input): `writeAllBytes` of an empty body under a ceiling
of 100 bytes succeeds and publishes the object `aaaaaa` with the logical size 0, and
`loadPageInfo("aaaaaa")` then panics on `1000000000 / p.Size`. -/
theorem loadPageInfo_panics_after_empty_upload :
    (writeAllBytes Lib.plain Codec.plain Faults.none 0 Config.small State.init "empty.txt"
        []).2 = ("aaaaaa/empty.txt", none) ∧
      ((writeAllBytes Lib.plain Codec.plain Faults.none 0 Config.small State.init "empty.txt"
        []).1.dirs "aaaaaa").bind (fun files => files "aaaaaa.json.gz") =
        some (Codec.plain.encodePage
          { ID := "aaaaaa", Name := "empty.txt", Hash := "", Size := 0,
            ContentType := "text/plain", Modified := 0, TimeToDeletion := 0 }) ∧
      State.loadPageInfo Codec.plain Config.small
        (writeAllBytes Lib.plain Codec.plain Faults.none 0 Config.small State.init "empty.txt"
          []).1 "aaaaaa" = Loaded.panic := by
  refine ⟨by decide, by decide, by decide⟩

/-- The division of `loadPageInfo` panics exactly for the size 0. -/
theorem timeToDeletion_eq_none_iff (mpg : ℚ) (size : Int) :
    timeToDeletion mpg size = none ↔ size = 0 := by
  unfold timeToDeletion
  split_ifs with h
  · exact ⟨fun _ => h, fun _ => rfl⟩
  · exact ⟨fun hn => absurd hn (by simp), fun hs => absurd hs h⟩

/-! ### C1: assembly among the submissions of other sessions -/

theorem chunkKey_ne_of_length_eq (a b : String) (x y : Int) (hl : a.length = b.length)
    (hne : a ≠ b) : chunkKey a x ≠ chunkKey b y := by
  intro h
  apply hne
  have h' := congrArg String.data h
  simp only [chunkKey, String.data_append] at h'
  have hl' : a.data.length = b.data.length := hl
  exact String.ext (List.append_inj_left h' hl')

/-- Session tokens of the same length, as the tokens Dropzone makes are, have no key in
common. -/
theorem Apart_of_length_eq (uuid : String) (N : Nat) (r : PostForm)
    (hl : r.dzuuid.length = uuid.length) (hne : r.dzuuid ≠ uuid) : Apart uuid N r :=
  fun _ _ _ => ⟨chunkKey_ne_of_length_eq _ _ _ _ hl hne,
    fun _ _ _ => chunkKey_ne_of_length_eq _ _ _ _ hl hne⟩

theorem Held_of_frame (st st' : State) (uuid : String) (chunk : Nat → List Byte)
    (D : List Nat) (slot : Nat → Nat)
    (ha : st'.uploadsInProgress uuid = st.uploadsInProgress uuid)
    (hb : ∀ key name, st'.uploadsFileNames key = some name →
      st.uploadsFileNames key = some name ∨
        ∃ k, st.nextTemp ≤ k ∧ k < st'.nextTemp ∧ name = tempName k)
    (hc : ∀ i ∈ D, st'.uploadsFileNames (chunkKey uuid (i : Int)) =
      st.uploadsFileNames (chunkKey uuid (i : Int)))
    (hd : ∀ i ∈ D, st'.temps (tempName (slot i)) = st.temps (tempName (slot i)))
    (he : st.nextTemp ≤ st'.nextTemp)
    (h : Held st uuid chunk D slot) : Held st' uuid chunk D slot := by
  obtain ⟨⟨hcnt, hfiles, hinj⟩, hiss, hsep⟩ := h
  refine ⟨⟨by rw [ha]; exact hcnt, ?_, hinj⟩, ?_, ?_⟩
  · intro i hi
    obtain ⟨h1, h2, h3⟩ := hfiles i hi
    exact ⟨by rw [hc i hi]; exact h1, by rw [hd i hi]; exact h2, by omega⟩
  · intro key name hk
    rcases hb key name hk with h | ⟨k, _, hk2, hk3⟩
    · obtain ⟨k, hk1, hk2⟩ := hiss key name h
      exact ⟨k, by omega, hk2⟩
    · exact ⟨k, hk2, hk3⟩
  · intro key i hi hk
    rcases hb key _ hk with h | ⟨k, hk1, _, hk3⟩
    · exact hsep key i hi h
    · have := tempName_injective _ _ hk3
      have := (hfiles i hi).2.2
      omega

theorem copyToContentDirectory_temps (lib : Lib) (cd : Codec) (flt : Faults) (now : Int)
    (st : State) (fname tempFname : String) (originalSize : Int) (x : String)
    (hx : x ≠ tempFname) :
    (copyToContentDirectory lib cd flt now st fname tempFname originalSize).1.temps x =
      st.temps x := by
  unfold copyToContentDirectory
  simp only
  split_ifs <;> (try split) <;> simp [State.removeTemp, Function.update_noteq hx]

theorem copyToContentDirectory_nextTemp (lib : Lib) (cd : Codec) (flt : Faults) (now : Int)
    (st : State) (fname tempFname : String) (originalSize : Int) :
    (copyToContentDirectory lib cd flt now st fname tempFname originalSize).1.nextTemp =
      st.nextTemp := by
  unfold copyToContentDirectory
  simp only
  split_ifs <;> (try split) <;> simp [State.removeTemp]

/-- The loop of a finalization of another session, whose keys are none of the session's, leaves
the session's staged chunks as they are. -/
theorem catChunks_Held (uuid other : String) (chunk : Nat → List Byte) (D : List Nat)
    (slot : Nat → Nat) (k : Nat) :
    ∀ (i : Nat) (st : State) (fed : List Byte) (size : Int),
      (∀ j, i ≤ j → j < i + k → ∀ d ∈ D, chunkKey other (j : Int) ≠ chunkKey uuid (d : Int)) →
      Held st uuid chunk D slot →
      Held (catChunks other k (i : Int) st fed size).1 uuid chunk D slot ∧
        (catChunks other k (i : Int) st fed size).1.nextTemp = st.nextTemp := by
  induction k with
  | zero => intro i st fed size _ h; exact ⟨h, rfl⟩
  | succ k ih =>
    intro i st fed size hap h
    have hkey : ∀ d ∈ D, chunkKey uuid (d : Int) ≠ chunkKey other (i : Int) :=
      fun d hd hc => hap i (Nat.le_refl _) (by omega) d hd hc.symm
    have hb : ∀ key name,
        Function.update st.uploadsFileNames (chunkKey other (i : Int)) none key = some name →
        st.uploadsFileNames key = some name ∨
          ∃ k, st.nextTemp ≤ k ∧ k < st.nextTemp ∧ name = tempName k := by
      intro key name hk
      by_cases hkk : key = chunkKey other (i : Int)
      · rw [hkk, Function.update_same] at hk
        exact absurd hk (by simp)
      · rw [Function.update_noteq hkk] at hk
        exact Or.inl hk
    have hc : ∀ d ∈ D,
        Function.update st.uploadsFileNames (chunkKey other (i : Int)) none
          (chunkKey uuid (d : Int)) = st.uploadsFileNames (chunkKey uuid (d : Int)) :=
      fun d hd => Function.update_noteq (hkey d hd) _ _
    have hcast : ((i : Nat) : Int) + 1 = ((i + 1 : Nat) : Int) := by push_cast; rfl
    unfold catChunks
    simp only
    cases hn : st.uploadsFileNames (chunkKey other (i : Int)) with
    | none =>
      simp only [Option.none_bind]
      exact ⟨Held_of_frame st _ uuid chunk D slot rfl hb hc (fun _ _ => rfl) (Nat.le_refl _) h,
        trivial⟩
    | some nm =>
      have hne : ∀ d ∈ D, tempName (slot d) ≠ nm := by
        intro d hd hc'
        rw [← hc'] at hn
        exact hkey d hd (h.2.2 _ d hd hn).symm
      simp only [Option.some_bind, Option.getD_some]
      cases ht : st.temps nm with
      | none =>
        simp only
        exact ⟨Held_of_frame st _ uuid chunk D slot rfl hb hc (fun _ _ => rfl) (Nat.le_refl _)
          h, trivial⟩
      | some content =>
        simp only
        rw [hcast]
        refine ih (i + 1) _ (fed ++ content) (size + content.length)
          (fun j hj1 hj2 => hap j (by omega) (by omega)) ?_
        refine Held_of_frame st _ uuid chunk D slot rfl hb hc ?_ (Nat.le_refl _) h
        intro d hd
        simp only [State.removeTemp, Function.update_noteq (hne d hd)]

theorem handlePost_stagedForm (lib : Lib) (cd : Codec) (flt : Faults) (now : Int) (c : Config)
    (st : State) (r : PostForm)
    (hacc : ¬ wrapInt64 (r.dztotalchunkcount * r.dzchunksize) > c.MaxBytesPerFile) :
    handlePost lib cd flt now c st r =
      if (st.uploadsInProgress r.dzuuid).getD 0 + 1 = r.dztotalchunkcount then
        ((finalize lib cd flt now (stagedForm c st r) r.dzuuid r.dztotalchunkcount r.Filename).1,
          PostResult.finalized
            (finalize lib cd flt now (stagedForm c st r) r.dzuuid r.dztotalchunkcount
              r.Filename).2)
      else (stagedForm c st r, PostResult.counted (CopyMax r.file c.MaxBytesPerFile).2.2) := by
  unfold handlePost
  simp only [hacc, if_false, TempFile, State.writeTemp, Function.update_idem]
  rfl

/-- Staging and counting a submission of another session, apart from the session's keys, leaves
the session's staged chunks as they are. -/
theorem stagedForm_Held (c : Config) (st : State) (uuid : String) (chunk : Nat → List Byte)
    (N : Nat) (D : List Nat) (slot : Nat → Nat) (r : PostForm) (hne : r.dzuuid ≠ uuid)
    (hap : Apart uuid N r) (hD : ∀ d ∈ D, 1 ≤ d ∧ d ≤ N) (h : Held st uuid chunk D slot) :
    Held (stagedForm c st r) uuid chunk D slot := by
  have hne' : uuid ≠ r.dzuuid := fun hc => hne hc.symm
  refine Held_of_frame st _ uuid chunk D slot ?_ ?_ ?_ ?_ ?_ h
  · simp only [stagedForm, Function.update_noteq hne']
  · intro key name hk
    simp only [stagedForm] at hk ⊢
    by_cases hkk : key = chunkKey r.dzuuid (wrapInt64 (r.dzchunkindex + 1))
    · rw [hkk, Function.update_same] at hk
      exact Or.inr ⟨st.nextTemp, Nat.le_refl _, by omega, (Option.some.inj hk).symm⟩
    · rw [Function.update_noteq hkk] at hk
      exact Or.inl hk
  · intro d hd
    have := (hap d (hD d hd).1 (hD d hd).2).1
    simp only [stagedForm, Function.update_noteq this.symm]
  · intro d hd
    have h1 : tempName (slot d) ≠ tempName st.nextTemp := by
      intro hc
      have := tempName_injective _ _ hc
      have := (h.1.2.1 d hd).2.2
      omega
    simp only [stagedForm, Function.update_noteq h1]
  · simp only [stagedForm]
    omega

/-- A finalization of another session, whose keys are none of the session's, leaves the
session's staged chunks as they are. -/
theorem finalize_Held (lib : Lib) (cd : Codec) (flt : Faults) (now : Int) (st : State)
    (uuid other fname : String) (total : Int) (chunk : Nat → List Byte) (D : List Nat)
    (slot : Nat → Nat) (hne : other ≠ uuid)
    (hap : ∀ j : Nat, 1 ≤ j → (j : Int) ≤ total → ∀ d ∈ D,
      chunkKey other (j : Int) ≠ chunkKey uuid (d : Int))
    (h : Held st uuid chunk D slot) :
    Held (finalize lib cd flt now st other total fname).1 uuid chunk D slot := by
  have hne' : uuid ≠ other := fun hc => hne hc.symm
  have hslot : ∀ d ∈ D, tempName (slot d) ≠ tempName st.nextTemp := by
    intro d hd hc
    have := tempName_injective _ _ hc
    have := (h.1.2.1 d hd).2.2
    omega
  have h0 : Held (TempFile
      { st with uploadsInProgress := Function.update st.uploadsInProgress other none }).2
      uuid chunk D slot := by
    refine Held_of_frame st _ uuid chunk D slot ?_ (fun key name hk => Or.inl hk)
      (fun _ _ => rfl) ?_ ?_ h
    · simp only [TempFile, Function.update_noteq hne']
    · intro d hd
      simp only [TempFile, Function.update_noteq (hslot d hd)]
    · simp only [TempFile]
      omega
  obtain ⟨hcat, hnext⟩ := catChunks_Held uuid other chunk D slot total.toNat 1
    (TempFile { st with uploadsInProgress := Function.update st.uploadsInProgress other none }).2
    [] 0
    (by
      intro j hj1 hj2 d hd
      exact hap j hj1 (by omega) d hd)
    h0
  rw [show ((1 : Nat) : Int) = 1 from rfl] at hcat hnext
  unfold finalize
  simp only
  split
  · exact hcat
  · refine Held_of_frame _ _ uuid chunk D slot ?_ ?_ ?_ ?_ ?_ hcat
    · simp only [copyToContentDirectory_uploadsInProgress, State.writeTemp]
    · intro key name hk
      simp only [(copyToContentDirectory_frame _ _ _ _ _ _ _ _).1, State.writeTemp] at hk
      exact Or.inl hk
    · intro d hd
      simp only [(copyToContentDirectory_frame _ _ _ _ _ _ _ _).1, State.writeTemp]
    · intro d hd
      refine (copyToContentDirectory_temps _ _ _ _ _ _ _ _ _ (hslot d hd)).trans ?_
      exact Function.update_noteq (hslot d hd) _ _
    · simp only [copyToContentDirectory_nextTemp, State.writeTemp, le_refl]

/-- A submission of another session, apart from the session's keys, leaves the session's staged
chunks as they are, whether it runs a finalization or not. -/
theorem handlePost_other_Held (lib : Lib) (cd : Codec) (flt : Faults) (now : Int) (c : Config)
    (st : State) (uuid : String) (chunk : Nat → List Byte) (N : Nat) (D : List Nat)
    (slot : Nat → Nat) (r : PostForm) (hne : r.dzuuid ≠ uuid) (hap : Apart uuid N r)
    (hD : ∀ d ∈ D, 1 ≤ d ∧ d ≤ N) (h : Held st uuid chunk D slot) :
    Held (handlePost lib cd flt now c st r).1 uuid chunk D slot := by
  by_cases hacc : wrapInt64 (r.dztotalchunkcount * r.dzchunksize) > c.MaxBytesPerFile
  · rw [handlePost_tooLarge lib cd flt now c st r hacc]
    exact h
  · rw [handlePost_stagedForm lib cd flt now c st r hacc]
    have hs := stagedForm_Held c st uuid chunk N D slot r hne hap hD h
    split_ifs
    · exact finalize_Held lib cd flt now _ uuid r.dzuuid r.Filename r.dztotalchunkcount chunk D
        slot hne (fun j hj1 hj2 d hd => (hap d (hD d hd).1 (hD d hd).2).2 j hj1 hj2) hs
    · exact hs

/-- Staging the next chunk of the session keeps the session's staged chunks its own. -/
theorem stagedState_Held (st : State) (uuid : String) (chunk : Nat → List Byte)
    (D : List Nat) (slot : Nat → Nat) (i : Nat) (hi : i ∉ D)
    (h : Held st uuid chunk D slot) :
    Held (stagedState st uuid i (chunk i)) uuid chunk (i :: D)
      (Function.update slot i st.nextTemp) := by
  obtain ⟨hst, hiss, hsep⟩ := h
  refine ⟨stagedState_StagedIn st uuid chunk D slot i hi hst, ?_, ?_⟩
  · intro key name hk
    simp only [stagedState] at hk ⊢
    by_cases hkk : key = chunkKey uuid (i : Int)
    · rw [hkk, Function.update_same] at hk
      exact ⟨st.nextTemp, by omega, (Option.some.inj hk).symm⟩
    · rw [Function.update_noteq hkk] at hk
      obtain ⟨k, hk1, hk2⟩ := hiss key name hk
      exact ⟨k, by omega, hk2⟩
  · intro key j hj hk
    simp only [stagedState] at hk
    by_cases hkk : key = chunkKey uuid (i : Int)
    · rw [hkk, Function.update_same] at hk
      have hs := tempName_injective _ _ (Option.some.inj hk)
      rcases List.mem_cons.mp hj with rfl | hjD
      · exact hkk
      · have hne : j ≠ i := fun hc => hi (hc ▸ hjD)
        rw [Function.update_noteq hne] at hs
        have := (hst.2.1 j hjD).2.2
        omega
    · rw [Function.update_noteq hkk] at hk
      rcases List.mem_cons.mp hj with rfl | hjD
      · rw [Function.update_same] at hk
        obtain ⟨k, hk1, hk2⟩ := hiss key _ hk
        have := tempName_injective _ _ hk2
        omega
      · have hne : j ≠ i := fun hc => hi (hc ▸ hjD)
        rw [Function.update_noteq hne] at hk
        exact hsep key j hjD hk

theorem sessionResults_cons_pos (uuid : String) (r : PostForm) (rs : List PostForm)
    (x : PostResult) (xs : List PostResult) (h : r.dzuuid = uuid) :
    sessionResults uuid (r :: rs) (x :: xs) = x :: sessionResults uuid rs xs := by
  simp [sessionResults, h]

theorem sessionResults_cons_neg (uuid : String) (r : PostForm) (rs : List PostForm)
    (x : PostResult) (xs : List PostResult) (h : r.dzuuid ≠ uuid) :
    sessionResults uuid (r :: rs) (x :: xs) = sessionResults uuid rs xs := by
  simp [sessionResults, h]

theorem sessionResults_nil (uuid : String) (rs : List PostForm) (xs : List PostResult)
    (h : rs.filter (fun r => decide (r.dzuuid = uuid)) = []) :
    sessionResults uuid rs xs = [] := by
  unfold sessionResults
  rw [List.map_eq_nil_iff, List.filter_eq_nil_iff]
  intro p hp
  exact List.filter_eq_nil_iff.mp h p.1 (List.of_mem_zip hp).1

theorem CopyMax_no_error (src : List Byte) (maxBytes : Int)
    (h : (src.length : Int) < maxBytes) : (CopyMax src maxBytes).2.2 = none := by
  have h0 : 0 ≤ maxBytes := le_trans (Int.natCast_nonneg _) (le_of_lt h)
  by_contra hc
  have := ((CopyMax_spec src maxBytes h0).2.2).mp hc
  omega

theorem runPosts_among (lib : Lib) (cd : Codec) (flt : Faults) (now : Int) (c : Config)
    (uuid fname : String) (N : Nat) (declared : Nat → Int) (chunk : Nat → List Byte)
    (hN : (N : Int) < 9223372036854775808) (rs : List PostForm) :
    ∀ (l : List Nat) (st : State) (D : List Nat) (slot : Nat → Nat),
      rs.filter (fun r => decide (r.dzuuid = uuid)) =
        l.map (chunkForm uuid fname N declared chunk) →
      (∀ r ∈ rs, r.dzuuid ≠ uuid → Apart uuid N r) →
      l ≠ [] → l.Nodup → (∀ i ∈ l, i ∉ D) → D.length + l.length = N →
      (∀ j, 1 ≤ j → j ≤ N → j ∈ D ∨ j ∈ l) →
      (∀ d ∈ D, 1 ≤ d ∧ d ≤ N) →
      (∀ i ∈ l, 1 ≤ i ∧ i ≤ N ∧ wrapInt64 ((N : Int) * declared i) ≤ c.MaxBytesPerFile ∧
        ((chunk i).length : Int) < c.MaxBytesPerFile) →
      Held st uuid chunk D slot →
      ∃ (tmp : String) (e : Option GoError),
        sessionResults uuid rs (runPosts lib cd flt now c st rs).2 =
          List.replicate (l.length - 1) (PostResult.counted none) ++ [PostResult.finalized
            { fed := (List.range' 1 N).flatMap chunk
              call := some (fname, tmp,
                ((((List.range' 1 N).map fun j => (chunk j).length).sum : Nat) : Int))
              err := e }] := by
  induction rs with
  | nil =>
    intro l st D slot hown _ hne
    cases l with
    | nil => exact absurd rfl hne
    | cons i l => simp at hown
  | cons r rs ih =>
    intro l st D slot hown hothers hne hnd hdis hlen hcover hD hall hheld
    unfold runPosts
    simp only
    by_cases hr : r.dzuuid = uuid
    · rw [List.filter_cons_of_pos (by simpa using hr)] at hown
      cases l with
      | nil => simp at hown
      | cons i l =>
        rw [List.map_cons] at hown
        obtain ⟨hri, hrest⟩ := List.cons.inj hown
        obtain ⟨hi1, hiN, hacc, hsz⟩ := hall i (List.mem_cons_self _ _)
        have hiD : i ∉ D := hdis i (List.mem_cons_self _ _)
        have hheld' := stagedState_Held st uuid chunk D slot i hiD hheld
        have hstep := handlePost_chunkForm lib cd flt now c st uuid fname N declared chunk i hi1
          (by omega) hacc (le_of_lt hsz)
        rw [List.length_cons] at hlen
        rw [sessionResults_cons_pos uuid r rs _ _ hr, hri, hstep]
        by_cases hl : l = []
        · subst hl
          have heq : (st.uploadsInProgress uuid).getD 0 + 1 = (N : Int) := by
            rw [hheld.1.1]
            simp only [List.length_nil] at hlen
            omega
          rw [if_pos heq]
          have hcov' : ∀ j, 1 ≤ j → j ≤ N → j ∈ i :: D := by
            intro j hj1 hjN
            rcases hcover j hj1 hjN with h | h
            · exact List.mem_cons_of_mem _ h
            · rw [List.mem_singleton] at h
              rw [h]
              exact List.mem_cons_self _ _
          obtain ⟨e, he⟩ := finalize_staged lib cd flt now _ uuid fname chunk N (i :: D) _
            hheld'.1 hcov'
          refine ⟨tempName (stagedState st uuid i (chunk i)).nextTemp, e, ?_⟩
          simp only [he]
          rw [sessionResults_nil uuid rs _ (by rw [hrest]; rfl)]
          rfl
        · have hpos : 0 < l.length := List.length_pos.mpr hl
          have hnf : ¬ (st.uploadsInProgress uuid).getD 0 + 1 = (N : Int) := by
            rw [hheld.1.1]
            omega
          rw [if_neg hnf]
          simp only
          obtain ⟨tmp, e, hres⟩ :=
            ih l (stagedState st uuid i (chunk i)) (i :: D) (Function.update slot i st.nextTemp)
              hrest (fun r' hr' => hothers r' (List.mem_cons_of_mem _ hr')) hl
              (List.nodup_cons.mp hnd).2
              (by
                intro j hj hjD
                rcases List.mem_cons.mp hjD with rfl | hjD
                · exact (List.nodup_cons.mp hnd).1 hj
                · exact hdis j (List.mem_cons_of_mem _ hj) hjD)
              (by simp only [List.length_cons]; omega)
              (by
                intro j hj1 hjN
                rcases hcover j hj1 hjN with h | h
                · exact Or.inl (List.mem_cons_of_mem _ h)
                · rcases List.mem_cons.mp h with rfl | h
                  · exact Or.inl (List.mem_cons_self _ _)
                  · exact Or.inr h)
              (by
                intro d hd
                rcases List.mem_cons.mp hd with rfl | hd
                · exact ⟨hi1, hiN⟩
                · exact hD d hd)
              (fun j hj => hall j (List.mem_cons_of_mem _ hj)) hheld'
          refine ⟨tmp, e, ?_⟩
          rw [hres, CopyMax_no_error _ _ hsz]
          have hrep : (i :: l).length - 1 = (l.length - 1) + 1 := by
            simp only [List.length_cons]
            omega
          rw [hrep, List.replicate_succ]
          rfl
    · rw [List.filter_cons_of_neg (by simpa using hr)] at hown
      rw [sessionResults_cons_neg uuid r rs _ _ hr]
      exact ih l _ D slot hown (fun r' hr' => hothers r' (List.mem_cons_of_mem _ hr')) hne hnd
        hdis hlen hcover hD hall
        (handlePost_other_Held lib cd flt now c st uuid chunk N D slot r hr
          (hothers r (List.mem_cons_self _ _) hr) hD hheld)

/-- C1 (counterexample).  First, a one-chunk session whose chunk has the three bytes `1, 2, 3`,
under a per-file ceiling of two bytes: the chunk is staged cut to two bytes, so the finalization
feeds the compressing writer `1, 2`, which is not the chunk, and passes
`copyToContentDirectory` the size 2, which is not the chunk's length 3.  Second, a session `u1`
of two one-byte chunks `1` and `2`, each submitted once, with one submission of chunk 11 of the
session `u` between them: both `u1` with `1` and `u` with `11` give the key `u11`, the later
entry replaces the earlier one, and the finalization of `u1` feeds `99, 2`, which is not
`1, 2`. -/
theorem handlePost_cuts_oversized_chunk :
    (∃ fin : Finalization,
      (runPosts Lib.plain Codec.plain Faults.none 0
        { Config.small with MaxBytesPerFile := 2 } State.init
        [chunkForm "u" "f" 1 (fun _ => 0) (fun _ => [1, 2, 3]) 1]).2 =
          [PostResult.finalized fin] ∧
      fin.fed = [1, 2] ∧ fin.fed ≠ (List.range' 1 1).flatMap (fun _ => [1, 2, 3]) ∧
      fin.call = some ("f", "sharetemp1", 2) ∧
      (2 : Int) ≠
        (((List.range' 1 1).map fun _ => ([1, 2, 3] : List Byte).length).sum : Nat)) ∧
    (chunkKey "u1" 1 = chunkKey "u" 11 ∧
      (runPosts Lib.plain Codec.plain Faults.none 0 Config.small State.init
        [chunkForm "u1" "f" 2 (fun _ => 10) (fun i => [UInt8.ofNat i]) 1,
          chunkForm "u" "g" 12 (fun _ => 1) (fun _ => [99]) 11,
          chunkForm "u1" "f" 2 (fun _ => 10) (fun i => [UInt8.ofNat i]) 2]).2 =
        [PostResult.counted none, PostResult.counted none,
          PostResult.finalized
            { fed := [99, 2], call := some ("f", "sharetemp3", 2), err := none }] ∧
      ([99, 2] : List Byte) ≠ (List.range' 1 2).flatMap (fun i => [UInt8.ofNat i])) :=
  ⟨⟨{ fed := [1, 2], call := some ("f", "sharetemp1", 2), err := none },
      by decide, by decide, by decide, by decide, by decide⟩,
    by decide, by decide, by decide⟩

/-- C1 (amended). For every session token not yet in `uploadsInProgress` and every `N >= 1`,
take any sequence `rs` of `handlePost` runs, from a state in which every file name recorded in
`uploadsFileNames` was handed out by `ioutil.TempFile` before, such that the submissions of
`rs` that carry the token are exactly the `N` chunks with indices `1..N`, once each, in any
order, with `totalChunks = N`, each passing the declared-size check and each chunk shorter than
`MaxBytesPerFile`, and such that every submission of another token uses no key of
`uploadsFileNames` of the session (`Apart`).  Then the first `N - 1` submissions of the session
are counted without an error and its last submission runs the finalization, which feeds the
compressing writer exactly the concatenation `chunk 1, chunk 2, ..., chunk N` in index order and
passes `copyToContentDirectory` the sum of the `N` chunk lengths as the logical size. -/
theorem handlePost_assembles_in_index_order (lib : Lib) (cd : Codec) (flt : Faults) (now : Int)
    (c : Config) (st : State) (uuid fname : String) (N : Nat) (declared : Nat → Int)
    (chunk : Nat → List Byte) (order : List Nat) (rs : List PostForm)
    (hN1 : 1 ≤ N) (hN : (N : Int) < 9223372036854775808)
    (hperm : order.Perm (List.range' 1 N)) (hnew : st.uploadsInProgress uuid = none)
    (hiss : st.NamesIssued)
    (hown : rs.filter (fun r => decide (r.dzuuid = uuid)) =
      order.map (chunkForm uuid fname N declared chunk))
    (hothers : ∀ r ∈ rs, r.dzuuid ≠ uuid → Apart uuid N r)
    (hacc : ∀ i ∈ order, wrapInt64 ((N : Int) * declared i) ≤ c.MaxBytesPerFile)
    (hlen : ∀ i ∈ order, ((chunk i).length : Int) < c.MaxBytesPerFile) :
    ∃ (tmp : String) (e : Option GoError),
      sessionResults uuid rs (runPosts lib cd flt now c st rs).2 =
        List.replicate (N - 1) (PostResult.counted none) ++ [PostResult.finalized
          { fed := (List.range' 1 N).flatMap chunk
            call := some (fname, tmp,
              ((((List.range' 1 N).map fun j => (chunk j).length).sum : Nat) : Int))
            err := e }] := by
  have hlenO : order.length = N := by rw [hperm.length_eq, List.length_range']
  have hmem : ∀ i, i ∈ order ↔ 1 ≤ i ∧ i ≤ N := by
    intro i
    rw [hperm.mem_iff, List.mem_range'_1]
    omega
  have hne : order ≠ [] := by
    intro h
    rw [h] at hlenO
    simp only [List.length_nil] at hlenO
    omega
  obtain ⟨tmp, e, hres⟩ :=
    runPosts_among lib cd flt now c uuid fname N declared chunk hN rs order st []
      (fun _ => 0) hown hothers hne (hperm.nodup_iff.mpr (List.nodup_range' 1 N))
      (fun i _ => List.not_mem_nil i) (by simp only [List.length_nil]; omega)
      (fun j hj1 hjN => Or.inr ((hmem j).mpr ⟨hj1, hjN⟩))
      (fun d hd => absurd hd (List.not_mem_nil d))
      (fun i hi => ⟨((hmem i).mp hi).1, ((hmem i).mp hi).2, hacc i hi, hlen i hi⟩)
      ⟨⟨by rw [hnew]; rfl, fun i hi => absurd hi (List.not_mem_nil i),
        fun i hi => absurd hi (List.not_mem_nil i)⟩, hiss,
        fun _ i hi => absurd hi (List.not_mem_nil i)⟩
  exact ⟨tmp, e, by rw [hres, hlenO]⟩

/-- Witness for the amended C1: chunks of 10, 10 and 5 bytes of the session `u` submitted in the
order 2, 1, 3 under a ceiling of 100 bytes, with the two chunks of a session `v` submitted
between them, the second of which runs the finalization of `v`; the logical size passed on for
`u` is 25. -/
theorem handlePost_assembles_in_index_order_witness :
    ([2, 1, 3].Perm (List.range' 1 3) ∧ State.init.uploadsInProgress "u" = none) ∧
    ∃ (tmp : String) (e : Option GoError),
      sessionResults "u"
        [chunkForm "v" "g" 2 (fun _ => 10) (fun _ => [7]) 1,
          chunkForm "u" "f" 3 (fun _ => 10)
            (fun i => List.replicate (if i = 3 then 5 else 10) (UInt8.ofNat i)) 2,
          chunkForm "u" "f" 3 (fun _ => 10)
            (fun i => List.replicate (if i = 3 then 5 else 10) (UInt8.ofNat i)) 1,
          chunkForm "v" "g" 2 (fun _ => 10) (fun _ => [7]) 2,
          chunkForm "u" "f" 3 (fun _ => 10)
            (fun i => List.replicate (if i = 3 then 5 else 10) (UInt8.ofNat i)) 3]
        (runPosts Lib.plain Codec.plain Faults.none 0 Config.small State.init
          [chunkForm "v" "g" 2 (fun _ => 10) (fun _ => [7]) 1,
            chunkForm "u" "f" 3 (fun _ => 10)
              (fun i => List.replicate (if i = 3 then 5 else 10) (UInt8.ofNat i)) 2,
            chunkForm "u" "f" 3 (fun _ => 10)
              (fun i => List.replicate (if i = 3 then 5 else 10) (UInt8.ofNat i)) 1,
            chunkForm "v" "g" 2 (fun _ => 10) (fun _ => [7]) 2,
            chunkForm "u" "f" 3 (fun _ => 10)
              (fun i => List.replicate (if i = 3 then 5 else 10) (UInt8.ofNat i)) 3]).2 =
        List.replicate (3 - 1) (PostResult.counted none) ++ [PostResult.finalized
          { fed := (List.range' 1 3).flatMap
              (fun i => List.replicate (if i = 3 then 5 else 10) (UInt8.ofNat i))
            call := some ("f", tmp,
              ((((List.range' 1 3).map fun j =>
                (List.replicate (if j = 3 then 5 else 10) (UInt8.ofNat j)).length).sum : Nat) :
                  Int))
            err := e }] :=
  ⟨⟨by decide, rfl⟩,
    handlePost_assembles_in_index_order Lib.plain Codec.plain Faults.none 0 Config.small
      State.init "u" "f" 3 (fun _ => 10)
      (fun i => List.replicate (if i = 3 then 5 else 10) (UInt8.ofNat i)) [2, 1, 3] _
      (by decide) (by decide) (by decide) rfl
      (fun _ _ hk => absurd hk (by simp [State.init]))
      (by simp [chunkForm])
      (fun r hr hne => Apart_of_length_eq "u" 3 r
        (by
          simp only [List.mem_cons, List.mem_singleton, List.not_mem_nil, or_false] at hr
          rcases hr with rfl | rfl | rfl | rfl | rfl <;> rfl)
        hne)
      (by decide) (by decide)⟩

end Share
